import Mathlib

/-!
# getris: game-phase state machine and tetromino/board mechanics

A shallow embedding of `tetromino.go`, `game.go`, `constants.go` and the event
types of `input.go`.

Conventions of the embedding:

* `int32` values are integers in `[-2^31, 2^31)` (`I32`); every arithmetic
  operation wraps around modulo `2^32` like Go's.
* `int` values are integers in `[-2^63, 2^63)` (`GoInt`, Go's `int` on a 64-bit
  target), with wrapping operations and truncated division.
* A fixed-size array `[n]T` is a function `Fin n → T`.
* A nullable `*tetromino` is an `Option tetromino`; the two pointers of the
  game state never alias, so a slot holds a value.
* A run-time panic (nil dereference, index out of range, `log.Fatal`, a ticker
  handed a duration that is not positive) is the result `none`.
* A `float64` value is an exact fraction (`F64`) and the arithmetic on it is
  exact: no rounding. The only use of `float64` is `DropInterval`, of which the
  embedding reads whether the duration is positive; the durations the theorems
  evaluate are 8.29, 1.08, 0.41 and 0.39 ns, which no rounding moves across
  1 ns.
* The sleeps do not change the data and are left out, and so is the time a
  timer or ticker waits: a phase handler is a function on the game state, the
  random selector and the events it consumes are arguments. The mutex is left
  out of these functions; where it matters which writes are made under it, a
  handler is cut at its `WithLock` calls into a list of `lockStep`s.
* One turn of the loop of `Run` is `gameState.runStep`; the function a hard drop
  hands to `time.AfterFunc` is `gameState.clearTrail`, which may run between any
  two turns (`Reachable`).
-/

namespace Getris

/-! ## Machine integers -/

/-- Wrap-around of an integer into the `int32` range. -/
def wrap32 (x : Int) : Int := (x + 2147483648) % 4294967296 - 2147483648

/-- Wrap-around of an integer into the 64-bit `int` range. -/
def wrap64 (x : Int) : Int :=
  (x + 9223372036854775808) % 18446744073709551616 - 9223372036854775808

/-- Go's `int32`. -/
structure I32 where
  val : Int
  lo : -2147483648 ≤ val
  hi : val < 2147483648
deriving DecidableEq

/-- Go's `int` (64-bit). -/
structure GoInt where
  val : Int
  lo : -9223372036854775808 ≤ val
  hi : val < 9223372036854775808
deriving DecidableEq

namespace I32

/-- The `int32` an integer wraps to (a constant or a conversion). -/
def ofInt (x : Int) : I32 :=
  ⟨wrap32 x, by unfold wrap32; omega, by unfold wrap32; omega⟩

/-- Go's `a + b` on `int32`. -/
def add (a b : I32) : I32 := ofInt (a.val + b.val)

/-- Go's `a - b` on `int32`. -/
def sub (a b : I32) : I32 := ofInt (a.val - b.val)

/-- Go's `-a` on `int32`. -/
def neg (a : I32) : I32 := ofInt (-a.val)

end I32

namespace GoInt

/-- The `int` an integer wraps to. -/
def ofInt (x : Int) : GoInt :=
  ⟨wrap64 x, by unfold wrap64; omega, by unfold wrap64; omega⟩

/-- Go's `a + b` on `int`. -/
def add (a b : GoInt) : GoInt := ofInt (a.val + b.val)

/-- Go's `a * b` on `int`. -/
def mul (a b : GoInt) : GoInt := ofInt (a.val * b.val)

/-- Go's `a / b` on `int`: the quotient truncated toward zero. -/
def div (a b : GoInt) : GoInt := ofInt (Int.tdiv a.val b.val)

/-- Go's `a - b` on `int`. -/
def sub (a b : GoInt) : GoInt := ofInt (a.val - b.val)

end GoInt

/-- A `float64` value, as the exact fraction `num / den`. -/
structure F64 where
  num : Int
  den : Nat

namespace F64

/-- The conversion `float64(x)` of an integer. -/
def ofInt (x : Int) : F64 := ⟨x, 1⟩

/-- Go's `a - b` on `float64`. -/
def sub (a b : F64) : F64 := ⟨a.num * b.den - b.num * a.den, a.den * b.den⟩

/-- Go's `a * b` on `float64`. -/
def mul (a b : F64) : F64 := ⟨a.num * b.num, a.den * b.den⟩

/-- The inverse `1 / a`. -/
def inv (a : F64) : F64 :=
  if 0 ≤ a.num then ⟨a.den, a.num.natAbs⟩ else ⟨-a.den, a.num.natAbs⟩

/-- The call `math.Pow(x, y)` for an integral `y`: the product of `y` factors
`x`, inverted when `y` is negative. -/
def pow (x : F64) (y : Int) : F64 :=
  if 0 ≤ y then ⟨x.num ^ y.toNat, x.den ^ y.toNat⟩
  else inv ⟨x.num ^ (-y).toNat, x.den ^ (-y).toNat⟩

/-- The conversion of a `float64` to `int64` (`time.Duration(x)`): the value
truncated toward zero. Out of the range of `int64` the result depends on the
implementation; it is the least `int64` here, as on amd64. -/
def toInt64 (x : F64) : Int :=
  let n := Int.tdiv x.num x.den
  if -9223372036854775808 ≤ n ∧ n ≤ 9223372036854775807 then n else -9223372036854775808

end F64

/-! ## constants.go -/

def boardCellsX : I32 := I32.ofInt 10
def boardCellsY : I32 := I32.ofInt 40
def tetrominoGenerateX : I32 := I32.ofInt 5
def tetrominoGenerateY : I32 := I32.ofInt 20
def tetrominoHoldingX : I32 := I32.ofInt 2
def tetrominoHoldingY : I32 := I32.ofInt 2
def tetrominoQueueSize : I32 := I32.ofInt 5
def tetrominoQueueX : I32 := I32.ofInt 2
def tetrominoQueueY : I32 := I32.ofInt 1
def linesClearedPerLevel : GoInt := GoInt.ofInt 10

/-- The constant `softDropMultiplier float64 = 0.05`. -/
def softDropMultiplier : F64 := ⟨5, 100⟩

/-- The constant `time.Second`, in nanoseconds. -/
def timeSecond : Int := 1000000000

/-- The colour type of raylib: four bytes. -/
structure Color where
  R : Fin 256
  G : Fin 256
  B : Fin 256
  A : Fin 256
deriving DecidableEq

/-- The colour `rl.GetColor` makes of a hexadecimal `0xRRGGBBAA`. -/
def GetColor (hexValue : Nat) : Color :=
  { R := Fin.ofNat (hexValue / 16777216)
    G := Fin.ofNat (hexValue / 65536)
    B := Fin.ofNat (hexValue / 256)
    A := Fin.ofNat hexValue }

/-- The colour `rl.Black`. -/
def Black : Color := { R := 0, G := 0, B := 0, A := 255 }

/-- The zero value of `rl.Color`. -/
def zeroColor : Color := { R := 0, G := 0, B := 0, A := 0 }

def oTetriminoColor : Color := GetColor 0xFCFC32FF
def iTetriminoColor : Color := GetColor 0x5193E8FF
def tTetriminoColor : Color := GetColor 0xAC17ACFF
def lTetriminoColor : Color := GetColor 0xFFA122FF
def jTetriminoColor : Color := GetColor 0x310CA9FF
def sTetriminoColor : Color := GetColor 0x00C400FF
def zTetriminoColor : Color := GetColor 0xF50000FF

/-! ## Cells and the board (game.go) -/

structure cell where
  IsFilled : Bool
  IsGhost : Bool
  Color : Color
deriving DecidableEq

/-- The zero value `cell{}`. -/
def zeroCell : cell := { IsFilled := false, IsGhost := false, Color := zeroColor }

/-- One row of the board, `[boardCellsX]cell`. -/
abbrev boardRow : Type := Fin 10 → cell

/-- The board, `[boardCellsY][boardCellsX]cell`; row 0 is the bottom. -/
abbrev board : Type := Fin 40 → boardRow

/-- The zero value `[boardCellsX]cell{}`. -/
def zeroRow : boardRow := fun _ => zeroCell

/-- The read `b[y][x]` with `int32` indices: `none` is the index-out-of-range
panic. -/
def board.at? (b : board) (y x : I32) : Option cell :=
  if h : 0 ≤ y.val ∧ y.val < 40 ∧ 0 ≤ x.val ∧ x.val < 10 then
    some (b ⟨y.val.toNat, by omega⟩ ⟨x.val.toNat, by omega⟩)
  else none

/-- The board with the cell at row `i`, column `j` replaced. -/
def board.set (b : board) (i : Fin 40) (j : Fin 10) (c : cell) : board :=
  fun i' j' => if i' = i ∧ j' = j then c else b i' j'

/-- The write `b[y][x] = g (b[y][x])` with `int32` indices: `none` is the
index-out-of-range panic. -/
def board.modify? (b : board) (y x : I32) (g : cell → cell) : Option board :=
  if h : 0 ≤ y.val ∧ y.val < 40 ∧ 0 ≤ x.val ∧ x.val < 10 then
    some (b.set ⟨y.val.toNat, by omega⟩ ⟨x.val.toNat, by omega⟩
      (g (b ⟨y.val.toNat, by omega⟩ ⟨x.val.toNat, by omega⟩)))
  else none

/-! ## tetromino.go -/

structure tetromino where
  OriginX : I32
  OriginY : I32
  cells : Fin 4 → I32 × I32
  color : Color

/-- The absolute coordinates `(cell[0]+t.OriginX, cell[1]+t.OriginY)` that
`cellIterator` hands to the iterator function for cell `i`. -/
def tetromino.absCell (t : tetromino) (i : Fin 4) : I32 × I32 :=
  (I32.add (t.cells i).1 t.OriginX, I32.add (t.cells i).2 t.OriginY)

/-- The loop of `cellIterator` over the cells listed in `is`: the iterator
function `f` reads and writes the captured state `σ`; the loop stops at the
first cell for which `f` returns true. -/
def tetromino.cellIteratorOver {σ : Type} (t : tetromino)
    (f : I32 → I32 → σ → Option (Bool × σ)) : List (Fin 4) → σ → Option (Bool × σ)
  | [], s => some (false, s)
  | i :: is, s =>
    match f (t.absCell i).1 (t.absCell i).2 s with
    | none => none
    | some (true, s') => some (true, s')
    | some (false, s') => t.cellIteratorOver f is s'

/-- The method `cellIterator`: `for _, cell := range t.cells`. -/
def tetromino.cellIterator {σ : Type} (t : tetromino)
    (f : I32 → I32 → σ → Option (Bool × σ)) (s : σ) : Option (Bool × σ) :=
  t.cellIteratorOver f [0, 1, 2, 3] s

/-- The iterator function of `CheckCollision`. -/
def checkCollisionVisit (x y : I32) (b : board) : Option (Bool × board) :=
  if x.val < 0 || x.val ≥ boardCellsX.val || y.val < 0 || y.val ≥ boardCellsY.val then
    some (true, b)
  else
    match b.at? y x with
    | none => none
    | some c => some (c.IsFilled, b)

/-- The method `CheckCollision`. -/
def tetromino.CheckCollision (t : tetromino) (b : board) : Option Bool :=
  match t.cellIterator checkCollisionVisit b with
  | none => none
  | some (r, _) => some r

/-- The iterator function of `CommitToBoard`. -/
def commitVisit (color : Color) (x y : I32) (b : board) : Option (Bool × board) :=
  match b.modify? y x (fun c => { c with IsFilled := true }) with
  | none => none
  | some b1 =>
    match b1.modify? y x (fun c => { c with Color := color }) with
    | none => none
    | some b2 => some (false, b2)

/-- The method `CommitToBoard`. -/
def tetromino.CommitToBoard (t : tetromino) (b : board) : Option board :=
  match t.cellIterator (commitVisit t.color) b with
  | none => none
  | some (_, b') => some b'

/-- The iterator function of `CommitTrailToBoard`. -/
def commitTrailVisit (color : Color) (x y : I32) (b : board) : Option (Bool × board) :=
  match b.modify? y x (fun c => { c with IsGhost := true }) with
  | none => none
  | some b1 =>
    match b1.modify? y x (fun c => { c with Color := color }) with
    | none => none
    | some b2 => some (false, b2)

/-- The method `CommitTrailToBoard`. -/
def tetromino.CommitTrailToBoard (t : tetromino) (b : board) : Option board :=
  match t.cellIterator (commitTrailVisit t.color) b with
  | none => none
  | some (_, b') => some b'

/-- One iteration of the loop of `RotateClockwise`:
`t.cells[i][0], t.cells[i][1] = t.cells[i][1], -t.cells[i][0]`. -/
def rotateCellClockwise (cells : Fin 4 → I32 × I32) (i : Fin 4) : Fin 4 → I32 × I32 :=
  Function.update cells i ((cells i).2, I32.neg (cells i).1)

/-- One iteration of the loop of `RotateCounterClockwise`:
`t.cells[i][0], t.cells[i][1] = -t.cells[i][1], t.cells[i][0]`. -/
def rotateCellCounterClockwise (cells : Fin 4 → I32 × I32) (i : Fin 4) :
    Fin 4 → I32 × I32 :=
  Function.update cells i (I32.neg (cells i).2, (cells i).1)

/-- The method `RotateClockwise`: `for i := 0; i < 4; i++`. -/
def tetromino.RotateClockwise (t : tetromino) : tetromino :=
  { t with cells := [(0 : Fin 4), 1, 2, 3].foldl rotateCellClockwise t.cells }

/-- The method `RotateCounterClockwise`: `for i := 0; i < 4; i++`. -/
def tetromino.RotateCounterClockwise (t : tetromino) : tetromino :=
  { t with cells := [(0 : Fin 4), 1, 2, 3].foldl rotateCellCounterClockwise t.cells }

/-- A cell array literal `[4][2]int32{...}`. -/
def cells4 (c0 c1 c2 c3 : Int × Int) : Fin 4 → I32 × I32 :=
  fun i =>
    match i with
    | 0 => (I32.ofInt c0.1, I32.ofInt c0.2)
    | 1 => (I32.ofInt c1.1, I32.ofInt c1.2)
    | 2 => (I32.ofInt c2.1, I32.ofInt c2.2)
    | 3 => (I32.ofInt c3.1, I32.ofInt c3.2)

/-- The factory `NewRandomTetromino`, with the value of `rl.GetRandomValue(0, 6)`
as the argument `r`; `none` is the `log.Fatal` of a selector outside `0..6`. -/
def NewRandomTetromino (r : Int) (originX originY : I32) : Option tetromino :=
  if r = 0 then
    some { OriginX := originX, OriginY := originY, color := oTetriminoColor,
           cells := cells4 (0, 0) (0, 1) (1, 1) (1, 0) }
  else if r = 1 then
    some { OriginX := originX, OriginY := originY, color := iTetriminoColor,
           cells := cells4 (0, 0) (-1, 0) (1, 0) (2, 0) }
  else if r = 2 then
    some { OriginX := originX, OriginY := originY, color := tTetriminoColor,
           cells := cells4 (0, 0) (-1, 0) (0, 1) (1, 0) }
  else if r = 3 then
    some { OriginX := originX, OriginY := originY, color := lTetriminoColor,
           cells := cells4 (0, 0) (-1, 0) (1, 1) (1, 0) }
  else if r = 4 then
    some { OriginX := originX, OriginY := originY, color := jTetriminoColor,
           cells := cells4 (0, 0) (-1, 0) (-1, -1) (1, 0) }
  else if r = 5 then
    some { OriginX := originX, OriginY := originY, color := sTetriminoColor,
           cells := cells4 (0, 0) (-1, 0) (0, 1) (1, 1) }
  else if r = 6 then
    some { OriginX := originX, OriginY := originY, color := zTetriminoColor,
           cells := cells4 (0, 0) (-1, 1) (0, 1) (1, 0) }
  else none

/-! ## input.go: the events the phase handlers consume -/

inductive Input where
  | Input_Pause
  | Input_Hold
  | Input_RotateCounterClockwise
  | Input_RotateClockwise
  | Input_HardDrop
  | Input_SoftDrop
  | Input_MoveLeft
  | Input_MoveRight
deriving DecidableEq

inductive Action where
  | Action_Down
  | Action_Hold
  | Action_Up
deriving DecidableEq

structure InputEvent where
  Input : Input
  Action : Action
  KeyCode : I32

/-- What one `select` of `FallingPhase` receives: a tick of the drop ticker or
an input event. -/
inductive Event where
  | dropTick
  | input (event : InputEvent)

/-! ## game.go: the game state -/

inductive phase where
  | phase_Generation
  | phase_Falling
  | phase_Lock
  | phase_Completion
  | phase_Paused
  | phase_GameOver
  | phase_End
deriving DecidableEq

open phase Input Action

structure gameState where
  ActiveTetromino : Option tetromino
  HoldingTetromino : Option tetromino
  TetrominoQueue : Fin 5 → tetromino
  Board : board
  Phase : phase
  linesCleared : GoInt
  Score : GoInt
  IsDone : Bool

/-- The zero value `tetromino{}`. -/
def zeroTetromino : tetromino :=
  { OriginX := I32.ofInt 0, OriginY := I32.ofInt 0,
    cells := fun _ => (I32.ofInt 0, I32.ofInt 0), color := zeroColor }

/-- The queue loop of `newGameState` over the indices listed, with the random
selector `rs i` for entry `i`. -/
def newQueueLoop (rs : Fin 5 → Int) :
    List (Fin 5) → (Fin 5 → tetromino) → Option (Fin 5 → tetromino)
  | [], q => some q
  | i :: is, q =>
    match NewRandomTetromino (rs i) tetrominoQueueX
        (I32.add tetrominoQueueY (I32.ofInt (i.val * 4))) with
    | none => none
    | some t => newQueueLoop rs is (Function.update q i t)

/-- The board the loop of `newGameState` builds: every cell
`cell{IsFilled: false, Color: rl.Black}`. -/
def newBoard : board :=
  fun _ _ => { IsFilled := false, IsGhost := false, Color := Black }

/-- The constructor `newGameState`, with the five random selectors as argument. -/
def newGameState (rs : Fin 5 → Int) : Option gameState :=
  match newQueueLoop rs [0, 1, 2, 3, 4] (fun _ => zeroTetromino) with
  | none => none
  | some q =>
    some { ActiveTetromino := none
           HoldingTetromino := none
           TetrominoQueue := q
           Board := newBoard
           Phase := phase_Generation
           linesCleared := GoInt.ofInt 0
           Score := GoInt.ofInt 0
           IsDone := false }

/-- The method `Level`: `int(gs.linesCleared/linesClearedPerLevel) + 1`. -/
def gameState.Level (gs : gameState) : GoInt :=
  GoInt.add (GoInt.div gs.linesCleared linesClearedPerLevel) (GoInt.ofInt 1)

/-- The method `DropInterval`, in nanoseconds:
`math.Pow(0.8-(level*0.007), level) * multiplier` seconds, with
`level = float64(gs.Level() - 1)`. -/
def gameState.DropInterval (gs : gameState) (multiplier : F64) : Int :=
  let level : Int := (GoInt.sub gs.Level (GoInt.ofInt 1)).val
  let interval : F64 :=
    F64.mul (F64.pow (F64.sub ⟨8, 10⟩ (F64.mul (F64.ofInt level) ⟨7, 1000⟩)) level) multiplier
  F64.toInt64 (F64.mul interval (F64.ofInt timeSecond))

/-! ### Tetromino actions -/

/-- The piece with `OriginY -= 1`. -/
def tetromino.down (t : tetromino) : tetromino :=
  { t with OriginY := I32.sub t.OriginY (I32.ofInt 1) }

/-- The piece with `OriginY += 1`. -/
def tetromino.up (t : tetromino) : tetromino :=
  { t with OriginY := I32.add t.OriginY (I32.ofInt 1) }

/-- The piece with `OriginX -= 1`. -/
def tetromino.left (t : tetromino) : tetromino :=
  { t with OriginX := I32.sub t.OriginX (I32.ofInt 1) }

/-- The piece with `OriginX += 1`. -/
def tetromino.right (t : tetromino) : tetromino :=
  { t with OriginX := I32.add t.OriginX (I32.ofInt 1) }

/-- The pattern the five move operations share: mutate the active piece with
`move`, test the collision with the board, and undo with `back` when it
collides. The result is `didCollide` and the state left behind. -/
def gameState.tryMove (gs : gameState) (move back : tetromino → tetromino) :
    Option (Bool × gameState) :=
  match gs.ActiveTetromino with
  | none => none
  | some t =>
    match (move t).CheckCollision gs.Board with
    | none => none
    | some true => some (true, { gs with ActiveTetromino := some (back (move t)) })
    | some false => some (false, { gs with ActiveTetromino := some (move t) })

def gameState.ActiveTetrominoDown (gs : gameState) : Option (Bool × gameState) :=
  gs.tryMove tetromino.down tetromino.up

def gameState.ActiveTetrominoLeft (gs : gameState) : Option (Bool × gameState) :=
  gs.tryMove tetromino.left tetromino.right

def gameState.ActiveTetrominoRight (gs : gameState) : Option (Bool × gameState) :=
  gs.tryMove tetromino.right tetromino.left

def gameState.ActiveTetrominoRotateClockwise (gs : gameState) : Option (Bool × gameState) :=
  gs.tryMove tetromino.RotateClockwise tetromino.RotateCounterClockwise

def gameState.ActiveTetrominoRotateCounterClockwise (gs : gameState) :
    Option (Bool × gameState) :=
  gs.tryMove tetromino.RotateCounterClockwise tetromino.RotateClockwise

/-- The method `ActiveTetrominoHold`; the result is `shouldGenerate` and the
state left behind. -/
def gameState.ActiveTetrominoHold (gs : gameState) : Option (Bool × gameState) :=
  -- gs.HoldingTetromino, gs.ActiveTetromino = gs.ActiveTetromino, gs.HoldingTetromino
  let gs1 : gameState :=
    { gs with HoldingTetromino := gs.ActiveTetromino, ActiveTetromino := gs.HoldingTetromino }
  match gs1.HoldingTetromino with
  | none => none
  | some h =>
    let held : tetromino :=
      { h with OriginX := tetrominoHoldingX, OriginY := tetrominoHoldingY }
    let gs2 : gameState := { gs1 with HoldingTetromino := some held }
    match gs2.ActiveTetromino with
    | some a =>
      let spawned : tetromino :=
        { a with OriginX := tetrominoGenerateX, OriginY := tetrominoGenerateY }
      some (false, { gs2 with ActiveTetromino := some spawned })
    | none => some (true, gs2)

/-- The descent loop of `ActiveTetrominoHardDown`, run for at most `fuel`
iterations: `none` is a panic or the fuel running out. -/
def hardDownLoop : Nat → tetromino → board → Option (tetromino × board)
  | 0, _, _ => none
  | fuel + 1, t, b =>
    match t.down.CheckCollision b with
    | none => none
    | some true => some (t.down.up, b)
    | some false =>
      match t.down.CommitTrailToBoard b with
      | none => none
      | some b' => hardDownLoop fuel t.down b'

/-- The locked part of `ActiveTetrominoHardDown` (the descent). -/
def gameState.ActiveTetrominoHardDown (fuel : Nat) (gs : gameState) : Option gameState :=
  match gs.ActiveTetromino with
  | none => none
  | some t =>
    match hardDownLoop fuel t gs.Board with
    | none => none
    | some (t', b') => some { gs with ActiveTetromino := some t', Board := b' }

/-- The function `ActiveTetrominoHardDown` hands to `time.AfterFunc`: every
cell loses its ghost mark. -/
def gameState.clearTrail (gs : gameState) : gameState :=
  { gs with Board := fun i j => { gs.Board i j with IsGhost := false } }

/-! ### Phases -/

/-- One iteration `gs.TetrominoQueue[i] = gs.TetrominoQueue[i-1];
gs.TetrominoQueue[i].OriginY += 4` of the queue loop of `GenerationPhase`,
with `p = (i, i-1)`. -/
def queueShiftStep (q : Fin 5 → tetromino) (p : Fin 5 × Fin 5) : Fin 5 → tetromino :=
  Function.update q p.1
    { q p.2 with OriginY := I32.add (q p.2).OriginY (I32.ofInt 4) }

/-- The queue loop of `GenerationPhase`: `for i := tetrominoQueueSize - 1; i > 0; i--`. -/
def queueShift (q : Fin 5 → tetromino) : Fin 5 → tetromino :=
  [((4 : Fin 5), (3 : Fin 5)), (3, 2), (2, 1), (1, 0)].foldl queueShiftStep q

/-- The method `GenerationPhase`, with the value of `rl.GetRandomValue(0, 6)` as
the argument `r`. -/
def gameState.GenerationPhase (gs : gameState) (r : Int) : Option gameState :=
  let topmino : tetromino :=
    { gs.TetrominoQueue 4 with OriginX := tetrominoGenerateX, OriginY := tetrominoGenerateY }
  match topmino.CheckCollision gs.Board with
  | none => none
  | some gameOver =>
    match NewRandomTetromino r tetrominoQueueX tetrominoQueueY with
    | none => none
    | some fresh =>
      some { gs with
        ActiveTetromino := some topmino
        TetrominoQueue := Function.update (queueShift gs.TetrominoQueue) 0 fresh
        Phase := if gameOver then phase_GameOver else phase_Falling }

/-- The closure `adjustTicker` of `FallingPhase`:
`dropTicker.Reset(gs.DropInterval(multiplier))`, which panics on a duration
that is not positive. The ticker is not part of the state. -/
def gameState.adjustTicker (gs : gameState) (multiplier : F64) : Option Unit :=
  if gs.DropInterval multiplier ≤ 0 then none else some ()

/-- One iteration of the loop of `FallingPhase`, on the event its `select`
received. The result is the flag `done` and the state left behind. (The ticker
the handler creates on entry is in `gameState.runStep`.) -/
def gameState.fallingEvent (fuel : Nat) (gs : gameState) : Event → Option (Bool × gameState)
  | Event.dropTick =>
    match gs.ActiveTetrominoDown with
    | none => none
    | some (true, gs') => some (true, { gs' with Phase := phase_Lock })
    | some (false, gs') => some (false, gs')
  | Event.input event =>
    match event.Input with
    | Input_Pause =>
      if event.Action = Action_Up then some (true, { gs with Phase := phase_Paused })
      else some (false, gs)
    | Input_Hold =>
      if event.Action = Action_Down then
        match gs.ActiveTetrominoHold with
        | none => none
        | some (true, gs') => some (true, { gs' with Phase := phase_Generation })
        | some (false, gs') => some (false, gs')
      else some (false, gs)
    | Input_MoveLeft =>
      if event.Action = Action_Down then
        match gs.ActiveTetrominoLeft with
        | none => none
        | some (_, gs') => some (false, gs')
      else some (false, gs)
    | Input_MoveRight =>
      if event.Action = Action_Down then
        match gs.ActiveTetrominoRight with
        | none => none
        | some (_, gs') => some (false, gs')
      else some (false, gs)
    | Input_RotateClockwise =>
      if event.Action = Action_Down then
        match gs.ActiveTetrominoRotateClockwise with
        | none => none
        | some (_, gs') => some (false, gs')
      else some (false, gs)
    | Input_RotateCounterClockwise =>
      if event.Action = Action_Down then
        match gs.ActiveTetrominoRotateCounterClockwise with
        | none => none
        | some (_, gs') => some (false, gs')
      else some (false, gs)
    | Input_SoftDrop =>
      match event.Action with
      | Action_Down =>
        match gs.adjustTicker softDropMultiplier with
        | none => none
        | some _ => some (false, gs)
      | Action_Up =>
        match gs.adjustTicker (F64.ofInt 1) with
        | none => none
        | some _ => some (false, gs)
      | Action_Hold => some (false, gs)
    | Input_HardDrop =>
      if event.Action = Action_Down then
        match gs.ActiveTetrominoHardDown fuel with
        | none => none
        | some gs' => some (true, { gs' with Phase := phase_Lock })
      else some (false, gs)

/-- The method `LockPhase`. -/
def gameState.LockPhase (gs : gameState) : Option gameState :=
  match gs.ActiveTetromino with
  | none => none
  | some t =>
    match t.CommitToBoard gs.Board with
    | none => none
    | some b => some { gs with Board := b, ActiveTetromino := none, Phase := phase_Completion }

/-- The row test of `CompletionPhase`: no cell of the row is unfilled. -/
def isRowComplete (row : boardRow) : Bool :=
  (List.finRange 10).all fun j => (row j).IsFilled

/-- The inner marking loop of `CompletionPhase` on row `i`: every cell of the
row gets `IsFilled = false` and `IsGhost = true`. -/
def markRow (b : board) (i : Fin 40) : board :=
  fun i' j => if i' = i then { b i' j with IsFilled := false, IsGhost := true } else b i' j

/-- One iteration of the marking loop of `CompletionPhase`, on row `i`; the
state is the board and `rowsToDelete`. -/
def markStep (s : board × List (Fin 40)) (i : Fin 40) : board × List (Fin 40) :=
  if isRowComplete (s.1 i) then (markRow s.1 i, s.2 ++ [i]) else s

/-- The marking loop of `CompletionPhase`: `for i := boardCellsY - 1; i >= 0; i--`. -/
def markRows (b : board) : board × List (Fin 40) :=
  (List.finRange 40).reverse.foldl markStep (b, [])

/-- The board with row `i` replaced. -/
def board.setRow (b : board) (i : Fin 40) (row : boardRow) : board :=
  fun i' => if i' = i then row else b i'

/-- The loop `for ; j < boardCellsY-1; j++ { gs.Board[j] = gs.Board[j+1] }` of
`CompletionPhase`, from the current `j`, for at most `fuel` iterations. -/
def shiftRowsDown : Nat → Nat → board → board
  | 0, _, b => b
  | fuel + 1, j, b =>
    if h : j + 1 < 40 then
      shiftRowsDown fuel (j + 1) (b.setRow ⟨j, by omega⟩ (b ⟨j + 1, h⟩))
    else b

/-- One iteration of the deletion loop of `CompletionPhase`, for the marked
row `r`: the rows above move down and the top row is cleared. -/
def deleteRow (b : board) (r : Fin 40) : board :=
  (shiftRowsDown 40 r.val b).setRow 39 zeroRow

/-- The score a clear of `linesCleared` rows adds (the `switch` of
`CompletionPhase`), at the level `level`. -/
def clearScore (linesCleared : GoInt) (level : GoInt) : GoInt :=
  if linesCleared.val = 1 then GoInt.mul (GoInt.ofInt 100) level
  else if linesCleared.val = 2 then GoInt.mul (GoInt.ofInt 300) level
  else if linesCleared.val = 3 then GoInt.mul (GoInt.ofInt 500) level
  else if linesCleared.val = 4 then GoInt.mul (GoInt.ofInt 800) level
  else GoInt.mul (GoInt.ofInt 1200) level

/-- The method `CompletionPhase`. -/
def gameState.CompletionPhase (gs : gameState) : gameState :=
  let marked := markRows gs.Board
  let rowsToDelete := marked.2
  if rowsToDelete.length > 0 then
    let linesCleared := GoInt.ofInt rowsToDelete.length
    let gs1 : gameState :=
      { gs with Board := marked.1, linesCleared := GoInt.add gs.linesCleared linesCleared }
    let gs2 : gameState :=
      { gs1 with Score := GoInt.add gs1.Score (clearScore linesCleared gs1.Level) }
    { gs2 with Board := rowsToDelete.foldl deleteRow gs2.Board, Phase := phase_Generation }
  else
    { gs with Board := marked.1, Phase := phase_Generation }

/-- One iteration of the loop of `PausedPhase`, on the event it received. -/
def gameState.pausedEvent (gs : gameState) (event : InputEvent) : Bool × gameState :=
  if event.Input = Input_Pause ∧ event.Action = Action_Up then
    (true, { gs with Phase := phase_Falling })
  else (false, gs)

/-- The method `GameOverPhase`, on the event it received. -/
def gameState.GameOverPhase (gs : gameState) (_event : InputEvent) : gameState :=
  { gs with Phase := phase_End }

/-! ### Main loop -/

/-- One turn of the simulation task (`Run`): the handler of the current phase
runs on what it receives. `r` is the value of `rl.GetRandomValue(0, 6)` (read
by `GenerationPhase` only) and `ev` the event a handler that waits for one
receives. In Falling and in Paused a turn is one iteration of the loop of the
handler, which goes on exactly as long as the phase is not changed; the
handlers of Paused and GameOver read input events only, so a drop tick leaves
them waiting. `FallingPhase` starts with
`dropTicker := time.NewTicker(gs.DropInterval(1.0))`, which panics on a
duration that is not positive; no iteration of its loop changes `linesCleared`,
so the handler is running exactly when this call returned on the current
state, and the turn tests it. In End the task sets `IsDone` and exits. -/
def gameState.runStep (fuel : Nat) (gs : gameState) (r : Int) (ev : Event) :
    Option gameState :=
  match gs.Phase with
  | phase_Generation => gs.GenerationPhase r
  | phase_Falling =>
    if gs.DropInterval (F64.ofInt 1) ≤ 0 then none
    else
      match gs.fallingEvent fuel ev with
      | none => none
      | some (_, gs') => some gs'
  | phase_Lock => gs.LockPhase
  | phase_Completion => some gs.CompletionPhase
  | phase_Paused =>
    match ev with
    | Event.dropTick => some gs
    | Event.input event => some (gs.pausedEvent event).2
  | phase_GameOver =>
    match ev with
    | Event.dropTick => some gs
    | Event.input event => some (gs.GameOverPhase event)
  | phase_End => some { gs with IsDone := true }

/-! ### The handlers cut at their `WithLock` calls -/

/-- One step of a phase handler as the render task can see it: either all the
writes of one `WithLock` call (`locked = true`: the exclusive lock is held from
the first to the last of them) or one assignment made outside every `WithLock`
call (`locked = false`). `state` is the game state the step leaves in memory. -/
structure lockStep where
  locked : Bool
  state : gameState

/-- The writes of the queue loop of `GenerationPhase`, which runs outside
`WithLock`: for each `p = (i, i-1)` the assignment
`gs.TetrominoQueue[i] = gs.TetrominoQueue[i-1]` and then the assignment
`gs.TetrominoQueue[i].OriginY += 4`. -/
def queueWrites (gs : gameState) : List (Fin 5 × Fin 5) → List lockStep
  | [] => []
  | p :: ps =>
    let g1 : gameState :=
      { gs with TetrominoQueue := Function.update gs.TetrominoQueue p.1 (gs.TetrominoQueue p.2) }
    let raised : tetromino :=
      { g1.TetrominoQueue p.1 with
        OriginY := I32.add (g1.TetrominoQueue p.1).OriginY (I32.ofInt 4) }
    let g2 : gameState :=
      { g1 with TetrominoQueue := Function.update g1.TetrominoQueue p.1 raised }
    ⟨false, g1⟩ :: ⟨false, g2⟩ :: queueWrites g2 ps

/-- The state the last of the steps leaves, `gs` when there is none. -/
def lastState (gs : gameState) (steps : List lockStep) : gameState :=
  match steps.getLast? with
  | none => gs
  | some s => s.state

/-- The method `GenerationPhase` cut at its `WithLock` call: the spawn and the
collision test are one step under the lock; the queue loop, the assignment of
the fresh piece to `gs.TetrominoQueue[0]` and the assignment of `gs.Phase`
follow outside it. -/
def gameState.GenerationPhaseSteps (gs : gameState) (r : Int) : Option (List lockStep) :=
  let topmino : tetromino :=
    { gs.TetrominoQueue 4 with OriginX := tetrominoGenerateX, OriginY := tetrominoGenerateY }
  match topmino.CheckCollision gs.Board with
  | none => none
  | some gameOver =>
    let g1 : gameState := { gs with ActiveTetromino := some topmino }
    let shift := queueWrites g1 [((4 : Fin 5), (3 : Fin 5)), (3, 2), (2, 1), (1, 0)]
    let g2 := lastState g1 shift
    match NewRandomTetromino r tetrominoQueueX tetrominoQueueY with
    | none => none
    | some fresh =>
      let g3 : gameState :=
        { g2 with TetrominoQueue := Function.update g2.TetrominoQueue 0 fresh }
      let g4 : gameState :=
        { g3 with Phase := if gameOver then phase_GameOver else phase_Falling }
      some (⟨true, g1⟩ :: shift ++ [⟨false, g3⟩, ⟨false, g4⟩])

/-- The method `LockPhase` cut at its `WithLock` call: the commit and the
clearing of the active slot are one step under the lock; the assignment of
`gs.Phase` follows outside it. -/
def gameState.LockPhaseSteps (gs : gameState) : Option (List lockStep) :=
  match gs.ActiveTetromino with
  | none => none
  | some t =>
    match t.CommitToBoard gs.Board with
    | none => none
    | some b =>
      let g1 : gameState := { gs with Board := b, ActiveTetromino := none }
      some [⟨true, g1⟩, ⟨false, { g1 with Phase := phase_Completion }⟩]

/-- The method `CompletionPhase` cut at its `WithLock` calls: the marking is one
step under the lock; without a full row the assignment of `gs.Phase` follows
outside it; with one, `gs.linesCleared += linesCleared` and the `gs.Score +=`
of the `switch` are made outside the lock, the deletion is one step under it,
and the assignment of `gs.Phase` is outside again. -/
def gameState.CompletionPhaseSteps (gs : gameState) : List lockStep :=
  let marked := markRows gs.Board
  let rowsToDelete := marked.2
  let g1 : gameState := { gs with Board := marked.1 }
  if rowsToDelete.length > 0 then
    let linesCleared := GoInt.ofInt rowsToDelete.length
    let g2 : gameState := { g1 with linesCleared := GoInt.add g1.linesCleared linesCleared }
    let g3 : gameState :=
      { g2 with Score := GoInt.add g2.Score (clearScore linesCleared g2.Level) }
    let g4 : gameState := { g3 with Board := rowsToDelete.foldl deleteRow g3.Board }
    [⟨true, g1⟩, ⟨false, g2⟩, ⟨false, g3⟩, ⟨true, g4⟩,
      ⟨false, { g4 with Phase := phase_Generation }⟩]
  else
    [⟨true, g1⟩, ⟨false, { g1 with Phase := phase_Generation }⟩]

/-! ## Specification predicates -/

/-- The absolute cell `p = (x, y)` lies inside the grid. -/
def inGrid (p : I32 × I32) : Prop :=
  0 ≤ p.1.val ∧ p.1.val < 10 ∧ 0 ≤ p.2.val ∧ p.2.val < 40

instance (p : I32 × I32) : Decidable (inGrid p) := by
  unfold inGrid; infer_instance

/-- The collision condition of one absolute cell `p = (x, y)`, as the
specification words it: out of the horizontal bounds, below row 0, at or above
the top, or inside the grid on a board cell that is filled. -/
def cellCollides (b : board) (p : I32 × I32) : Prop :=
  p.1.val < 0 ∨ p.1.val ≥ 10 ∨ p.2.val < 0 ∨ p.2.val ≥ 40 ∨
    ∃ (i : Fin 40) (j : Fin 10),
      (i.val : Int) = p.2.val ∧ (j.val : Int) = p.1.val ∧ (b i j).IsFilled = true

/-- Move atomicity of the operation `op` at the state `gs`: the operation
returns, and if it returns `didCollide = true` the state it leaves is `gs`. -/
def rejectedMoveRestores (op : gameState → Option (Bool × gameState)) (gs : gameState) : Prop :=
  ∃ d gs', op gs = some (d, gs') ∧ (d = true → gs' = gs)

/-- The rows of the board that are fully filled, listed from row 0 upward. -/
def fullRows (b : board) : List (Fin 40) :=
  (List.finRange 40).filter fun i => isRowComplete (b i)

/-- The number of fully-filled rows of the board. -/
def fullRowCount (b : board) : Nat := (fullRows b).length

/-- The base score of a clear of `n` rows, as the specification lists it:
100, 300, 500, 800 for one to four rows and 1200 for five or more. -/
def scoreBase (n : Nat) : Int :=
  if n = 1 then 100 else if n = 2 then 300 else if n = 3 then 500
  else if n = 4 then 800 else 1200

/-- A row after the marking of `CompletionPhase`: unfilled and ghost, colours kept. -/
def markedRow (row : boardRow) : boardRow :=
  fun j => { row j with IsFilled := false, IsGhost := true }

/-- The list `l` with the entry at index `r` removed and `z` appended: what the
deletion of row `r` does to the rows of a board read from row 0 upward. -/
def deleteAt {α : Type} (z : α) (l : List α) (r : Nat) : List α :=
  l.eraseIdx r ++ [z]

/-- The indices, in increasing order, of the entries of a list that satisfy `c`. -/
def indicesOf {α : Type} (c : α → Bool) : List α → List Nat
  | [] => []
  | a :: l => (if c a then [0] else []) ++ (indicesOf c l).map Nat.succ

/-- The piece `t` relocated to the origin `(x, y)`: same four offsets, same colour. -/
def tetromino.movedTo (t : tetromino) (x y : I32) : tetromino :=
  { t with OriginX := x, OriginY := y }

/-- One of the four absolute cells of the piece is the board cell at row `y`,
column `x`. -/
def tetromino.occupies (t : tetromino) (y : Fin 40) (x : Fin 10) : Prop :=
  ∃ i : Fin 4, (t.absCell i).1.val = x.val ∧ (t.absCell i).2.val = y.val

instance (t : tetromino) (y : Fin 40) (x : Fin 10) : Decidable (t.occupies y x) := by
  unfold tetromino.occupies; infer_instance

/-- The piece after `k` downward steps (`OriginY -= 1`, `k` times). -/
def tetromino.downBy (t : tetromino) : Nat → tetromino
  | 0 => t
  | k + 1 => (t.downBy k).down

/-- The board cell at row `y`, column `x` is one of the cells the piece occupies
at one of its positions `1, ..., k` rows below its starting position. -/
def tetromino.trailOccupies (t : tetromino) (k : Nat) (y : Fin 40) (x : Fin 10) : Prop :=
  ∃ j, 1 ≤ j ∧ j ≤ k ∧ (t.downBy j).occupies y x

instance (t : tetromino) (k : Nat) (y : Fin 40) (x : Fin 10) :
    Decidable (t.trailOccupies k y x) :=
  decidable_of_iff (∃ j, j < k + 1 ∧ (1 ≤ j ∧ (t.downBy j).occupies y x))
    ⟨fun ⟨j, h1, h2, h3⟩ => ⟨j, h2, Nat.lt_succ_iff.mp h1, h3⟩,
     fun ⟨j, h1, h2, h3⟩ => ⟨j, Nat.lt_succ_iff.mpr h2, h1, h3⟩⟩

/-- A cell with the trail mark of the colour `color`: what `CommitTrailToBoard`
writes on a cell. -/
def trailCell (color : Color) (c : cell) : cell :=
  { c with IsGhost := true, Color := color }

/-- No cell of the board is at the same time ghost and filled. -/
def ghostNotFilled (b : board) : Prop :=
  ∀ (y : Fin 40) (x : Fin 10), (b y x).IsGhost = true → (b y x).IsFilled = false

/-- The states the game reaches from `newGameState`: by a turn of the
simulation task on any random value and event (with any fuel for the descent
of a hard drop), or by the trail timer of a hard drop firing. -/
inductive Reachable : gameState → Prop where
  | init (rs : Fin 5 → Int) (gs : gameState) : newGameState rs = some gs → Reachable gs
  | step (fuel : Nat) (r : Int) (ev : Event) (gs gs' : gameState) :
      Reachable gs → gs.runStep fuel r ev = some gs' → Reachable gs'
  | trailTimer (gs : gameState) : Reachable gs → Reachable gs.clearTrail

/-- The transition table of the specification for one event in Falling:
`downCollides` is whether the piece one row down collides, `holdingEmpty`
whether the holding slot is empty. -/
def fallingTable (downCollides holdingEmpty : Bool) : Event → phase
  | Event.dropTick => if downCollides then phase_Lock else phase_Falling
  | Event.input event =>
    if event.Input = Input_HardDrop ∧ event.Action = Action_Down then phase_Lock
    else if event.Input = Input_Pause ∧ event.Action = Action_Up then phase_Paused
    else if event.Input = Input_Hold ∧ event.Action = Action_Down ∧ holdingEmpty = true then
      phase_Generation
    else phase_Falling

/-- The ticker takes the duration the Falling handler hands it on the event:
on `Input_SoftDrop` with action Down the duration `DropInterval(0.05)` is
positive, with action Up the duration `DropInterval(1)` is; the other events
make no ticker call. -/
def gameState.tickerAccepts (gs : gameState) : Event → Prop
  | Event.dropTick => True
  | Event.input event =>
    (event.Input = Input_SoftDrop ∧ event.Action = Action_Down →
      0 < gs.DropInterval softDropMultiplier) ∧
    (event.Input = Input_SoftDrop ∧ event.Action = Action_Up →
      0 < gs.DropInterval (F64.ofInt 1))

/-- The transition table of the specification for one input event in Paused. -/
def pausedTable (event : InputEvent) : phase :=
  if event.Input = Input_Pause ∧ event.Action = Action_Up then phase_Falling else phase_Paused

/-- The piece `t'` is the piece `t` after one of the five trial moves: one row
down, one column left or right, or a quarter turn either way. -/
def tetromino.movedOnce (t t' : tetromino) : Prop :=
  t' = t.down ∨ t' = t.left ∨ t' = t.right ∨ t' = t.RotateClockwise ∨
    t' = t.RotateCounterClockwise

/-- The event is a press of the Hold key. -/
def Event.isHoldPress : Event → Prop
  | Event.dropTick => False
  | Event.input event => event.Input = Input_Hold ∧ event.Action = Action_Down

/-- What one event `ev` of the Falling handler can do to the slots and the
board of a state `gs` whose active piece is `t`. The queue stays. Then either
the board and the holding slot stay, and the active piece stays or makes one
trial move to a position that does not collide; or the holding slot stays and
the active piece and the board are what the descent loop of a hard drop
returned; or the event is a press of Hold, the board stays, the holding slot
takes `t` at the holding origin and the active slot takes what the holding
slot had, at the spawn origin. -/
def fallingOutcome (gs gs' : gameState) (t : tetromino) (ev : Event) : Prop :=
  gs'.TetrominoQueue = gs.TetrominoQueue ∧
  ((gs'.Board = gs.Board ∧ gs'.HoldingTetromino = gs.HoldingTetromino ∧
      ∃ t', gs'.ActiveTetromino = some t' ∧
        (t' = t ∨ (t.movedOnce t' ∧ t'.CheckCollision gs.Board = some false))) ∨
   (gs'.HoldingTetromino = gs.HoldingTetromino ∧
      ∃ fuel t', hardDownLoop fuel t gs.Board = some (t', gs'.Board) ∧
        gs'.ActiveTetromino = some t') ∨
   (ev.isHoldPress ∧ gs'.Board = gs.Board ∧
      gs'.HoldingTetromino = some (t.movedTo tetrominoHoldingX tetrominoHoldingY) ∧
      gs'.ActiveTetromino =
        gs.HoldingTetromino.map fun h => h.movedTo tetrominoGenerateX tetrominoGenerateY))

/-- Every offset of the piece lies between -2 and 2, as the offsets of the
seven patterns of the factory and of their rotations do. -/
def tetromino.smallOffsets (t : tetromino) : Prop :=
  ∀ i : Fin 4, -2 ≤ (t.cells i).1.val ∧ (t.cells i).1.val ≤ 2 ∧
    -2 ≤ (t.cells i).2.val ∧ (t.cells i).2.val ≤ 2

/-- The pieces of the slots fit the grid: the active piece, when present, has
small offsets and its four absolute cells inside the grid; the held piece and
the queue entries have small offsets. -/
def slotsInGrid (gs : gameState) : Prop :=
  (∀ t, gs.ActiveTetromino = some t → t.smallOffsets ∧ ∀ i, inGrid (t.absCell i)) ∧
  (∀ h, gs.HoldingTetromino = some h → h.smallOffsets) ∧
  ∀ i, (gs.TetrominoQueue i).smallOffsets

/-- The queue entries sit in their display slots: the entry at index `i` has
the origin `(tetrominoQueueX, tetrominoQueueY + 4 * i)`. -/
def queueInSlots (q : Fin 5 → tetromino) : Prop :=
  ∀ i : Fin 5, (q i).OriginX.val = tetrominoQueueX.val ∧
    (q i).OriginY.val = tetrominoQueueY.val + 4 * i.val

/-- One run of `GenerationPhase` seen from the queue: on a state whose queue is
`q` it returns a state whose queue is `q'` and whose active piece is `active`,
and `fresh` is the piece the factory made for it. -/
def generationStep (q q' : Fin 5 → tetromino) (active fresh : tetromino) : Prop :=
  ∃ (gs gs' : gameState) (r : Int), gs.TetrominoQueue = q ∧ gs.GenerationPhase r = some gs' ∧
    gs'.TetrominoQueue = q' ∧ gs'.ActiveTetromino = some active ∧
    NewRandomTetromino r tetrominoQueueX tetrominoQueueY = some fresh

/-! ## Concrete inputs -/

/-- The O piece of the factory at the origin `(x, y)`. -/
def pieceO (x y : Int) : tetromino :=
  { OriginX := I32.ofInt x, OriginY := I32.ofInt y, color := oTetriminoColor,
    cells := cells4 (0, 0) (0, 1) (1, 1) (1, 0) }

/-- The T piece of the factory at the origin `(x, y)`. -/
def pieceT (x y : Int) : tetromino :=
  { OriginX := I32.ofInt x, OriginY := I32.ofInt y, color := tTetriminoColor,
    cells := cells4 (0, 0) (-1, 0) (0, 1) (1, 0) }

/-- A game state in phase Falling with the given slots and board, a queue of T
pieces and no line cleared. -/
def fallingState (active holding : Option tetromino) (b : board) : gameState :=
  { ActiveTetromino := active
    HoldingTetromino := holding
    TetrominoQueue := fun i => pieceT 2 (1 + 4 * i.val)
    Board := b
    Phase := phase_Falling
    linesCleared := GoInt.ofInt 0
    Score := GoInt.ofInt 0
    IsDone := false }

/-- A filled cell of the colour of the O piece. -/
def filledCell : cell := { IsFilled := true, IsGhost := false, Color := oTetriminoColor }

/-- The board whose `k` bottom rows are fully filled and whose other rows are
as `newGameState` leaves them. -/
def boardWithFullRows (k : Nat) : board :=
  fun i j => if i.val < k then filledCell else newBoard i j

/-- A game state in phase Completion with the given board and `linesCleared`,
no piece in the slots and a score of 0. -/
def completionState (b : board) (linesCleared : Int) : gameState :=
  { ActiveTetromino := none
    HoldingTetromino := none
    TetrominoQueue := fun i => pieceT 2 (1 + 4 * i.val)
    Board := b
    Phase := phase_Completion
    linesCleared := GoInt.ofInt linesCleared
    Score := GoInt.ofInt 0
    IsDone := false }

/-- The board whose row 0 is fully filled and whose row 1 is filled in its
three leftmost columns only; the other rows are as `newGameState` leaves them. -/
def boardFullThenPartial : board :=
  fun i j =>
    if i.val = 0 then filledCell
    else if i.val = 1 ∧ j.val < 3 then filledCell
    else newBoard i j

/-- A game state in phase Generation with the given board, empty slots, a queue
of T pieces and no line cleared. -/
def generationState (b : board) : gameState :=
  { ActiveTetromino := none
    HoldingTetromino := none
    TetrominoQueue := fun i => pieceT 2 (1 + 4 * i.val)
    Board := b
    Phase := phase_Generation
    linesCleared := GoInt.ofInt 0
    Score := GoInt.ofInt 0
    IsDone := false }

/-- A piece at the least `int32` origin row whose four offsets bring its cells
back, by wrap-around, to row 1 of the board, columns 0 to 3. -/
def wrapPiece : tetromino :=
  { OriginX := I32.ofInt 0, OriginY := I32.ofInt (-2147483648), color := iTetriminoColor,
    cells := cells4 (0, -2147483647) (1, -2147483647) (2, -2147483647) (3, -2147483647) }

/-- The contract of a move operation `op` whose trial move is `move`, at the
state `gs` with active piece `t`: `op` returns `didCollide` = the answer of
`CheckCollision` on the moved piece; when it is false the state left has the
moved piece as active piece and nothing else changed, when it is true the state
left is `gs`. -/
def moveContract (op : gameState → Option (Bool × gameState)) (move : tetromino → tetromino)
    (gs : gameState) (t : tetromino) : Prop :=
  ∃ d, (move t).CheckCollision gs.Board = some d ∧
    op gs = some (d, if d = true then gs else { gs with ActiveTetromino := some (move t) })

/-- A queue entry moved one slot up the queue board: `OriginY += 4`. -/
def tetromino.queueUp (t : tetromino) : tetromino :=
  { t with OriginY := I32.add t.OriginY (I32.ofInt 4) }

/-- A game state in phase Generation on the empty board whose queue has the O
piece at index 0 and T pieces at the indices 1 to 4. -/
def mixedQueueState : gameState :=
  { ActiveTetromino := none
    HoldingTetromino := none
    TetrominoQueue := fun i => if i = 0 then pieceO 2 1 else pieceT 2 (1 + 4 * i.val)
    Board := newBoard
    Phase := phase_Generation
    linesCleared := GoInt.ofInt 0
    Score := GoInt.ofInt 0
    IsDone := false }

/-- The input event of a press of the soft-drop key (the down arrow). -/
def softDropPress : InputEvent :=
  { Input := Input_SoftDrop, Action := Action_Down, KeyCode := I32.ofInt 264 }

/-- A game in Falling on the empty board with `linesCleared` lines cleared: the
T piece is at the spawn origin and the holding slot is empty. -/
def levelState (linesCleared : Int) : gameState :=
  { ActiveTetromino := some (pieceT 5 20)
    HoldingTetromino := none
    TetrominoQueue := fun i => pieceT 2 (1 + 4 * i.val)
    Board := newBoard
    Phase := phase_Falling
    linesCleared := GoInt.ofInt linesCleared
    Score := GoInt.ofInt 0
    IsDone := false }

/-- The input event of a press of the hard-drop key (the space bar). -/
def hardDropPress : InputEvent :=
  { Input := Input_HardDrop, Action := Action_Down, KeyCode := I32.ofInt 32 }

/-- A new game whose random selectors are all 0 (O pieces). -/
def traceStart : Option gameState := newGameState fun _ => 0

/-- The new game after `GenerationPhase`: the O piece falls from the spawn
origin. -/
def traceSpawned : Option gameState :=
  traceStart.bind fun gs => gs.runStep 41 0 Event.dropTick

/-- The game after a hard drop of the first piece. -/
def traceDropped : Option gameState :=
  traceSpawned.bind fun gs => gs.runStep 41 0 (Event.input hardDropPress)

/-- The game after `LockPhase` has locked the hard-dropped piece. -/
def traceLocked : Option gameState :=
  traceDropped.bind fun gs => gs.runStep 41 0 Event.dropTick

/-- The I piece of the factory at the origin `(x, y)`. -/
def pieceI (x y : Int) : tetromino :=
  { OriginX := I32.ofInt x, OriginY := I32.ofInt y, color := iTetriminoColor,
    cells := cells4 (0, 0) (-1, 0) (1, 0) (2, 0) }

/-- The board whose column 4 is filled from row 0 up to row 20; the other
cells are as `newGameState` leaves them. -/
def boardColumnFour : board :=
  fun i j => if j.val = 4 ∧ i.val ≤ 20 then filledCell else newBoard i j

/-- The input event of a press of a Hold key (the key C). -/
def holdPress : InputEvent :=
  { Input := Input_Hold, Action := Action_Down, KeyCode := I32.ofInt 67 }

/-- A game in Falling on `boardColumnFour`: the O piece has just spawned at
`(5, 20)`, where it does not collide, and the holding slot has a T piece. -/
def holdSwapState : gameState :=
  fallingState (some (pieceO 5 20)) (some (pieceT 2 2)) boardColumnFour

/-- A new game whose five random selectors are 0, 1, 2, 3, 4 in the order the
loop of `newGameState` draws them: entry `i` of the queue is made by selector
`i`. -/
def countingStart : Option gameState := newGameState fun i => (i.val : Int)

/-! # Theorems -/

/-! ## Collision -/

theorem boardCellsX_val : boardCellsX.val = 10 := by decide

theorem boardCellsY_val : boardCellsY.val = 40 := by decide

theorem at?_of_inGrid (b : board) (y x : I32)
    (h : 0 ≤ y.val ∧ y.val < 40 ∧ 0 ≤ x.val ∧ x.val < 10) :
    b.at? y x = some (b ⟨y.val.toNat, by omega⟩ ⟨x.val.toNat, by omega⟩) := by
  unfold board.at?
  rw [dif_pos h]

/-- The iterator function of `CheckCollision` never panics, leaves the board
alone and answers the collision condition of its cell. -/
theorem checkCollisionVisit_spec (x y : I32) (b : board) :
    ∃ r, checkCollisionVisit x y b = some (r, b) ∧ (r = true ↔ cellCollides b (x, y)) := by
  unfold checkCollisionVisit cellCollides
  rw [boardCellsX_val, boardCellsY_val]
  dsimp only
  by_cases hout : x.val < 0 ∨ x.val ≥ 10 ∨ y.val < 0 ∨ y.val ≥ 40
  · refine ⟨true, ?_, ?_⟩
    · rw [if_pos]
      simpa [or_assoc] using hout
    · simp only [true_iff]
      rcases hout with h | h | h | h
      · exact Or.inl h
      · exact Or.inr (Or.inl h)
      · exact Or.inr (Or.inr (Or.inl h))
      · exact Or.inr (Or.inr (Or.inr (Or.inl h)))
  · have hin : 0 ≤ y.val ∧ y.val < 40 ∧ 0 ≤ x.val ∧ x.val < 10 := by omega
    refine ⟨(b ⟨y.val.toNat, by omega⟩ ⟨x.val.toNat, by omega⟩).IsFilled, ?_, ?_⟩
    · rw [if_neg, at?_of_inGrid b y x hin]
      simpa [or_assoc] using hout
    · constructor
      · intro hf
        refine Or.inr (Or.inr (Or.inr (Or.inr ⟨⟨y.val.toNat, by omega⟩, ⟨x.val.toNat, by omega⟩, ?_, ?_, hf⟩)))
        · simp only; omega
        · simp only; omega
      · intro hc
        rcases hc with h | h | h | h | ⟨i, j, hi, hj, hf⟩
        · omega
        · omega
        · omega
        · omega
        · have e1 : (⟨y.val.toNat, by omega⟩ : Fin 40) = i := by
            apply Fin.ext; simp only; omega
          have e2 : (⟨x.val.toNat, by omega⟩ : Fin 10) = j := by
            apply Fin.ext; simp only; omega
          rw [e1, e2]; exact hf

/-- The loop of `cellIterator` with the iterator function of `CheckCollision`:
it answers whether one of the listed cells collides. -/
theorem cellIteratorOver_checkCollision (t : tetromino) (b : board) (is : List (Fin 4)) :
    ∃ r, t.cellIteratorOver checkCollisionVisit is b = some (r, b) ∧
      (r = true ↔ ∃ i, i ∈ is ∧ cellCollides b (t.absCell i)) := by
  induction is with
  | nil => exact ⟨false, rfl, by simp⟩
  | cons i is ih =>
    obtain ⟨r, hr, hspec⟩ := checkCollisionVisit_spec (t.absCell i).1 (t.absCell i).2 b
    obtain ⟨r', hr', hspec'⟩ := ih
    cases r with
    | true =>
      refine ⟨true, ?_, ?_⟩
      · simp only [tetromino.cellIteratorOver, hr]
      · simp only [true_iff]
        exact ⟨i, List.mem_cons_self _ _, hspec.mp rfl⟩
    | false =>
      refine ⟨r', ?_, ?_⟩
      · simp only [tetromino.cellIteratorOver, hr, hr']
      · rw [hspec']
        constructor
        · rintro ⟨k, hk, hc⟩
          exact ⟨k, List.mem_cons_of_mem _ hk, hc⟩
        · rintro ⟨k, hk, hc⟩
          rcases List.mem_cons.mp hk with rfl | hk
          · exact absurd (hspec.mpr hc) (by simp)
          · exact ⟨k, hk, hc⟩

theorem mem_allCells (i : Fin 4) : i ∈ ([0, 1, 2, 3] : List (Fin 4)) := by
  fin_cases i <;> simp

/-- `CheckCollision` returns, and returns true exactly when a cell collides. -/
theorem CheckCollision_spec (t : tetromino) (b : board) :
    ∃ r, t.CheckCollision b = some r ∧
      (r = true ↔ ∃ i, cellCollides b (t.absCell i)) := by
  obtain ⟨r, hr, hspec⟩ := cellIteratorOver_checkCollision t b [0, 1, 2, 3]
  refine ⟨r, ?_, ?_⟩
  · simp only [tetromino.CheckCollision, tetromino.cellIterator, hr]
  · rw [hspec]
    constructor
    · rintro ⟨i, _, hc⟩; exact ⟨i, hc⟩
    · rintro ⟨i, hc⟩; exact ⟨i, mem_allCells i, hc⟩

/-- C1: for every board and every tetromino, `CheckCollision` returns, and
returns true if and only if at least one of the four absolute cells is out of
the horizontal bounds, below row 0, at or above the top row bound, or on a
filled board cell; a piece whose four cells are inside the grid on unfilled
cells reports no collision; and the answer depends on the `IsFilled` flags of
the board only, so ghost marks never cause a collision. -/
theorem C1_checkCollision_iff (t : tetromino) (b : board) :
    (∃ r, t.CheckCollision b = some r) ∧
    (t.CheckCollision b = some true ↔ ∃ i, cellCollides b (t.absCell i)) ∧
    ((∀ i, inGrid (t.absCell i) ∧
        ∀ (y : Fin 40) (x : Fin 10), (y.val : Int) = (t.absCell i).2.val →
          (x.val : Int) = (t.absCell i).1.val → (b y x).IsFilled = false) →
      t.CheckCollision b = some false) ∧
    (∀ b' : board, (∀ y x, (b' y x).IsFilled = (b y x).IsFilled) →
      t.CheckCollision b' = t.CheckCollision b) := by
  obtain ⟨r, hr, hspec⟩ := CheckCollision_spec t b
  refine ⟨⟨r, hr⟩, ?_, ?_, ?_⟩
  · rw [hr, ← hspec]; simp
  · intro h
    have hn : ¬ ∃ i, cellCollides b (t.absCell i) := by
      rintro ⟨i, hc⟩
      obtain ⟨⟨h1, h2, h3, h4⟩, hu⟩ := h i
      rcases hc with hc | hc | hc | hc | ⟨y, x, hy, hx, hf⟩
      · omega
      · omega
      · omega
      · omega
      · rw [hu y x hy hx] at hf; exact absurd hf (by simp)
    rw [hr]
    cases r with
    | true => exact absurd (hspec.mp rfl) hn
    | false => rfl
  · intro b' hb
    obtain ⟨r', hr', hspec'⟩ := CheckCollision_spec t b'
    have hiff : (r' = true ↔ r = true) := by
      rw [hspec', hspec]
      apply exists_congr; intro i
      unfold cellCollides
      simp only [hb]
    rw [hr, hr']
    cases r <;> cases r' <;> simp_all

/-! ## Machine-integer lemmas -/

theorem I32.eq_of_val_eq {a b : I32} (h : a.val = b.val) : a = b := by
  cases a; cases b; simp only at h; subst h; rfl

theorem I32.one_val : (I32.ofInt 1).val = 1 := by decide

theorem I32.sub_one_add_one (a : I32) :
    I32.add (I32.sub a (I32.ofInt 1)) (I32.ofInt 1) = a := by
  apply I32.eq_of_val_eq
  have h1 := a.lo
  have h2 := a.hi
  simp only [I32.add, I32.sub, I32.ofInt, wrap32]
  omega

theorem I32.add_one_sub_one (a : I32) :
    I32.sub (I32.add a (I32.ofInt 1)) (I32.ofInt 1) = a := by
  apply I32.eq_of_val_eq
  have h1 := a.lo
  have h2 := a.hi
  simp only [I32.add, I32.sub, I32.ofInt, wrap32]
  omega

theorem I32.neg_neg (a : I32) : I32.neg (I32.neg a) = a := by
  apply I32.eq_of_val_eq
  have h1 := a.lo
  have h2 := a.hi
  simp only [I32.neg, I32.ofInt, wrap32]
  omega

/-- Away from the least `int32`, Go's negation is the integer negation. -/
theorem I32.neg_val (a : I32) (h : a.val ≠ -2147483648) : (I32.neg a).val = -a.val := by
  have h1 := a.lo
  have h2 := a.hi
  simp only [I32.neg, I32.ofInt, wrap32]
  omega

/-! ## Rotation -/

theorem RotateClockwise_cells (t : tetromino) (i : Fin 4) :
    t.RotateClockwise.cells i = ((t.cells i).2, I32.neg (t.cells i).1) := by
  fin_cases i <;>
    simp [tetromino.RotateClockwise, rotateCellClockwise, Function.update]

theorem RotateCounterClockwise_cells (t : tetromino) (i : Fin 4) :
    t.RotateCounterClockwise.cells i = (I32.neg (t.cells i).2, (t.cells i).1) := by
  fin_cases i <;>
    simp [tetromino.RotateCounterClockwise, rotateCellCounterClockwise, Function.update]

theorem tetromino.ext_fields {s t : tetromino} (hx : s.OriginX = t.OriginX)
    (hy : s.OriginY = t.OriginY) (hc : ∀ i, s.cells i = t.cells i) (hcol : s.color = t.color) :
    s = t := by
  cases s; cases t
  simp only at hx hy hc hcol
  have hc' := funext hc
  subst hx hy hc' hcol
  rfl

theorem RotateClockwise_frame (t : tetromino) :
    t.RotateClockwise.OriginX = t.OriginX ∧ t.RotateClockwise.OriginY = t.OriginY ∧
      t.RotateClockwise.color = t.color := ⟨rfl, rfl, rfl⟩

theorem RotateCounterClockwise_frame (t : tetromino) :
    t.RotateCounterClockwise.OriginX = t.OriginX ∧
      t.RotateCounterClockwise.OriginY = t.OriginY ∧
      t.RotateCounterClockwise.color = t.color := ⟨rfl, rfl, rfl⟩

theorem rotate_cw_ccw (t : tetromino) : t.RotateClockwise.RotateCounterClockwise = t := by
  refine tetromino.ext_fields rfl rfl (fun i => ?_) rfl
  rw [RotateCounterClockwise_cells, RotateClockwise_cells]
  simp only [I32.neg_neg]

theorem rotate_ccw_cw (t : tetromino) : t.RotateCounterClockwise.RotateClockwise = t := by
  refine tetromino.ext_fields rfl rfl (fun i => ?_) rfl
  rw [RotateClockwise_cells, RotateCounterClockwise_cells]
  simp only [I32.neg_neg]

theorem down_up (t : tetromino) : t.down.up = t := by
  exact tetromino.ext_fields rfl (I32.sub_one_add_one t.OriginY) (fun _ => rfl) rfl

theorem left_right (t : tetromino) : t.left.right = t := by
  exact tetromino.ext_fields (I32.sub_one_add_one t.OriginX) rfl (fun _ => rfl) rfl

theorem right_left (t : tetromino) : t.right.left = t := by
  exact tetromino.ext_fields (I32.add_one_sub_one t.OriginX) rfl (fun _ => rfl) rfl

/-! ## The move operations -/

/-- A move whose undo restores the piece: the operation returns, and when it
reports a collision the whole game state is as before. -/
theorem tryMove_rejected (gs : gameState) (t : tetromino) (move back : tetromino → tetromino)
    (hback : ∀ u, back (move u) = u) (ht : gs.ActiveTetromino = some t) :
    ∃ d gs', gs.tryMove move back = some (d, gs') ∧ (d = true → gs' = gs) := by
  obtain ⟨r, hr, -⟩ := CheckCollision_spec (move t) gs.Board
  cases r with
  | true =>
    refine ⟨true, { gs with ActiveTetromino := some (back (move t)) }, ?_, ?_⟩
    · simp only [gameState.tryMove, ht, hr]
    · intro _
      rw [hback, ← ht]
  | false =>
    refine ⟨false, { gs with ActiveTetromino := some (move t) }, ?_, ?_⟩
    · simp only [gameState.tryMove, ht, hr]
    · intro h; exact absurd h (by simp)

/-- C2: for every game state with an active piece, each of the five move
operations returns, and if it returns `didCollide = true` the game state
(active piece with origin, offsets and colour, board and every other field) is
exactly the state before the call, `int32` wrap-around included. -/
theorem C2_rejected_move_restores (gs : gameState) (t : tetromino)
    (ht : gs.ActiveTetromino = some t) :
    rejectedMoveRestores gameState.ActiveTetrominoDown gs ∧
    rejectedMoveRestores gameState.ActiveTetrominoLeft gs ∧
    rejectedMoveRestores gameState.ActiveTetrominoRight gs ∧
    rejectedMoveRestores gameState.ActiveTetrominoRotateClockwise gs ∧
    rejectedMoveRestores gameState.ActiveTetrominoRotateCounterClockwise gs :=
  ⟨tryMove_rejected gs t _ _ down_up ht,
   tryMove_rejected gs t _ _ left_right ht,
   tryMove_rejected gs t _ _ right_left ht,
   tryMove_rejected gs t _ _ rotate_cw_ccw ht,
   tryMove_rejected gs t _ _ rotate_ccw_cw ht⟩

/-- The O piece in the bottom-left corner of the empty board: moving down,
moving left and both rotations are rejected, and the state is restored. -/
theorem C2_rejected_move_restores_witness :
    (Option.map Prod.fst (fallingState (some (pieceO 0 0)) none newBoard).ActiveTetrominoDown
        = some true ∧
      Option.map Prod.fst (fallingState (some (pieceO 0 0)) none newBoard).ActiveTetrominoLeft
        = some true ∧
      Option.map Prod.fst
        (fallingState (some (pieceO 0 0)) none newBoard).ActiveTetrominoRotateClockwise
        = some true) ∧
    rejectedMoveRestores gameState.ActiveTetrominoDown
      (fallingState (some (pieceO 0 0)) none newBoard) ∧
    rejectedMoveRestores gameState.ActiveTetrominoLeft
      (fallingState (some (pieceO 0 0)) none newBoard) ∧
    rejectedMoveRestores gameState.ActiveTetrominoRight
      (fallingState (some (pieceO 0 0)) none newBoard) ∧
    rejectedMoveRestores gameState.ActiveTetrominoRotateClockwise
      (fallingState (some (pieceO 0 0)) none newBoard) ∧
    rejectedMoveRestores gameState.ActiveTetrominoRotateCounterClockwise
      (fallingState (some (pieceO 0 0)) none newBoard) :=
  ⟨by decide, C2_rejected_move_restores (fallingState (some (pieceO 0 0)) none newBoard)
    (pieceO 0 0) rfl⟩

/-- C3: for every tetromino, `RotateClockwise` then `RotateCounterClockwise`
leaves the piece (its four offsets included) exactly as it was, and so does
`RotateCounterClockwise` then `RotateClockwise`. -/
theorem C3_rotation_round_trip (t : tetromino) :
    t.RotateClockwise.RotateCounterClockwise = t ∧
    t.RotateCounterClockwise.RotateClockwise = t ∧
    (∀ i, t.RotateClockwise.RotateCounterClockwise.cells i = t.cells i) ∧
    (∀ i, t.RotateCounterClockwise.RotateClockwise.cells i = t.cells i) :=
  ⟨rotate_cw_ccw t, rotate_ccw_cw t,
   fun i => by rw [rotate_cw_ccw], fun i => by rw [rotate_ccw_cw]⟩

/-- C4: `RotateClockwise` replaces each offset `(dx, dy)` by `(dy, -dx)` and
`RotateCounterClockwise` replaces it by `(-dy, dx)`, cell by cell in the same
order, with origin and colour unchanged; the negation is Go's `int32` negation,
the integer negation for every offset but the least `int32`. -/
theorem C4_rotation_offsets (t : tetromino) :
    (∀ i, t.RotateClockwise.cells i = ((t.cells i).2, I32.neg (t.cells i).1)) ∧
    (∀ i, t.RotateCounterClockwise.cells i = (I32.neg (t.cells i).2, (t.cells i).1)) ∧
    (∀ i, (t.cells i).1.val ≠ -2147483648 →
      (t.RotateClockwise.cells i).2.val = -(t.cells i).1.val) ∧
    (∀ i, (t.cells i).2.val ≠ -2147483648 →
      (t.RotateCounterClockwise.cells i).1.val = -(t.cells i).2.val) ∧
    (t.RotateClockwise.OriginX = t.OriginX ∧ t.RotateClockwise.OriginY = t.OriginY ∧
      t.RotateClockwise.color = t.color) ∧
    (t.RotateCounterClockwise.OriginX = t.OriginX ∧
      t.RotateCounterClockwise.OriginY = t.OriginY ∧
      t.RotateCounterClockwise.color = t.color) := by
  refine ⟨RotateClockwise_cells t, RotateCounterClockwise_cells t, ?_, ?_,
    RotateClockwise_frame t, RotateCounterClockwise_frame t⟩
  · intro i h
    rw [RotateClockwise_cells]
    exact I32.neg_val _ h
  · intro i h
    rw [RotateCounterClockwise_cells]
    exact I32.neg_val _ h

/-! ## Completion: marking -/

theorem wrap64_of_range (x : Int) (h1 : -9223372036854775808 ≤ x)
    (h2 : x < 9223372036854775808) : wrap64 x = x := by
  unfold wrap64; omega

theorem GoInt.add_val (a b : GoInt) : (GoInt.add a b).val = wrap64 (a.val + b.val) := rfl

theorem GoInt.mul_val (a b : GoInt) : (GoInt.mul a b).val = wrap64 (a.val * b.val) := rfl

theorem GoInt.div_val (a b : GoInt) : (GoInt.div a b).val = wrap64 (Int.tdiv a.val b.val) := rfl

theorem GoInt.ofInt_val (x : Int) : (GoInt.ofInt x).val = wrap64 x := rfl

/-- The marking loop over a list of distinct rows `L`, started on a state whose
board has the rows of `L` as in `b`: it records the complete rows of `L` in
order and marks exactly them. -/
theorem markStep_foldl (b : board) (L : List (Fin 40)) :
    ∀ s : board × List (Fin 40), L.Nodup → (∀ i, i ∈ L → s.1 i = b i) →
      (L.foldl markStep s).2 = s.2 ++ L.filter (fun i => isRowComplete (b i)) ∧
      ∀ i, (L.foldl markStep s).1 i =
        if i ∈ L ∧ isRowComplete (b i) = true then markedRow (b i) else s.1 i := by
  induction L with
  | nil => intro s _ _; simp
  | cons a L ih =>
    intro s hnd hs
    have ha : a ∉ L := (List.nodup_cons.mp hnd).1
    have hL : L.Nodup := (List.nodup_cons.mp hnd).2
    have hsa : s.1 a = b a := hs a (List.mem_cons_self _ _)
    rw [List.foldl_cons]
    by_cases hc : isRowComplete (b a) = true
    · have hstep : markStep s a = (markRow s.1 a, s.2 ++ [a]) := by
        unfold markStep; rw [hsa, if_pos hc]
      have hs' : ∀ i, i ∈ L → (markStep s a).1 i = b i := by
        intro i hi
        have hne : i ≠ a := fun h => ha (h ▸ hi)
        rw [hstep]
        funext j
        simp only [markRow, if_neg hne]
        rw [hs i (List.mem_cons_of_mem _ hi)]
      obtain ⟨h2, h1⟩ := ih (markStep s a) hL hs'
      refine ⟨?_, ?_⟩
      · rw [h2, hstep]; simp [List.filter_cons, hc]
      · intro i
        rw [h1 i, hstep]
        by_cases hia : i = a
        · subst hia
          have : ¬ (i ∈ L ∧ isRowComplete (b i) = true) := fun h => ha h.1
          rw [if_neg this, if_pos ⟨List.mem_cons_self _ _, hc⟩]
          funext j
          simp only [markRow, markedRow, if_true, hsa]
        · by_cases hiL : i ∈ L ∧ isRowComplete (b i) = true
          · rw [if_pos hiL, if_pos ⟨List.mem_cons_of_mem _ hiL.1, hiL.2⟩]
          · have : ¬ (i ∈ a :: L ∧ isRowComplete (b i) = true) := by
              rintro ⟨hm, hci⟩
              rcases List.mem_cons.mp hm with h | h
              · exact hia h
              · exact hiL ⟨h, hci⟩
            rw [if_neg hiL, if_neg this]
            funext j
            simp only [markRow, if_neg hia]
    · have hstep : markStep s a = s := by
        unfold markStep; rw [hsa, if_neg hc]
      obtain ⟨h2, h1⟩ := ih s hL (fun i hi => hs i (List.mem_cons_of_mem _ hi))
      rw [hstep]
      refine ⟨?_, ?_⟩
      · rw [h2]; simp [List.filter_cons, hc]
      · intro i
        rw [h1 i]
        by_cases hiL : i ∈ L ∧ isRowComplete (b i) = true
        · rw [if_pos hiL, if_pos ⟨List.mem_cons_of_mem _ hiL.1, hiL.2⟩]
        · have : ¬ (i ∈ a :: L ∧ isRowComplete (b i) = true) := by
            rintro ⟨hm, hci⟩
            rcases List.mem_cons.mp hm with h | h
            · exact hc (h ▸ hci)
            · exact hiL ⟨h, hci⟩
          rw [if_neg hiL, if_neg this]

/-- The rows the marking loop records: the fully-filled rows, topmost first. -/
theorem markRows_rows (b : board) : (markRows b).2 = (fullRows b).reverse := by
  have h := (markStep_foldl b (List.finRange 40).reverse (b, [])
    (List.nodup_reverse.mpr (List.nodup_finRange 40)) (fun _ _ => rfl)).1
  unfold markRows fullRows
  rw [h, List.filter_reverse]; simp

/-- The board the marking loop leaves: the fully-filled rows marked, the others
untouched. -/
theorem markRows_board (b : board) (i : Fin 40) :
    (markRows b).1 i = if isRowComplete (b i) = true then markedRow (b i) else b i := by
  have h := (markStep_foldl b (List.finRange 40).reverse (b, [])
    (List.nodup_reverse.mpr (List.nodup_finRange 40)) (fun _ _ => rfl)).2 i
  unfold markRows
  rw [h]
  have hm : i ∈ (List.finRange 40).reverse := List.mem_reverse.mpr (List.mem_finRange i)
  simp only [hm, true_and]

theorem markRows_length (b : board) : (markRows b).2.length = fullRowCount b := by
  rw [markRows_rows, List.length_reverse]; rfl

theorem fullRowCount_le (b : board) : fullRowCount b ≤ 40 := by
  unfold fullRowCount fullRows
  calc ((List.finRange 40).filter fun i => isRowComplete (b i)).length
      ≤ (List.finRange 40).length := List.length_filter_le _ _
    _ = 40 := List.length_finRange 40

/-! ## Completion: scoring -/

theorem scoreBase_cases (n : Nat) :
    scoreBase n = 100 ∨ scoreBase n = 300 ∨ scoreBase n = 500 ∨ scoreBase n = 800 ∨
      scoreBase n = 1200 := by
  unfold scoreBase
  split_ifs <;> simp

/-- The `switch` of `CompletionPhase` on a count of `n ≤ 40` rows adds the base
score of `n` times the level. -/
theorem clearScore_eq (n : Nat) (hn : n ≤ 40) (level : GoInt) :
    clearScore (GoInt.ofInt n) level = GoInt.mul (GoInt.ofInt (scoreBase n)) level := by
  have hv : (GoInt.ofInt (n : Int)).val = n := by
    simp only [GoInt.ofInt]
    exact wrap64_of_range _ (by omega) (by omega)
  unfold clearScore scoreBase
  simp only [hv]
  by_cases h1 : n = 1
  · simp [h1]
  by_cases h2 : n = 2
  · simp [h2]
  by_cases h3 : n = 3
  · simp [h3]
  by_cases h4 : n = 4
  · simp [h4]
  have e1 : ¬ ((n : Int) = 1) := by omega
  have e2 : ¬ ((n : Int) = 2) := by omega
  have e3 : ¬ ((n : Int) = 3) := by omega
  have e4 : ¬ ((n : Int) = 4) := by omega
  simp only [if_neg h1, if_neg h2, if_neg h3, if_neg h4, if_neg e1, if_neg e2, if_neg e3,
    if_neg e4]

/-- With at least one fully-filled row, `CompletionPhase` takes the clearing
branch: the counter and the score it leaves. -/
theorem CompletionPhase_cleared (gs : gameState) (hn : 1 ≤ fullRowCount gs.Board) :
    gs.CompletionPhase.linesCleared =
        GoInt.add gs.linesCleared (GoInt.ofInt (fullRowCount gs.Board)) ∧
    gs.CompletionPhase.Score =
        GoInt.add gs.Score
          (GoInt.mul (GoInt.ofInt (scoreBase (fullRowCount gs.Board)))
            (GoInt.add
              (GoInt.div (GoInt.add gs.linesCleared (GoInt.ofInt (fullRowCount gs.Board)))
                linesClearedPerLevel)
              (GoInt.ofInt 1))) ∧
    gs.CompletionPhase.Board = (markRows gs.Board).2.foldl deleteRow (markRows gs.Board).1 ∧
    gs.CompletionPhase.Phase = phase_Generation ∧
    gs.CompletionPhase.ActiveTetromino = gs.ActiveTetromino ∧
    gs.CompletionPhase.HoldingTetromino = gs.HoldingTetromino ∧
    gs.CompletionPhase.TetrominoQueue = gs.TetrominoQueue ∧
    gs.CompletionPhase.IsDone = gs.IsDone := by
  have hlen : (markRows gs.Board).2.length = fullRowCount gs.Board := markRows_length gs.Board
  have hpos : (markRows gs.Board).2.length > 0 := by omega
  have hscore := clearScore_eq (fullRowCount gs.Board) (fullRowCount_le gs.Board)
  rw [← hlen] at hscore ⊢
  unfold gameState.CompletionPhase
  rw [if_pos hpos]
  dsimp only
  refine ⟨rfl, ?_, rfl, rfl, rfl, rfl, rfl, rfl⟩
  rw [hscore]
  simp only [gameState.Level]

/-- C5: for every game state whose board has `n ≥ 1` fully-filled rows,
`CompletionPhase` adds `n` to `linesCleared` and adds `base(n) * level'` to
`Score`, where `level' = (linesCleared + n) / 10 + 1` is the level after the
increment, in Go's `int` arithmetic; with a non-negative counter and no
overflow these are the integer sum, product and quotient. -/
theorem C5_completion_score (gs : gameState) (hn : 1 ≤ fullRowCount gs.Board) :
    gs.CompletionPhase.linesCleared =
        GoInt.add gs.linesCleared (GoInt.ofInt (fullRowCount gs.Board)) ∧
    gs.CompletionPhase.Score =
        GoInt.add gs.Score
          (GoInt.mul (GoInt.ofInt (scoreBase (fullRowCount gs.Board)))
            (GoInt.add
              (GoInt.div (GoInt.add gs.linesCleared (GoInt.ofInt (fullRowCount gs.Board)))
                linesClearedPerLevel)
              (GoInt.ofInt 1))) ∧
    (0 ≤ gs.linesCleared.val →
      scoreBase (fullRowCount gs.Board) *
          ((gs.linesCleared.val + fullRowCount gs.Board) / 10 + 1) < 9223372036854775808 →
      -9223372036854775808 ≤ gs.Score.val + scoreBase (fullRowCount gs.Board) *
          ((gs.linesCleared.val + fullRowCount gs.Board) / 10 + 1) →
      gs.Score.val + scoreBase (fullRowCount gs.Board) *
          ((gs.linesCleared.val + fullRowCount gs.Board) / 10 + 1) < 9223372036854775808 →
      gs.CompletionPhase.linesCleared.val = gs.linesCleared.val + fullRowCount gs.Board ∧
      gs.CompletionPhase.Score.val =
        gs.Score.val + scoreBase (fullRowCount gs.Board) *
          ((gs.linesCleared.val + fullRowCount gs.Board) / 10 + 1)) := by
  obtain ⟨hl, hs, -⟩ := CompletionPhase_cleared gs hn
  refine ⟨hl, hs, ?_⟩
  intro h0 hP hS1 hS2
  have hle := fullRowCount_le gs.Board
  have hlo := gs.linesCleared.lo
  have hhi := gs.linesCleared.hi
  have hslo := gs.Score.lo
  have hshi := gs.Score.hi
  generalize fullRowCount gs.Board = n at *
  have hten : linesClearedPerLevel.val = 10 := by decide
  have hone : (GoInt.ofInt 1).val = 1 := by decide
  have hnv : (GoInt.ofInt (n : Int)).val = n := by
    simp only [GoInt.ofInt]
    exact wrap64_of_range _ (by omega) (by omega)
  have hL : gs.linesCleared.val + (n : Int) < 9223372036854775808 := by
    rcases scoreBase_cases n with h | h | h | h | h <;> rw [h] at hP <;> omega
  have hadd : (GoInt.add gs.linesCleared (GoInt.ofInt (n : Int))).val
      = gs.linesCleared.val + n := by
    simp only [GoInt.add, hnv]
    simp only [GoInt.ofInt]
    exact wrap64_of_range _ (by omega) (by omega)
  have hdiv : (GoInt.div (GoInt.add gs.linesCleared (GoInt.ofInt (n : Int)))
      linesClearedPerLevel).val = (gs.linesCleared.val + n) / 10 := by
    simp only [GoInt.div, hadd, hten]
    rw [Int.tdiv_eq_ediv (by omega) (by omega)]
    simp only [GoInt.ofInt]
    exact wrap64_of_range _ (by omega) (by omega)
  have hlevel : (GoInt.add (GoInt.div (GoInt.add gs.linesCleared (GoInt.ofInt (n : Int)))
      linesClearedPerLevel) (GoInt.ofInt 1)).val = (gs.linesCleared.val + n) / 10 + 1 := by
    rw [GoInt.add_val, hdiv, hone]
    exact wrap64_of_range _ (by omega) (by omega)
  have hbase : (GoInt.ofInt (scoreBase n)).val = scoreBase n := by
    simp only [GoInt.ofInt]
    rcases scoreBase_cases n with h | h | h | h | h <;> rw [h] <;>
      exact wrap64_of_range _ (by omega) (by omega)
  have hmul : (GoInt.mul (GoInt.ofInt (scoreBase n))
      (GoInt.add (GoInt.div (GoInt.add gs.linesCleared (GoInt.ofInt (n : Int)))
        linesClearedPerLevel) (GoInt.ofInt 1))).val
      = scoreBase n * ((gs.linesCleared.val + n) / 10 + 1) := by
    have hP1 : -9223372036854775808 ≤ scoreBase n * ((gs.linesCleared.val + n) / 10 + 1) := by
      rcases scoreBase_cases n with h | h | h | h | h <;> rw [h] <;> omega
    rw [GoInt.mul_val, hlevel, hbase]
    exact wrap64_of_range _ hP1 hP
  refine ⟨?_, ?_⟩
  · rw [hl, hadd]
  · rw [hs, GoInt.add_val, hmul]
    exact wrap64_of_range _ hS1 hS2

set_option maxRecDepth 100000 in
/-- One full row at `linesCleared = 0` adds 100 to the score; four full rows at
`linesCleared = 9` add 1600. -/
theorem C5_completion_score_witness :
    ((completionState (boardWithFullRows 1) 0).CompletionPhase.linesCleared.val = 1 ∧
      (completionState (boardWithFullRows 1) 0).CompletionPhase.Score.val = 0 + 100) ∧
    ((completionState (boardWithFullRows 4) 9).CompletionPhase.linesCleared.val = 13 ∧
      (completionState (boardWithFullRows 4) 9).CompletionPhase.Score.val = 0 + 1600) := by
  have h1 : fullRowCount (boardWithFullRows 1) = 1 := by decide
  have h4 : fullRowCount (boardWithFullRows 4) = 4 := by decide
  have w1 := (C5_completion_score (completionState (boardWithFullRows 1) 0)
    (by decide)).2.2
  have w4 := (C5_completion_score (completionState (boardWithFullRows 4) 9)
    (by decide)).2.2
  simp only [completionState, h1, h4] at w1 w4
  exact ⟨w1 (by decide) (by decide) (by decide) (by decide),
    w4 (by decide) (by decide) (by decide) (by decide)⟩

/-! ## Completion: compaction -/

/-- The shift loop started at `j` with enough fuel: every row from `j` up to
the one below the top takes the content of the row above it. -/
theorem shiftRowsDown_spec (fuel : Nat) :
    ∀ (j : Nat) (b : board), 39 ≤ j + fuel → ∀ i : Fin 40,
      shiftRowsDown fuel j b i =
        if h : j ≤ i.val ∧ i.val + 1 < 40 then b ⟨i.val + 1, h.2⟩ else b i := by
  induction fuel with
  | zero =>
    intro j b hj i
    have : ¬ (j ≤ i.val ∧ i.val + 1 < 40) := by omega
    rw [dif_neg this]; rfl
  | succ fuel ih =>
    intro j b hj i
    unfold shiftRowsDown
    by_cases hlt : j + 1 < 40
    · rw [dif_pos hlt, ih (j + 1) _ (by omega) i]
      by_cases hi : j + 1 ≤ i.val ∧ i.val + 1 < 40
      · have hi' : j ≤ i.val ∧ i.val + 1 < 40 := ⟨by omega, hi.2⟩
        rw [dif_pos hi, dif_pos hi']
        have hne : (⟨i.val + 1, hi.2⟩ : Fin 40) ≠ ⟨j, by omega⟩ := by
          intro h; have := congrArg Fin.val h; simp only at this; omega
        simp only [board.setRow, if_neg hne]
      · rw [dif_neg hi]
        by_cases hij : i.val = j
        · have hi' : j ≤ i.val ∧ i.val + 1 < 40 := ⟨by omega, by omega⟩
          have he : i = ⟨j, by omega⟩ := Fin.ext hij
          rw [dif_pos hi']
          simp only [board.setRow, if_pos he]
          have e : (⟨j + 1, hlt⟩ : Fin 40) = ⟨i.val + 1, hi'.2⟩ :=
            Fin.ext (by show j + 1 = i.val + 1; omega)
          rw [e]
        · have hi' : ¬ (j ≤ i.val ∧ i.val + 1 < 40) := by omega
          have hne : i ≠ ⟨j, by omega⟩ := by
            intro h; exact hij (congrArg Fin.val h)
          rw [dif_neg hi']
          simp only [board.setRow, if_neg hne]
    · have : ¬ (j ≤ i.val ∧ i.val + 1 < 40) := by omega
      rw [dif_neg hlt, dif_neg this]

theorem deleteRow_top (b : board) (r : Fin 40) : deleteRow b r 39 = zeroRow := by
  simp [deleteRow, board.setRow]

theorem deleteRow_below (b : board) (r i : Fin 40) (h : i.val < r.val) :
    deleteRow b r i = b i := by
  have hne : i ≠ 39 := by
    intro he; rw [he] at h; have := r.isLt; simp at h; omega
  have hc : ¬ (r.val ≤ i.val ∧ i.val + 1 < 40) := by omega
  simp only [deleteRow, board.setRow, if_neg hne]
  rw [shiftRowsDown_spec 40 r.val b (by omega) i, dif_neg hc]

theorem deleteRow_above (b : board) (r i : Fin 40) (h : r.val ≤ i.val) (h' : i.val + 1 < 40) :
    deleteRow b r i = b ⟨i.val + 1, h'⟩ := by
  have hne : i ≠ 39 := by
    intro he; subst he; exact absurd h' (by decide)
  simp only [deleteRow, board.setRow, if_neg hne]
  rw [shiftRowsDown_spec 40 r.val b (by omega) i, dif_pos ⟨h, h'⟩]

theorem ofFn_getElem? {α : Type} {n : Nat} (f : Fin n → α) (k : Nat) :
    (List.ofFn f)[k]? = if h : k < n then some (f ⟨k, h⟩) else none := by
  rw [List.getElem?_ofFn]; rfl

/-- Read from row 0 upward, the deletion of row `r` removes the entry at index
`r` and appends an empty row. -/
theorem ofFn_deleteRow (b : board) (r : Fin 40) :
    List.ofFn (deleteRow b r) = deleteAt zeroRow (List.ofFn b) r.val := by
  have hlen : ((List.ofFn b).eraseIdx r.val).length = 39 := by
    rw [List.length_eraseIdx, List.length_ofFn, if_pos r.isLt]
  apply List.ext_getElem?
  intro k
  unfold deleteAt
  rw [ofFn_getElem?]
  by_cases hk : k < 39
  · have hk40 : k < 40 := by omega
    rw [dif_pos hk40, List.getElem?_append_left (by omega)]
    by_cases hkr : k < r.val
    · rw [List.getElem?_eraseIdx_of_lt _ _ _ hkr, ofFn_getElem?, dif_pos hk40,
        deleteRow_below b r ⟨k, hk40⟩ hkr]
    · have hk1 : k + 1 < 40 := by omega
      rw [List.getElem?_eraseIdx_of_ge _ _ _ (by omega), ofFn_getElem?, dif_pos hk1,
        deleteRow_above b r ⟨k, hk40⟩ (by simp only; omega) hk1]
  · rw [List.getElem?_append_right (by omega), hlen]
    by_cases hk40 : k < 40
    · have he : k = 39 := by omega
      subst he
      rw [dif_pos hk40]
      have : (⟨39, hk40⟩ : Fin 40) = 39 := rfl
      rw [this, deleteRow_top]; rfl
    · rw [dif_neg hk40]
      have : k - 39 = (k - 40) + 1 := by omega
      rw [this]; rfl

theorem ofFn_foldl_deleteRow (L : List (Fin 40)) :
    ∀ b : board, List.ofFn (L.foldl deleteRow b) =
      (L.map Fin.val).foldl (deleteAt zeroRow) (List.ofFn b) := by
  induction L with
  | nil => intro b; rfl
  | cons r L ih =>
    intro b
    rw [List.foldl_cons, ih, ofFn_deleteRow]; rfl

theorem deleteAt_foldl_succ {α : Type} (z : α) (D : List Nat) :
    ∀ (x : α) (l : List α),
      (D.map Nat.succ).foldl (deleteAt z) (x :: l) = x :: D.foldl (deleteAt z) l := by
  induction D with
  | nil => intro x l; rfl
  | cons r D ih =>
    intro x l
    simp only [List.map_cons, List.foldl_cons]
    have : deleteAt z (x :: l) r.succ = x :: deleteAt z l r := by
      simp [deleteAt]
    rw [this, ih]

/-- Deleting, topmost first, the entries that satisfy `c` from a list whose
entries satisfying `c` have been rewritten by `m`: what is left are the entries
that do not satisfy `c`, in order and unchanged, and one `z` per deleted entry. -/
theorem deleteAt_foldl_indicesOf {α : Type} (c : α → Bool) (m : α → α) (z : α) (l : List α) :
    (indicesOf c l).reverse.foldl (deleteAt z) (l.map fun a => if c a then m a else a) =
      l.filter (fun a => !c a) ++ List.replicate (indicesOf c l).length z := by
  induction l with
  | nil => rfl
  | cons a l ih =>
    simp only [indicesOf, List.reverse_append, List.map_cons, List.foldl_append,
      ← List.map_reverse, deleteAt_foldl_succ, ih, List.length_append, List.length_map]
    by_cases hc : c a = true
    · simp only [hc, if_true, List.reverse_cons, List.reverse_nil, List.nil_append,
        List.foldl_cons, List.foldl_nil, List.length_singleton]
      simp [deleteAt, List.filter_cons, hc, Nat.add_comm 1, List.replicate_succ']
    · simp [List.filter_cons, hc]

theorem indicesOf_ofFn {α : Type} (c : α → Bool) :
    ∀ (n : Nat) (f : Fin n → α),
      ((List.finRange n).filter fun i => c (f i)).map Fin.val = indicesOf c (List.ofFn f) := by
  intro n
  induction n with
  | zero => intro f; simp [indicesOf]
  | succ n ih =>
    intro f
    rw [List.finRange_succ, List.ofFn_succ]
    simp only [indicesOf, List.filter_cons, List.filter_map]
    rw [← ih (fun i => f i.succ)]
    by_cases hc : c (f 0) = true
    · simp [hc, Function.comp_def]
    · simp [hc, Function.comp_def]

/-- The rows `CompletionPhase` leaves, read from row 0 upward: the rows that
were not fully filled, in order and unchanged, then one empty row per
fully-filled row. -/
theorem CompletionPhase_rows (b : board) :
    List.ofFn ((markRows b).2.foldl deleteRow (markRows b).1) =
      (List.ofFn b).filter (fun row => !isRowComplete row) ++
        List.replicate (fullRowCount b) zeroRow := by
  have hm : List.ofFn (markRows b).1 =
      (List.ofFn b).map fun row => if isRowComplete row then markedRow row else row := by
    rw [List.map_ofFn]
    exact congrArg List.ofFn (funext (markRows_board b))
  have hidx : (markRows b).2.map Fin.val = (indicesOf isRowComplete (List.ofFn b)).reverse := by
    rw [markRows_rows, List.map_reverse]
    unfold fullRows
    rw [indicesOf_ofFn isRowComplete 40 b]
  have hcount : fullRowCount b = (indicesOf isRowComplete (List.ofFn b)).length := by
    unfold fullRowCount fullRows
    rw [← indicesOf_ofFn isRowComplete 40 b, List.length_map]
  rw [ofFn_foldl_deleteRow, hm, hidx, hcount]
  exact deleteAt_foldl_indicesOf isRowComplete markedRow zeroRow (List.ofFn b)

/-- From the rows read upward: when row 0 was fully filled and row 1 was not,
the new row 0 is the old row 1. -/
theorem row_zero_of_rows (b b' : board) (n : Nat)
    (h : List.ofFn b' = (List.ofFn b).filter (fun row => !isRowComplete row) ++
      List.replicate n zeroRow)
    (h0 : isRowComplete (b 0) = true) (h1 : isRowComplete (b 1) = false) :
    b' 0 = b 1 := by
  have hb : List.ofFn b = b 0 :: b 1 :: List.ofFn (fun i : Fin 38 => b i.succ.succ) := by
    rw [List.ofFn_succ, List.ofFn_succ]; rfl
  have h' := congrArg (fun l => l[0]?) h
  simp only [ofFn_getElem?] at h'
  rw [hb] at h'
  simp only [List.filter_cons, h0, h1] at h'
  simpa using h'

/-- From the rows read upward: with at least one row removed, the new top row
is the empty row. -/
theorem row_top_of_rows (b b' : board) (n : Nat)
    (h : List.ofFn b' = (List.ofFn b).filter (fun row => !isRowComplete row) ++
      List.replicate n zeroRow)
    (hn : 1 ≤ n) : b' 39 = zeroRow := by
  have hl := congrArg List.length h
  simp only [List.length_ofFn, List.length_append, List.length_replicate] at hl
  have h' := congrArg (fun l => l[39]?) h
  simp only [ofFn_getElem?] at h'
  rw [List.getElem?_append_right (by omega), List.getElem?_replicate,
    if_pos (by omega)] at h'
  simpa using h'

/-- C6: for every board with at least one fully-filled row, after
`CompletionPhase` the rows of the board read from row 0 upward are the rows of
the original board that were not fully filled, in their original order and
with unchanged cells, followed by one empty row (every cell unfilled and not
ghost) for each fully-filled row. -/
theorem C6_completion_compacts (gs : gameState) (hn : 1 ≤ fullRowCount gs.Board) :
    List.ofFn gs.CompletionPhase.Board =
      (List.ofFn gs.Board).filter (fun row => !isRowComplete row) ++
        List.replicate (fullRowCount gs.Board) zeroRow ∧
    (∀ j, (zeroRow j).IsFilled = false ∧ (zeroRow j).IsGhost = false) := by
  refine ⟨?_, fun j => ⟨rfl, rfl⟩⟩
  rw [(CompletionPhase_cleared gs hn).2.2.1]
  exact CompletionPhase_rows gs.Board

set_option maxRecDepth 100000 in
/-- Row 0 full and row 1 partially filled: the new row 0 is the old row 1 and
the new top row is empty. -/
theorem C6_completion_compacts_witness :
    fullRowCount boardFullThenPartial = 1 ∧
    (completionState boardFullThenPartial 0).CompletionPhase.Board 0 = boardFullThenPartial 1 ∧
    (completionState boardFullThenPartial 0).CompletionPhase.Board 39 = zeroRow :=
  ⟨by decide,
   row_zero_of_rows boardFullThenPartial _ _
    (C6_completion_compacts (completionState boardFullThenPartial 0) (by decide)).1
    (by decide) (by decide),
   row_top_of_rows boardFullThenPartial _ _
    (C6_completion_compacts (completionState boardFullThenPartial 0) (by decide)).1
    (by decide)⟩

/-! ## Hold -/

theorem movedTo_shape (t : tetromino) (x y : I32) :
    (t.movedTo x y).cells = t.cells ∧ (t.movedTo x y).color = t.color ∧
      (t.movedTo x y).OriginX = x ∧ (t.movedTo x y).OriginY = y := ⟨rfl, rfl, rfl, rfl⟩

theorem origin_constants :
    tetrominoHoldingX.val = 2 ∧ tetrominoHoldingY.val = 2 ∧
      tetrominoGenerateX.val = 5 ∧ tetrominoGenerateY.val = 20 := by decide

/-- `ActiveTetrominoHold` on an empty holding slot. -/
theorem hold_empty (gs : gameState) (a : tetromino) (ha : gs.ActiveTetromino = some a)
    (hh : gs.HoldingTetromino = none) :
    gs.ActiveTetrominoHold = some (true,
      { gs with
        HoldingTetromino := some (a.movedTo tetrominoHoldingX tetrominoHoldingY)
        ActiveTetromino := none }) := by
  simp only [gameState.ActiveTetrominoHold, ha, hh, tetromino.movedTo]

/-- `ActiveTetrominoHold` on an occupied holding slot. -/
theorem hold_occupied (gs : gameState) (a h : tetromino) (ha : gs.ActiveTetromino = some a)
    (hh : gs.HoldingTetromino = some h) :
    gs.ActiveTetrominoHold = some (false,
      { gs with
        HoldingTetromino := some (a.movedTo tetrominoHoldingX tetrominoHoldingY)
        ActiveTetromino := some (h.movedTo tetrominoGenerateX tetrominoGenerateY) }) := by
  simp only [gameState.ActiveTetrominoHold, ha, hh, tetromino.movedTo]

/-- C7: for every game state with an active piece and an empty holding slot,
`ActiveTetrominoHold` returns `shouldGenerate = true`, leaves the active slot
empty and the holding slot with the previously active piece (same four offsets
and colour) at the holding origin `(2, 2)`, with the board and every other
field unchanged; the Falling handler, on a Hold input with action Down, then
stops with the phase set to Generation. -/
theorem C7_hold_empty_slot (gs : gameState) (a : tetromino)
    (ha : gs.ActiveTetromino = some a) (hh : gs.HoldingTetromino = none) :
    ∃ gs' held, gs.ActiveTetrominoHold = some (true, gs') ∧
      gs'.ActiveTetromino = none ∧
      gs'.HoldingTetromino = some held ∧
      held.cells = a.cells ∧ held.color = a.color ∧
      held.OriginX = tetrominoHoldingX ∧ held.OriginY = tetrominoHoldingY ∧
      held.OriginX.val = 2 ∧ held.OriginY.val = 2 ∧
      gs'.Board = gs.Board ∧ gs'.TetrominoQueue = gs.TetrominoQueue ∧
      gs'.Phase = gs.Phase ∧ gs'.linesCleared = gs.linesCleared ∧ gs'.Score = gs.Score ∧
      gs'.IsDone = gs.IsDone ∧
      ∀ (fuel : Nat) (keyCode : I32),
        gs.fallingEvent fuel
            (Event.input { Input := Input_Hold, Action := Action_Down, KeyCode := keyCode }) =
          some (true, { gs' with Phase := phase_Generation }) := by
  refine ⟨_, a.movedTo tetrominoHoldingX tetrominoHoldingY, hold_empty gs a ha hh,
    rfl, rfl, rfl, rfl, rfl, rfl, origin_constants.1, origin_constants.2.1,
    rfl, rfl, rfl, rfl, rfl, rfl, ?_⟩
  intro fuel keyCode
  simp only [gameState.fallingEvent, hold_empty gs a ha hh, if_true]

/-- The T piece falling from the spawn origin over the empty board, nothing held. -/
theorem C7_hold_empty_slot_witness :
    ∃ gs' held, (fallingState (some (pieceT 5 20)) none newBoard).ActiveTetrominoHold
        = some (true, gs') ∧
      gs'.ActiveTetromino = none ∧
      gs'.HoldingTetromino = some held ∧
      held.cells = (pieceT 5 20).cells ∧ held.color = (pieceT 5 20).color ∧
      held.OriginX = tetrominoHoldingX ∧ held.OriginY = tetrominoHoldingY ∧
      held.OriginX.val = 2 ∧ held.OriginY.val = 2 ∧
      gs'.Board = newBoard ∧
      gs'.TetrominoQueue = (fallingState (some (pieceT 5 20)) none newBoard).TetrominoQueue ∧
      gs'.Phase = phase_Falling ∧ gs'.linesCleared = GoInt.ofInt 0 ∧
      gs'.Score = GoInt.ofInt 0 ∧ gs'.IsDone = false ∧
      ∀ (fuel : Nat) (keyCode : I32),
        (fallingState (some (pieceT 5 20)) none newBoard).fallingEvent fuel
            (Event.input { Input := Input_Hold, Action := Action_Down, KeyCode := keyCode }) =
          some (true, { gs' with Phase := phase_Generation }) :=
  C7_hold_empty_slot (fallingState (some (pieceT 5 20)) none newBoard) (pieceT 5 20) rfl rfl

/-- C8: for every game state with an active piece `a` and a held piece `h`,
`ActiveTetrominoHold` returns `shouldGenerate = false`; afterwards the active
piece has the offsets and colour of `h` and the spawn origin `(5, 20)`, the
holding slot has the offsets and colour of `a` and the holding origin `(2, 2)`,
the board, the phase and every other field are unchanged, and the Falling
handler goes on (not done) in the same phase; a second hold returns `a` to the
active slot and `h` to the holding slot, offsets and colours intact. -/
theorem C8_hold_swap (gs : gameState) (a h : tetromino)
    (ha : gs.ActiveTetromino = some a) (hh : gs.HoldingTetromino = some h) :
    ∃ gs' gs'', gs.ActiveTetrominoHold = some (false, gs') ∧
      gs'.ActiveTetromino = some (h.movedTo tetrominoGenerateX tetrominoGenerateY) ∧
      gs'.HoldingTetromino = some (a.movedTo tetrominoHoldingX tetrominoHoldingY) ∧
      gs'.Board = gs.Board ∧ gs'.Phase = gs.Phase ∧
      gs'.TetrominoQueue = gs.TetrominoQueue ∧ gs'.linesCleared = gs.linesCleared ∧
      gs'.Score = gs.Score ∧ gs'.IsDone = gs.IsDone ∧
      (∀ (fuel : Nat) (keyCode : I32),
        gs.fallingEvent fuel
            (Event.input { Input := Input_Hold, Action := Action_Down, KeyCode := keyCode }) =
          some (false, gs')) ∧
      gs'.ActiveTetrominoHold = some (false, gs'') ∧
      gs''.ActiveTetromino = some (a.movedTo tetrominoGenerateX tetrominoGenerateY) ∧
      gs''.HoldingTetromino = some (h.movedTo tetrominoHoldingX tetrominoHoldingY) ∧
      gs''.Board = gs.Board ∧ gs''.Phase = gs.Phase ∧
      (∀ (t : tetromino) (x y : I32),
        (t.movedTo x y).cells = t.cells ∧ (t.movedTo x y).color = t.color ∧
          (t.movedTo x y).OriginX = x ∧ (t.movedTo x y).OriginY = y) ∧
      tetrominoHoldingX.val = 2 ∧ tetrominoHoldingY.val = 2 ∧
      tetrominoGenerateX.val = 5 ∧ tetrominoGenerateY.val = 20 := by
  have h1 := hold_occupied gs a h ha hh
  have h2 := hold_occupied
    { gs with
      HoldingTetromino := some (a.movedTo tetrominoHoldingX tetrominoHoldingY)
      ActiveTetromino := some (h.movedTo tetrominoGenerateX tetrominoGenerateY) }
    (h.movedTo tetrominoGenerateX tetrominoGenerateY)
    (a.movedTo tetrominoHoldingX tetrominoHoldingY) rfl rfl
  refine ⟨_, _, h1, rfl, rfl, rfl, rfl, rfl, rfl, rfl, rfl, ?_, h2, rfl, rfl, rfl, rfl,
    movedTo_shape, origin_constants⟩
  intro fuel keyCode
  simp only [gameState.fallingEvent, h1, if_true]

/-- The T piece falling over the empty board with the O piece held. -/
theorem C8_hold_swap_witness :
    ∃ gs' gs'',
      (fallingState (some (pieceT 5 10)) (some (pieceO 2 2)) newBoard).ActiveTetrominoHold
        = some (false, gs') ∧
      gs'.ActiveTetromino =
        some ((pieceO 2 2).movedTo tetrominoGenerateX tetrominoGenerateY) ∧
      gs'.HoldingTetromino =
        some ((pieceT 5 10).movedTo tetrominoHoldingX tetrominoHoldingY) ∧
      gs'.ActiveTetrominoHold = some (false, gs'') ∧
      gs''.ActiveTetromino =
        some ((pieceT 5 10).movedTo tetrominoGenerateX tetrominoGenerateY) ∧
      gs''.HoldingTetromino =
        some ((pieceO 2 2).movedTo tetrominoHoldingX tetrominoHoldingY) := by
  obtain ⟨gs', gs'', h1, h2, h3, -, -, -, -, -, -, -, h4, h5, h6, -⟩ :=
    C8_hold_swap (fallingState (some (pieceT 5 10)) (some (pieceO 2 2)) newBoard)
      (pieceT 5 10) (pieceO 2 2) rfl rfl
  exact ⟨gs', gs'', h1, h2, h3, h4, h5, h6⟩

/-! ## Generation -/

/-- The factory returns a piece for every selector in `0..6`. -/
theorem NewRandomTetromino_some (r : Int) (h0 : 0 ≤ r) (h6 : r ≤ 6) (x y : I32) :
    ∃ t, NewRandomTetromino r x y = some t := by
  interval_cases r <;> simp [NewRandomTetromino]

/-- The state `GenerationPhase` leaves, given the answer of the collision test
and the piece the factory returned. -/
theorem GenerationPhase_eq (gs : gameState) (r : Int) (c : Bool) (fresh : tetromino)
    (hc : ((gs.TetrominoQueue 4).movedTo tetrominoGenerateX tetrominoGenerateY).CheckCollision
      gs.Board = some c)
    (hfresh : NewRandomTetromino r tetrominoQueueX tetrominoQueueY = some fresh) :
    gs.GenerationPhase r = some { gs with
      ActiveTetromino := some ((gs.TetrominoQueue 4).movedTo tetrominoGenerateX tetrominoGenerateY)
      TetrominoQueue := Function.update (queueShift gs.TetrominoQueue) 0 fresh
      Phase := if c then phase_GameOver else phase_Falling } := by
  unfold tetromino.movedTo at hc
  simp only [gameState.GenerationPhase, hc, hfresh, tetromino.movedTo]

/-- C9: for every game state (in phase Generation or any other) and every
selector in `0..6`, `GenerationPhase` returns; the new active piece is the
queue entry it takes, placed at the spawn origin `(5, 20)`; the phase it ends
in is GameOver if and only if that piece collides with the board, and Falling
otherwise; the board is not modified. -/
theorem C9_generation_spawn (gs : gameState) (r : Int) (h0 : 0 ≤ r) (h6 : r ≤ 6) :
    ∃ gs' collides,
      gs.GenerationPhase r = some gs' ∧
      gs'.ActiveTetromino =
        some ((gs.TetrominoQueue 4).movedTo tetrominoGenerateX tetrominoGenerateY) ∧
      tetrominoGenerateX.val = 5 ∧ tetrominoGenerateY.val = 20 ∧
      ((gs.TetrominoQueue 4).movedTo tetrominoGenerateX tetrominoGenerateY).CheckCollision
        gs.Board = some collides ∧
      (gs'.Phase = phase_GameOver ↔ collides = true) ∧
      (gs'.Phase = phase_Falling ↔ collides = false) ∧
      gs'.Board = gs.Board := by
  obtain ⟨c, hc, -⟩ := CheckCollision_spec
    ((gs.TetrominoQueue 4).movedTo tetrominoGenerateX tetrominoGenerateY) gs.Board
  obtain ⟨fresh, hfresh⟩ := NewRandomTetromino_some r h0 h6 tetrominoQueueX tetrominoQueueY
  refine ⟨_, c, GenerationPhase_eq gs r c fresh hc hfresh, rfl,
    origin_constants.2.2.1, origin_constants.2.2.2, hc, ?_, ?_, rfl⟩
  · cases c <;> simp
  · cases c <;> simp

/-- On the empty board the spawned T piece does not collide and the phase
becomes Falling; on a board filled up to the spawn rows it collides and the
phase becomes GameOver. -/
theorem C9_generation_spawn_witness :
    (∃ gs', (generationState newBoard).GenerationPhase 0 = some gs' ∧
      gs'.Phase = phase_Falling ∧ gs'.Board = newBoard) ∧
    (∃ gs', (generationState (boardWithFullRows 21)).GenerationPhase 6 = some gs' ∧
      gs'.Phase = phase_GameOver ∧ gs'.Board = boardWithFullRows 21) := by
  obtain ⟨g1, c1, hg1, -, -, -, hc1, -, hf1, hb1⟩ :=
    C9_generation_spawn (generationState newBoard) 0 (by decide) (by decide)
  obtain ⟨g2, c2, hg2, -, -, -, hc2, ho2, -, hb2⟩ :=
    C9_generation_spawn (generationState (boardWithFullRows 21)) 6 (by decide) (by decide)
  have e1 : (((generationState newBoard).TetrominoQueue 4).movedTo tetrominoGenerateX
      tetrominoGenerateY).CheckCollision newBoard = some false := by decide
  have e2 : (((generationState (boardWithFullRows 21)).TetrominoQueue 4).movedTo
      tetrominoGenerateX tetrominoGenerateY).CheckCollision (boardWithFullRows 21)
        = some true := by decide
  exact ⟨⟨g1, hg1, hf1.mpr (Option.some.inj (hc1.symm.trans e1)), hb1⟩,
    ⟨g2, hg2, ho2.mpr (Option.some.inj (hc2.symm.trans e2)), hb2⟩⟩

/-! ## Commit and lock -/

theorem board.set_same (b : board) (i : Fin 40) (j : Fin 10) (c : cell) :
    b.set i j c i j = c := by
  simp [board.set]

theorem board.set_set (b : board) (i : Fin 40) (j : Fin 10) (c c' : cell) :
    (b.set i j c).set i j c' = b.set i j c' := by
  funext i' j'
  simp only [board.set]
  split_ifs <;> rfl

theorem modify?_of_inGrid (b : board) (y x : I32) (g : cell → cell)
    (h : 0 ≤ y.val ∧ y.val < 40 ∧ 0 ≤ x.val ∧ x.val < 10) :
    b.modify? y x g = some (b.set ⟨y.val.toNat, by omega⟩ ⟨x.val.toNat, by omega⟩
      (g (b ⟨y.val.toNat, by omega⟩ ⟨x.val.toNat, by omega⟩))) := by
  unfold board.modify?
  rw [dif_pos h]

/-- The loop of `cellIterator` with an iterator function that rewrites the cell
it visits by an idempotent `g` and returns false: on cells inside the grid it
visits them all, and the board it leaves has `g` applied on the visited cells
and nothing else changed. -/
theorem cellIteratorOver_rewrite (t : tetromino) (f : I32 → I32 → board → Option (Bool × board))
    (g : cell → cell) (hg : ∀ c, g (g c) = g c)
    (hf : ∀ (x y : I32) (b : board) (h : 0 ≤ y.val ∧ y.val < 40 ∧ 0 ≤ x.val ∧ x.val < 10),
      f x y b = some (false, b.set ⟨y.val.toNat, by omega⟩ ⟨x.val.toNat, by omega⟩
        (g (b ⟨y.val.toNat, by omega⟩ ⟨x.val.toNat, by omega⟩))))
    (is : List (Fin 4)) :
    (∀ i, i ∈ is → inGrid (t.absCell i)) → ∀ b : board,
      ∃ b', t.cellIteratorOver f is b = some (false, b') ∧
        ∀ (y : Fin 40) (x : Fin 10), b' y x =
          if (∃ i, i ∈ is ∧ (t.absCell i).1.val = x.val ∧ (t.absCell i).2.val = y.val)
          then g (b y x) else b y x := by
  induction is with
  | nil =>
    intro _ b
    exact ⟨b, rfl, fun y x => by simp⟩
  | cons i is ih =>
    intro hin b
    obtain ⟨h1, h2, h3, h4⟩ := hin i (List.mem_cons_self _ _)
    have hcell : 0 ≤ (t.absCell i).2.val ∧ (t.absCell i).2.val < 40 ∧
        0 ≤ (t.absCell i).1.val ∧ (t.absCell i).1.val < 10 := ⟨h3, h4, h1, h2⟩
    obtain ⟨b', hb', hspec⟩ := ih (fun k hk => hin k (List.mem_cons_of_mem _ hk))
      (b.set ⟨(t.absCell i).2.val.toNat, by omega⟩ ⟨(t.absCell i).1.val.toNat, by omega⟩
        (g (b ⟨(t.absCell i).2.val.toNat, by omega⟩ ⟨(t.absCell i).1.val.toNat, by omega⟩)))
    refine ⟨b', ?_, ?_⟩
    · simp only [tetromino.cellIteratorOver, hf _ _ b hcell, hb']
    · intro y x
      rw [hspec y x]
      by_cases hhere : (t.absCell i).1.val = x.val ∧ (t.absCell i).2.val = y.val
      · have ey : (⟨(t.absCell i).2.val.toNat, by omega⟩ : Fin 40) = y :=
          Fin.ext (by simp only; omega)
        have ex : (⟨(t.absCell i).1.val.toNat, by omega⟩ : Fin 10) = x :=
          Fin.ext (by simp only; omega)
        have hyes : ∃ k, k ∈ i :: is ∧ (t.absCell k).1.val = x.val ∧
            (t.absCell k).2.val = y.val := ⟨i, List.mem_cons_self _ _, hhere⟩
        rw [if_pos hyes]
        simp only [ey, ex, board.set_same]
        split_ifs
        · exact hg _
        · rfl
      · have hne : ¬ (y = ⟨(t.absCell i).2.val.toNat, by omega⟩ ∧
            x = ⟨(t.absCell i).1.val.toNat, by omega⟩) := by
          rintro ⟨hy, hx⟩
          apply hhere
          have hy' := congrArg Fin.val hy
          have hx' := congrArg Fin.val hx
          simp only at hy' hx'
          omega
        have hset : b.set ⟨(t.absCell i).2.val.toNat, by omega⟩
            ⟨(t.absCell i).1.val.toNat, by omega⟩
            (g (b ⟨(t.absCell i).2.val.toNat, by omega⟩
              ⟨(t.absCell i).1.val.toNat, by omega⟩)) y x = b y x := by
          simp only [board.set, if_neg hne]
        rw [hset]
        have hiff : (∃ k, k ∈ is ∧ (t.absCell k).1.val = x.val ∧ (t.absCell k).2.val = y.val) ↔
            (∃ k, k ∈ i :: is ∧ (t.absCell k).1.val = x.val ∧
              (t.absCell k).2.val = y.val) := by
          constructor
          · rintro ⟨k, hk, hat⟩
            exact ⟨k, List.mem_cons_of_mem _ hk, hat⟩
          · rintro ⟨k, hk, hat⟩
            rcases List.mem_cons.mp hk with rfl | hk
            · exact absurd hat hhere
            · exact ⟨k, hk, hat⟩
        simp only [hiff]

/-- The iterator function of `CommitToBoard` on a cell inside the grid. -/
theorem commitVisit_of_inGrid (color : Color) (x y : I32) (b : board)
    (h : 0 ≤ y.val ∧ y.val < 40 ∧ 0 ≤ x.val ∧ x.val < 10) :
    commitVisit color x y b =
      some (false, b.set ⟨y.val.toNat, by omega⟩ ⟨x.val.toNat, by omega⟩
        ((fun c : cell => { c with IsFilled := true, Color := color })
          (b ⟨y.val.toNat, by omega⟩ ⟨x.val.toNat, by omega⟩))) := by
  simp only [commitVisit, modify?_of_inGrid _ y x _ h, board.set_same, board.set_set]

/-- `CommitToBoard` of a piece whose cells are inside the grid returns, and
leaves the board with the cells of the piece filled in its colour and no other
change. -/
theorem CommitToBoard_spec (t : tetromino) (b : board) (hin : ∀ i, inGrid (t.absCell i)) :
    ∃ b', t.CommitToBoard b = some b' ∧
      ∀ (y : Fin 40) (x : Fin 10), b' y x =
        if t.occupies y x then { b y x with IsFilled := true, Color := t.color } else b y x := by
  obtain ⟨b', hb', hspec⟩ := cellIteratorOver_rewrite t (commitVisit t.color)
    (fun c : cell => { c with IsFilled := true, Color := t.color }) (fun _ => rfl)
    (commitVisit_of_inGrid t.color) [0, 1, 2, 3] (fun i _ => hin i) b
  refine ⟨b', ?_, ?_⟩
  · simp only [tetromino.CommitToBoard, tetromino.cellIterator, hb']
  · intro y x
    rw [hspec y x]
    have hiff : (∃ i, i ∈ ([0, 1, 2, 3] : List (Fin 4)) ∧ (t.absCell i).1.val = x.val ∧
        (t.absCell i).2.val = y.val) ↔ t.occupies y x := by
      constructor
      · rintro ⟨i, _, hat⟩; exact ⟨i, hat⟩
      · rintro ⟨i, hat⟩; exact ⟨i, mem_allCells i, hat⟩
    simp only [hiff]

/-- C10: for every game state whose active piece has its four absolute cells
inside the grid, `LockPhase` returns; on the board cells the piece occupies it
sets `IsFilled = true` and the colour of the piece and keeps `IsGhost`; every
other board cell is unchanged; the active slot is cleared; the holding slot,
the queue, `Score`, `linesCleared` and `IsDone` are unchanged; the phase is
Completion. -/
theorem C10_lock_commits (gs : gameState) (t : tetromino) (ht : gs.ActiveTetromino = some t)
    (hin : ∀ i, inGrid (t.absCell i)) :
    ∃ gs', gs.LockPhase = some gs' ∧
      (∀ (y : Fin 40) (x : Fin 10), t.occupies y x →
        (gs'.Board y x).IsFilled = true ∧ (gs'.Board y x).Color = t.color ∧
          (gs'.Board y x).IsGhost = (gs.Board y x).IsGhost) ∧
      (∀ (y : Fin 40) (x : Fin 10), ¬ t.occupies y x → gs'.Board y x = gs.Board y x) ∧
      gs'.ActiveTetromino = none ∧
      gs'.HoldingTetromino = gs.HoldingTetromino ∧
      gs'.TetrominoQueue = gs.TetrominoQueue ∧
      gs'.Score = gs.Score ∧ gs'.linesCleared = gs.linesCleared ∧
      gs'.IsDone = gs.IsDone ∧
      gs'.Phase = phase_Completion := by
  obtain ⟨b', hb', hspec⟩ := CommitToBoard_spec t gs.Board hin
  refine ⟨{ gs with Board := b', ActiveTetromino := none, Phase := phase_Completion },
    ?_, ?_, ?_, rfl, rfl, rfl, rfl, rfl, rfl, rfl⟩
  · simp only [gameState.LockPhase, ht, hb']
  · intro y x hocc
    simp only [hspec y x, if_pos hocc, and_self]
  · intro y x hocc
    simp only [hspec y x, if_neg hocc]

/-- The T piece resting on the floor of the empty board: its four cells get
filled in its colour, a cell it does not occupy stays as it was. -/
theorem C10_lock_commits_witness :
    ∃ gs', (fallingState (some (pieceT 5 0)) none newBoard).LockPhase = some gs' ∧
      ((gs'.Board 0 4).IsFilled = true ∧ (gs'.Board 0 5).IsFilled = true ∧
        (gs'.Board 0 6).IsFilled = true ∧ (gs'.Board 1 5).IsFilled = true ∧
        (gs'.Board 1 5).Color = tTetriminoColor) ∧
      gs'.Board 1 4 = newBoard 1 4 ∧
      gs'.ActiveTetromino = none ∧ gs'.Phase = phase_Completion := by
  obtain ⟨gs', h, hocc, hfree, ha, -, -, -, -, -, hp⟩ :=
    C10_lock_commits (fallingState (some (pieceT 5 0)) none newBoard) (pieceT 5 0) rfl
      (by decide)
  refine ⟨gs', h, ⟨?_, ?_, ?_, ?_, ?_⟩, ?_, ha, hp⟩
  · exact (hocc 0 4 ⟨1, by decide⟩).1
  · exact (hocc 0 5 ⟨0, by decide⟩).1
  · exact (hocc 0 6 ⟨3, by decide⟩).1
  · exact (hocc 1 5 ⟨2, by decide⟩).1
  · exact (hocc 1 5 ⟨2, by decide⟩).2.1
  · refine hfree 1 4 ?_
    rintro ⟨i, hi⟩
    revert hi
    fin_cases i <;> decide

/-! ## Hard drop -/

/-- `CheckCollision` reads the `IsFilled` flags only. -/
theorem CheckCollision_filled_congr (t : tetromino) (b b' : board)
    (h : ∀ y x, (b' y x).IsFilled = (b y x).IsFilled) :
    t.CheckCollision b' = t.CheckCollision b := by
  obtain ⟨r, hr, hspec⟩ := CheckCollision_spec t b
  obtain ⟨r', hr', hspec'⟩ := CheckCollision_spec t b'
  have hiff : (r' = true ↔ r = true) := by
    rw [hspec', hspec]
    apply exists_congr; intro i
    unfold cellCollides
    simp only [h]
  rw [hr, hr']
  cases r <;> cases r' <;> simp_all

/-- A piece that does not collide has its cells inside the grid, on unfilled
cells. -/
theorem not_collides_cells (t : tetromino) (b : board) (h : t.CheckCollision b = some false)
    (i : Fin 4) :
    inGrid (t.absCell i) ∧
      ∀ (y : Fin 40) (x : Fin 10), (t.absCell i).1.val = x.val → (t.absCell i).2.val = y.val →
        (b y x).IsFilled = false := by
  obtain ⟨r, hr, hspec⟩ := CheckCollision_spec t b
  rw [h] at hr
  have hr' : r = false := (Option.some.inj hr).symm
  subst hr'
  have hn : ¬ cellCollides b (t.absCell i) := fun hc => by
    have := hspec.mpr ⟨i, hc⟩
    exact absurd this (by simp)
  unfold cellCollides at hn
  refine ⟨?_, ?_⟩
  · unfold inGrid; omega
  · intro y x hx hy
    by_contra hf
    apply hn
    refine Or.inr (Or.inr (Or.inr (Or.inr ⟨y, x, hy.symm, hx.symm, ?_⟩)))
    cases hb : (b y x).IsFilled
    · exact absurd hb hf
    · rfl

/-- A piece with a cell outside the grid collides. -/
theorem collides_of_not_inGrid (t : tetromino) (b : board) (i : Fin 4)
    (h : ¬ inGrid (t.absCell i)) : t.CheckCollision b = some true := by
  obtain ⟨r, hr, hspec⟩ := CheckCollision_spec t b
  have : r = true := hspec.mpr ⟨i, by unfold inGrid at h; unfold cellCollides; omega⟩
  rw [hr, this]

theorem down_fields (t : tetromino) :
    t.down.OriginX = t.OriginX ∧ t.down.cells = t.cells ∧ t.down.color = t.color ∧
      t.down.OriginY = I32.sub t.OriginY (I32.ofInt 1) := ⟨rfl, rfl, rfl, rfl⟩

/-- One step down keeps the column of every cell and, for a cell whose row is
in the grid, lowers the row by one. -/
theorem absCell_down (t : tetromino) (i : Fin 4) :
    (t.down.absCell i).1 = (t.absCell i).1 ∧
      (0 ≤ (t.absCell i).2.val → (t.absCell i).2.val < 40 →
        (t.down.absCell i).2.val = (t.absCell i).2.val - 1) := by
  refine ⟨rfl, ?_⟩
  have h1 := (t.cells i).2.lo
  have h2 := (t.cells i).2.hi
  have h3 := t.OriginY.lo
  have h4 := t.OriginY.hi
  simp only [tetromino.absCell, tetromino.down, I32.add, I32.sub, I32.ofInt, wrap32]
  omega

/-- Seen from the lower position: when the row of a cell of the piece one step
down is in the grid, the row of the cell before the step is one higher. -/
theorem absCell_down_inv (t : tetromino) (i : Fin 4) :
    0 ≤ (t.down.absCell i).2.val → (t.down.absCell i).2.val < 40 →
      (t.absCell i).2.val = (t.down.absCell i).2.val + 1 := by
  have h1 := (t.cells i).2.lo
  have h2 := (t.cells i).2.hi
  have h3 := t.OriginY.lo
  have h4 := t.OriginY.hi
  simp only [tetromino.absCell, tetromino.down, I32.add, I32.sub, I32.ofInt, wrap32]
  omega

theorem downBy_succ_down (t : tetromino) (k : Nat) : t.downBy (k + 1) = t.down.downBy k := by
  induction k with
  | zero => rfl
  | succ k ih =>
    show (t.downBy (k + 1)).down = (t.down.downBy k).down
    rw [ih]

theorem downBy_fields (t : tetromino) (k : Nat) :
    (t.downBy k).OriginX = t.OriginX ∧ (t.downBy k).cells = t.cells ∧
      (t.downBy k).color = t.color ∧
      (t.downBy k).OriginY = I32.ofInt (t.OriginY.val - k) := by
  induction k with
  | zero =>
    refine ⟨rfl, rfl, rfl, ?_⟩
    apply I32.eq_of_val_eq
    have h3 := t.OriginY.lo
    have h4 := t.OriginY.hi
    simp only [tetromino.downBy, I32.ofInt, wrap32]
    omega
  | succ k ih =>
    obtain ⟨hx, hc, hcol, hy⟩ := ih
    refine ⟨hx, hc, hcol, ?_⟩
    apply I32.eq_of_val_eq
    show (I32.sub (t.downBy k).OriginY (I32.ofInt 1)).val = _
    rw [hy]
    simp only [I32.sub, I32.ofInt, wrap32]
    omega

/-- The iterator function of `CommitTrailToBoard` on a cell inside the grid. -/
theorem commitTrailVisit_of_inGrid (color : Color) (x y : I32) (b : board)
    (h : 0 ≤ y.val ∧ y.val < 40 ∧ 0 ≤ x.val ∧ x.val < 10) :
    commitTrailVisit color x y b =
      some (false, b.set ⟨y.val.toNat, by omega⟩ ⟨x.val.toNat, by omega⟩
        (trailCell color (b ⟨y.val.toNat, by omega⟩ ⟨x.val.toNat, by omega⟩))) := by
  simp only [commitTrailVisit, modify?_of_inGrid _ y x _ h, board.set_same, board.set_set,
    trailCell]

/-- `CommitTrailToBoard` of a piece whose cells are inside the grid returns, and
leaves the board with the trail mark on the cells of the piece and no other
change. -/
theorem CommitTrailToBoard_spec (t : tetromino) (b : board)
    (hin : ∀ i, inGrid (t.absCell i)) :
    ∃ b', t.CommitTrailToBoard b = some b' ∧
      ∀ (y : Fin 40) (x : Fin 10), b' y x =
        if t.occupies y x then trailCell t.color (b y x) else b y x := by
  obtain ⟨b', hb', hspec⟩ := cellIteratorOver_rewrite t (commitTrailVisit t.color)
    (trailCell t.color) (fun _ => rfl)
    (commitTrailVisit_of_inGrid t.color) [0, 1, 2, 3] (fun i _ => hin i) b
  refine ⟨b', ?_, ?_⟩
  · simp only [tetromino.CommitTrailToBoard, tetromino.cellIterator, hb']
  · intro y x
    rw [hspec y x]
    have hiff : (∃ i, i ∈ ([0, 1, 2, 3] : List (Fin 4)) ∧ (t.absCell i).1.val = x.val ∧
        (t.absCell i).2.val = y.val) ↔ t.occupies y x := by
      constructor
      · rintro ⟨i, _, hat⟩; exact ⟨i, hat⟩
      · rintro ⟨i, hat⟩; exact ⟨i, mem_allCells i, hat⟩
    simp only [hiff]

theorem trailCell_filled (color : Color) (c : cell) :
    (trailCell color c).IsFilled = c.IsFilled := rfl

theorem trailOccupies_zero (t : tetromino) (y : Fin 40) (x : Fin 10) :
    ¬ t.trailOccupies 0 y x := by
  rintro ⟨j, h1, h2, -⟩
  omega

theorem trailOccupies_succ (t : tetromino) (k : Nat) (y : Fin 40) (x : Fin 10) :
    t.trailOccupies (k + 1) y x ↔ t.down.occupies y x ∨ t.down.trailOccupies k y x := by
  constructor
  · rintro ⟨j, h1, h2, hocc⟩
    obtain ⟨j', rfl⟩ : ∃ j', j = j' + 1 := ⟨j - 1, by omega⟩
    rw [downBy_succ_down] at hocc
    by_cases hj : j' = 0
    · subst hj; exact Or.inl hocc
    · exact Or.inr ⟨j', by omega, by omega, hocc⟩
  · rintro (hocc | ⟨j, h1, h2, hocc⟩)
    · exact ⟨1, le_refl 1, by omega, hocc⟩
    · exact ⟨j + 1, by omega, by omega, by rw [downBy_succ_down]; exact hocc⟩

theorem hardDownLoop_succ (fuel : Nat) (t : tetromino) (b : board) :
    hardDownLoop (fuel + 1) t b =
      match t.down.CheckCollision b with
      | none => none
      | some true => some (t.down.up, b)
      | some false =>
        match t.down.CommitTrailToBoard b with
        | none => none
        | some b' => hardDownLoop fuel t.down b' := rfl

theorem hardDownLoop_stop (fuel : Nat) (t : tetromino) (b : board)
    (h : t.down.CheckCollision b = some true) : hardDownLoop (fuel + 1) t b = some (t, b) := by
  rw [hardDownLoop_succ, h]
  simp only []
  rw [down_up]

theorem hardDownLoop_go (fuel : Nat) (t : tetromino) (b b1 : board)
    (h : t.down.CheckCollision b = some false) (hb1 : t.down.CommitTrailToBoard b = some b1) :
    hardDownLoop (fuel + 1) t b = hardDownLoop fuel t.down b1 := by
  rw [hardDownLoop_succ, h]
  simp only [hb1]

/-- The descent loop started on a piece that does not collide, with more fuel
than the row of its first cell: it returns the piece `k` rows lower, where it
does not collide and one more row down it would; the board it leaves has the
trail mark on the cells of the positions `1..k` below the start and no other
change. -/
theorem hardDownLoop_spec (fuel : Nat) :
    ∀ (t : tetromino) (b : board), t.CheckCollision b = some false →
      (t.absCell 0).2.val < fuel →
      ∃ (k : Nat) (b' : board), hardDownLoop fuel t b = some (t.downBy k, b') ∧
        (k : Int) ≤ (t.absCell 0).2.val ∧
        (∀ j, j ≤ k → (t.downBy j).CheckCollision b = some false) ∧
        (t.downBy (k + 1)).CheckCollision b = some true ∧
        ∀ (y : Fin 40) (x : Fin 10), b' y x =
          if t.trailOccupies k y x then trailCell t.color (b y x) else b y x := by
  induction fuel with
  | zero =>
    intro t b hc hy
    have := (not_collides_cells t b hc 0).1.2.2.1
    omega
  | succ fuel ih =>
    intro t b hc hy
    obtain ⟨h0x, h0x', h0y, h0y'⟩ := (not_collides_cells t b hc 0).1
    obtain ⟨d, hd, -⟩ := CheckCollision_spec t.down b
    cases d with
    | true =>
      refine ⟨0, b, hardDownLoop_stop fuel t b hd, by simpa using h0y, ?_, hd, ?_⟩
      · intro j hj
        have : j = 0 := by omega
        subst this; exact hc
      · intro y x
        rw [if_neg (trailOccupies_zero t y x)]
    | false =>
      have hin : ∀ i, inGrid (t.down.absCell i) := fun i => (not_collides_cells _ b hd i).1
      obtain ⟨b1, hb1, hspec1⟩ := CommitTrailToBoard_spec t.down b hin
      have hfilled : ∀ y x, (b1 y x).IsFilled = (b y x).IsFilled := by
        intro y x
        rw [hspec1 y x]
        split_ifs
        · rfl
        · rfl
      have hd1 : t.down.CheckCollision b1 = some false := by
        rw [CheckCollision_filled_congr t.down b b1 hfilled]; exact hd
      have hy0 := (absCell_down t 0).2 h0y h0y'
      have hy0nn := (hin 0).2.2.1
      obtain ⟨k, b', hloop, hk, hfree, hstop, hboard⟩ := ih t.down b1 hd1 (by omega)
      refine ⟨k + 1, b', ?_, ?_, ?_, ?_, ?_⟩
      · rw [hardDownLoop_go fuel t b b1 hd hb1, hloop, downBy_succ_down]
      · push_cast; omega
      · intro j hj
        cases j with
        | zero => exact hc
        | succ j =>
          rw [downBy_succ_down, ← CheckCollision_filled_congr _ b b1 hfilled]
          exact hfree j (by omega)
      · rw [downBy_succ_down, ← CheckCollision_filled_congr _ b b1 hfilled]
        exact hstop
      · intro y x
        rw [hboard y x, hspec1 y x]
        have hcol : t.down.color = t.color := rfl
        rw [hcol]
        by_cases h1 : t.down.occupies y x
        · have h2 : t.trailOccupies (k + 1) y x := (trailOccupies_succ t k y x).mpr (Or.inl h1)
          rw [if_pos h1, if_pos h2]
          split_ifs
          · rfl
          · rfl
        · rw [if_neg h1]
          by_cases h3 : t.down.trailOccupies k y x
          · have h2 : t.trailOccupies (k + 1) y x :=
              (trailOccupies_succ t k y x).mpr (Or.inr h3)
            rw [if_pos h3, if_pos h2]
          · have h2 : ¬ t.trailOccupies (k + 1) y x := by
              rw [trailOccupies_succ]; tauto
            rw [if_neg h3, if_neg h2]

/-- The descent loop returns on every piece and every board once the fuel
exceeds the number of rows. -/
theorem hardDownLoop_returns (fuel : Nat) (hfuel : 41 ≤ fuel) (t : tetromino) (b : board) :
    ∃ r, hardDownLoop fuel t b = some r := by
  obtain ⟨fuel', rfl⟩ : ∃ f, fuel = f + 1 := ⟨fuel - 1, by omega⟩
  obtain ⟨d, hd, -⟩ := CheckCollision_spec t.down b
  cases d with
  | true => exact ⟨_, hardDownLoop_stop fuel' t b hd⟩
  | false =>
    have hin : ∀ i, inGrid (t.down.absCell i) := fun i => (not_collides_cells _ b hd i).1
    obtain ⟨b1, hb1, hspec1⟩ := CommitTrailToBoard_spec t.down b hin
    have hfilled : ∀ y x, (b1 y x).IsFilled = (b y x).IsFilled := by
      intro y x
      rw [hspec1 y x]
      split_ifs
      · rfl
      · rfl
    have hd1 : t.down.CheckCollision b1 = some false := by
      rw [CheckCollision_filled_congr t.down b b1 hfilled]; exact hd
    have hy := (hin 0).2.2.2
    obtain ⟨k, b', hloop, -⟩ := hardDownLoop_spec fuel' t.down b1 hd1 (by omega)
    exact ⟨_, by rw [hardDownLoop_go fuel' t b b1 hd hb1, hloop]⟩

/-- While the piece does not collide on the way, `k` steps down keep the column
of every cell and lower its row by exactly `k`. -/
theorem absCell_downBy (t : tetromino) (b : board) (k : Nat)
    (hfree : ∀ j, j ≤ k → (t.downBy j).CheckCollision b = some false) (i : Fin 4) :
    ((t.downBy k).absCell i).1 = (t.absCell i).1 ∧
      ((t.downBy k).absCell i).2.val = (t.absCell i).2.val - k := by
  induction k with
  | zero => exact ⟨rfl, by simp [tetromino.downBy]⟩
  | succ k ih =>
    obtain ⟨hx, hy⟩ := ih (fun j hj => hfree j (by omega))
    obtain ⟨-, -, h3, h4⟩ := (not_collides_cells _ b (hfree (k + 1) (le_refl _)) i).1
    have hinv := absCell_down_inv (t.downBy k) i h3 h4
    refine ⟨?_, ?_⟩
    · rw [← hx]; rfl
    · show ((t.downBy k).down.absCell i).2.val = _
      push_cast
      omega

/-- The descent of `ActiveTetrominoHardDown` on a state whose active piece does
not collide. -/
theorem hardDown_spec (fuel : Nat) (gs : gameState) (t : tetromino)
    (ht : gs.ActiveTetromino = some t) (hc : t.CheckCollision gs.Board = some false)
    (hfuel : 40 ≤ fuel) :
    ∃ (k : Nat) (b' : board),
      gs.ActiveTetrominoHardDown fuel =
        some { gs with ActiveTetromino := some (t.downBy k), Board := b' } ∧
      k ≤ 39 ∧
      (∀ j, j ≤ k → (t.downBy j).CheckCollision gs.Board = some false) ∧
      (t.downBy (k + 1)).CheckCollision gs.Board = some true ∧
      ∀ (y : Fin 40) (x : Fin 10), b' y x =
        if t.trailOccupies k y x then trailCell t.color (gs.Board y x) else gs.Board y x := by
  obtain ⟨-, -, h3, h4⟩ := (not_collides_cells t gs.Board hc 0).1
  obtain ⟨k, b', hloop, hk, hfree, hstop, hboard⟩ :=
    hardDownLoop_spec fuel t gs.Board hc (by omega)
  refine ⟨k, b', ?_, by omega, hfree, hstop, hboard⟩
  simp only [gameState.ActiveTetrominoHardDown, ht, hloop]

/-- A cell of the trail is a cell of a position at which the piece did not
collide: it is unfilled. -/
theorem trail_unfilled (t : tetromino) (b : board) (k : Nat)
    (hfree : ∀ j, j ≤ k → (t.downBy j).CheckCollision b = some false)
    (y : Fin 40) (x : Fin 10) (h : t.trailOccupies k y x) : (b y x).IsFilled = false := by
  obtain ⟨j, -, hj, i, hx, hy⟩ := h
  exact (not_collides_cells _ b (hfree j hj) i).2 y x hx hy

set_option maxRecDepth 100000 in
/-- The descent loop on `wrapPiece` over the empty board: the piece does not
collide at the start, and it comes to rest with the greatest `int32` as
`OriginY`. No piece of a game has such offsets (`reachable_slotsInGrid`); the
order of `OriginY` before and after a descent rests on the offsets being small. -/
theorem hardDownLoop_wrapPiece :
    wrapPiece.CheckCollision newBoard = some false ∧
    Option.map (fun p => p.1.OriginY.val) (hardDownLoop 41 wrapPiece newBoard)
      = some 2147483647 := by
  decide

/-! ## The move operations: contract -/

theorem tryMove_contract (gs : gameState) (t : tetromino) (move back : tetromino → tetromino)
    (hback : ∀ u, back (move u) = u) (ht : gs.ActiveTetromino = some t) :
    moveContract (fun g => g.tryMove move back) move gs t := by
  obtain ⟨d, hd, -⟩ := CheckCollision_spec (move t) gs.Board
  refine ⟨d, hd, ?_⟩
  cases d with
  | true =>
    have hgs : ({ gs with ActiveTetromino := some (back (move t)) } : gameState) = gs := by
      rw [hback, ← ht]
    simp only [gameState.tryMove, ht, hd, hgs, if_true]
  | false =>
    simp only [gameState.tryMove, ht, hd]
    rfl

theorem left_fields (t : tetromino) :
    t.left.OriginY = t.OriginY ∧ t.left.cells = t.cells ∧ t.left.color = t.color ∧
      t.left.OriginX = I32.sub t.OriginX (I32.ofInt 1) := ⟨rfl, rfl, rfl, rfl⟩

theorem right_fields (t : tetromino) :
    t.right.OriginY = t.OriginY ∧ t.right.cells = t.cells ∧ t.right.color = t.color ∧
      t.right.OriginX = I32.add t.OriginX (I32.ofInt 1) := ⟨rfl, rfl, rfl, rfl⟩

theorem I32.sub_one_val (a : I32) (h : a.val ≠ -2147483648) :
    (I32.sub a (I32.ofInt 1)).val = a.val - 1 := by
  have h1 := a.lo
  have h2 := a.hi
  simp only [I32.sub, I32.ofInt, wrap32]
  omega

theorem I32.add_one_val (a : I32) (h : a.val ≠ 2147483647) :
    (I32.add a (I32.ofInt 1)).val = a.val + 1 := by
  have h1 := a.lo
  have h2 := a.hi
  simp only [I32.add, I32.ofInt, wrap32]
  omega

/-- C19: for every game state with an active piece `t`, each of the five move
operations returns `didCollide` = whether the moved piece (one row down, one
column left, one column right, rotated clockwise, rotated counter-clockwise)
collides with the current board; when it is false the state left has the moved
piece as active piece and nothing else changed (when it is true the state is
the one before). The moved piece has the origin changed by exactly one cell in
`int32` arithmetic, or the offsets rotated once, and the same colour. -/
theorem C19_move_contract (gs : gameState) (t : tetromino) (ht : gs.ActiveTetromino = some t) :
    moveContract gameState.ActiveTetrominoDown tetromino.down gs t ∧
    moveContract gameState.ActiveTetrominoLeft tetromino.left gs t ∧
    moveContract gameState.ActiveTetrominoRight tetromino.right gs t ∧
    moveContract gameState.ActiveTetrominoRotateClockwise tetromino.RotateClockwise gs t ∧
    moveContract gameState.ActiveTetrominoRotateCounterClockwise
      tetromino.RotateCounterClockwise gs t ∧
    (t.down.OriginX = t.OriginX ∧ t.down.cells = t.cells ∧ t.down.color = t.color ∧
      t.down.OriginY = I32.sub t.OriginY (I32.ofInt 1) ∧
      (t.OriginY.val ≠ -2147483648 → t.down.OriginY.val = t.OriginY.val - 1)) ∧
    (t.left.OriginY = t.OriginY ∧ t.left.cells = t.cells ∧ t.left.color = t.color ∧
      t.left.OriginX = I32.sub t.OriginX (I32.ofInt 1) ∧
      (t.OriginX.val ≠ -2147483648 → t.left.OriginX.val = t.OriginX.val - 1)) ∧
    (t.right.OriginY = t.OriginY ∧ t.right.cells = t.cells ∧ t.right.color = t.color ∧
      t.right.OriginX = I32.add t.OriginX (I32.ofInt 1) ∧
      (t.OriginX.val ≠ 2147483647 → t.right.OriginX.val = t.OriginX.val + 1)) ∧
    ((∀ i, t.RotateClockwise.cells i = ((t.cells i).2, I32.neg (t.cells i).1)) ∧
      t.RotateClockwise.OriginX = t.OriginX ∧ t.RotateClockwise.OriginY = t.OriginY ∧
      t.RotateClockwise.color = t.color) ∧
    ((∀ i, t.RotateCounterClockwise.cells i = (I32.neg (t.cells i).2, (t.cells i).1)) ∧
      t.RotateCounterClockwise.OriginX = t.OriginX ∧
      t.RotateCounterClockwise.OriginY = t.OriginY ∧
      t.RotateCounterClockwise.color = t.color) :=
  ⟨tryMove_contract gs t _ _ down_up ht,
   tryMove_contract gs t _ _ left_right ht,
   tryMove_contract gs t _ _ right_left ht,
   tryMove_contract gs t _ _ rotate_cw_ccw ht,
   tryMove_contract gs t _ _ rotate_ccw_cw ht,
   ⟨rfl, rfl, rfl, rfl, I32.sub_one_val _⟩,
   ⟨rfl, rfl, rfl, rfl, I32.sub_one_val _⟩,
   ⟨rfl, rfl, rfl, rfl, I32.add_one_val _⟩,
   ⟨RotateClockwise_cells t, RotateClockwise_frame t⟩,
   ⟨RotateCounterClockwise_cells t, RotateCounterClockwise_frame t⟩⟩

/-- The O piece in the bottom-left corner of the empty board: the move to the
right is applied, the move down is rejected. -/
theorem C19_move_contract_witness :
    (pieceO 0 0).right.CheckCollision newBoard = some false ∧
    (pieceO 0 0).down.CheckCollision newBoard = some true ∧
    moveContract gameState.ActiveTetrominoRight tetromino.right
      (fallingState (some (pieceO 0 0)) none newBoard) (pieceO 0 0) ∧
    moveContract gameState.ActiveTetrominoDown tetromino.down
      (fallingState (some (pieceO 0 0)) none newBoard) (pieceO 0 0) :=
  ⟨by decide, by decide,
   (C19_move_contract (fallingState (some (pieceO 0 0)) none newBoard) (pieceO 0 0) rfl).2.2.1,
   (C19_move_contract (fallingState (some (pieceO 0 0)) none newBoard) (pieceO 0 0) rfl).1⟩

/-! ## The queue -/

/-- The queue loop of `GenerationPhase`: the entry at index 0 stays, the entry
at index `i` goes to index `i + 1` with `OriginY += 4`. -/
theorem queueShift_spec (q : Fin 5 → tetromino) :
    queueShift q 0 = q 0 ∧ queueShift q 1 = (q 0).queueUp ∧ queueShift q 2 = (q 1).queueUp ∧
      queueShift q 3 = (q 2).queueUp ∧ queueShift q 4 = (q 3).queueUp := by
  simp [queueShift, queueShiftStep, Function.update, tetromino.queueUp]

theorem queueUp_shape (t : tetromino) :
    t.queueUp.cells = t.cells ∧ t.queueUp.color = t.color ∧ t.queueUp.OriginX = t.OriginX ∧
      t.queueUp.OriginY = I32.add t.OriginY (I32.ofInt 4) := ⟨rfl, rfl, rfl, rfl⟩

/-- What `GenerationPhase` does to the slots and the queue, for a selector in
`0..6`. -/
theorem GenerationPhase_queue (gs : gameState) (r : Int) (h0 : 0 ≤ r) (h6 : r ≤ 6) :
    ∃ gs' fresh, gs.GenerationPhase r = some gs' ∧
      NewRandomTetromino r tetrominoQueueX tetrominoQueueY = some fresh ∧
      gs'.ActiveTetromino =
        some ((gs.TetrominoQueue 4).movedTo tetrominoGenerateX tetrominoGenerateY) ∧
      gs'.TetrominoQueue 0 = fresh ∧
      gs'.TetrominoQueue 1 = (gs.TetrominoQueue 0).queueUp ∧
      gs'.TetrominoQueue 2 = (gs.TetrominoQueue 1).queueUp ∧
      gs'.TetrominoQueue 3 = (gs.TetrominoQueue 2).queueUp ∧
      gs'.TetrominoQueue 4 = (gs.TetrominoQueue 3).queueUp := by
  obtain ⟨c, hc, -⟩ := CheckCollision_spec
    ((gs.TetrominoQueue 4).movedTo tetrominoGenerateX tetrominoGenerateY) gs.Board
  obtain ⟨fresh, hfresh⟩ := NewRandomTetromino_some r h0 h6 tetrominoQueueX tetrominoQueueY
  obtain ⟨q0, q1, q2, q3, q4⟩ := queueShift_spec gs.TetrominoQueue
  refine ⟨_, fresh, GenerationPhase_eq gs r c fresh hc hfresh, hfresh, rfl, ?_, ?_, ?_, ?_, ?_⟩
  · simp [Function.update]
  · simp [Function.update, q1]
  · simp [Function.update, q2]
  · simp [Function.update, q3]
  · simp [Function.update, q4]

/-- C12 (amended): for every game state and every selector in `0..6`,
`GenerationPhase` makes active the queue entry at index 4 (its offsets and
colour, origin set to the spawn origin), places the freshly generated piece at
index 0, and moves every other entry one index toward 4: the entry at index
`i` goes to index `i + 1`, offsets and colour kept, `OriginY += 4`. -/
theorem C12_generation_pops_index_four (gs : gameState) (r : Int) (h0 : 0 ≤ r) (h6 : r ≤ 6) :
    ∃ gs' active fresh, gs.GenerationPhase r = some gs' ∧
      NewRandomTetromino r tetrominoQueueX tetrominoQueueY = some fresh ∧
      gs'.ActiveTetromino = some active ∧
      active.cells = (gs.TetrominoQueue 4).cells ∧ active.color = (gs.TetrominoQueue 4).color ∧
      active.OriginX = tetrominoGenerateX ∧ active.OriginY = tetrominoGenerateY ∧
      gs'.TetrominoQueue 0 = fresh ∧
      (∀ i : Fin 4, gs'.TetrominoQueue i.succ = (gs.TetrominoQueue i.castSucc).queueUp) ∧
      (∀ t : tetromino, t.queueUp.cells = t.cells ∧ t.queueUp.color = t.color ∧
        t.queueUp.OriginX = t.OriginX ∧
        t.queueUp.OriginY = I32.add t.OriginY (I32.ofInt 4)) := by
  obtain ⟨gs', fresh, hg, hf, ha, q0, q1, q2, q3, q4⟩ := GenerationPhase_queue gs r h0 h6
  refine ⟨gs', _, fresh, hg, hf, ha, rfl, rfl, rfl, rfl, q0, ?_, queueUp_shape⟩
  intro i
  fin_cases i
  · exact q1
  · exact q2
  · exact q3
  · exact q4

/-- The queue with the O piece at index 0 and T pieces above it: the piece made
active is the T piece of index 4. -/
theorem C12_generation_pops_index_four_witness :
    ∃ gs' active, mixedQueueState.GenerationPhase 1 = some gs' ∧
      gs'.ActiveTetromino = some active ∧
      active.color = tTetriminoColor ∧
      (gs'.TetrominoQueue 0).color = iTetriminoColor ∧
      (gs'.TetrominoQueue 1).color = oTetriminoColor := by
  obtain ⟨gs', active, fresh, hg, hf, ha, -, hcol, -, -, hq0, hq, -⟩ :=
    C12_generation_pops_index_four mixedQueueState 1 (by decide) (by decide)
  refine ⟨gs', active, hg, ha, ?_, ?_, ?_⟩
  · rw [hcol]; rfl
  · rw [hq0]
    have : fresh.color = iTetriminoColor := by
      simp [NewRandomTetromino] at hf
      rw [← hf]
    exact this
  · have := hq 0
    simp only [Fin.succ_zero_eq_one, Fin.castSucc_zero] at this
    rw [this]; rfl

/-- C12 fails as stated: in `mixedQueueState` the entry at index 0 is the O
piece, and the piece `GenerationPhase` makes active has neither its colour nor
its offsets (it is the T piece of index 4); the fresh piece is not at index 4. -/
theorem C12_active_is_not_index_zero :
    ∃ gs' active, mixedQueueState.GenerationPhase 1 = some gs' ∧
      gs'.ActiveTetromino = some active ∧
      active.color ≠ (mixedQueueState.TetrominoQueue 0).color ∧
      active.cells 1 ≠ (mixedQueueState.TetrominoQueue 0).cells 1 ∧
      (gs'.TetrominoQueue 4).color ≠ iTetriminoColor := by
  obtain ⟨gs', fresh, hg, -, ha, -, -, -, -, h4⟩ :=
    GenerationPhase_queue mixedQueueState 1 (by decide) (by decide)
  refine ⟨gs', _, hg, ha, by decide, by decide, ?_⟩
  rw [h4]
  decide

/-! ## The upper row bound of the collision test -/

/-- C13 (amended): `CheckCollision` has an upper row bound: for every board, a
tetromino with a cell at a row `y >= boardCellsY` (above the top row) collides,
like one with a cell at a row `y < 0`; it returns false for every tetromino
whose four absolute cells satisfy `0 <= x < boardCellsX` and
`0 <= y < boardCellsY` and are on unfilled board cells. -/
theorem C13_collision_upper_bound (t : tetromino) (b : board) :
    ((∃ i, (t.absCell i).2.val ≥ boardCellsY.val) → t.CheckCollision b = some true) ∧
    ((∃ i, (t.absCell i).2.val < 0) → t.CheckCollision b = some true) ∧
    ((∀ i, 0 ≤ (t.absCell i).1.val ∧ (t.absCell i).1.val < boardCellsX.val ∧
        0 ≤ (t.absCell i).2.val ∧ (t.absCell i).2.val < boardCellsY.val ∧
        ∀ (y : Fin 40) (x : Fin 10), (y.val : Int) = (t.absCell i).2.val →
          (x.val : Int) = (t.absCell i).1.val → (b y x).IsFilled = false) →
      t.CheckCollision b = some false) := by
  rw [boardCellsX_val, boardCellsY_val]
  refine ⟨?_, ?_, ?_⟩
  · rintro ⟨i, hi⟩
    exact collides_of_not_inGrid t b i (by unfold inGrid; omega)
  · rintro ⟨i, hi⟩
    exact collides_of_not_inGrid t b i (by unfold inGrid; omega)
  · intro h
    obtain ⟨r, hr, hspec⟩ := CheckCollision_spec t b
    have hn : ¬ ∃ i, cellCollides b (t.absCell i) := by
      rintro ⟨i, hc⟩
      obtain ⟨h1, h2, h3, h4, hu⟩ := h i
      rcases hc with hc | hc | hc | hc | ⟨y, x, hy, hx, hf⟩
      · omega
      · omega
      · omega
      · omega
      · rw [hu y x hy hx] at hf; exact absurd hf (by simp)
    rw [hr]
    cases r with
    | true => exact absurd (hspec.mp rfl) hn
    | false => rfl

/-- C13 fails as stated: the O piece at the origin `(0, 39)` on the empty board
has its four cells in the columns 0 and 1 and the rows 39 and 40, none below
row 0 and none on a filled cell, and `CheckCollision` returns true. -/
theorem C13_cell_above_top_collides :
    (∀ i, 0 ≤ ((pieceO 0 39).absCell i).1.val ∧ ((pieceO 0 39).absCell i).1.val < 10 ∧
      0 ≤ ((pieceO 0 39).absCell i).2.val) ∧
    (∃ i, ((pieceO 0 39).absCell i).2.val > 40 - 1) ∧
    (∀ y x, (newBoard y x).IsFilled = false) ∧
    (pieceO 0 39).CheckCollision newBoard = some true := by
  refine ⟨by decide, ⟨1, by decide⟩, fun _ _ => rfl, by decide⟩

/-! ## The factory -/

/-- The cells of two pieces are the same set of offsets. -/
theorem sameCells_iff (s t : tetromino) :
    ((∀ i, ∃ k, s.cells i = t.cells k) ∧ (∀ k, ∃ i, s.cells i = t.cells k)) ↔
      ∀ p : I32 × I32, (∃ i, s.cells i = p) ↔ (∃ k, t.cells k = p) := by
  constructor
  · rintro ⟨h1, h2⟩ p
    constructor
    · rintro ⟨i, rfl⟩
      obtain ⟨k, hk⟩ := h1 i
      exact ⟨k, hk.symm⟩
    · rintro ⟨k, rfl⟩
      obtain ⟨i, hi⟩ := h2 k
      exact ⟨i, hi⟩
  · intro h
    refine ⟨fun i => ?_, fun k => ?_⟩
    · obtain ⟨k, hk⟩ := (h (s.cells i)).mp ⟨i, rfl⟩
      exact ⟨k, hk.symm⟩
    · obtain ⟨i, hi⟩ := (h (t.cells k)).mpr ⟨k, rfl⟩
      exact ⟨i, hi⟩

/-- C14, the code at the failing input: the pattern of selector 4 (commented
J-Tetromino) is the pattern of selector 3 (the L piece) after two quarter
turns, with no translation: the two pieces have the same set of offsets. So the
factory makes the L piece twice and no J piece. The other parts of the claim
hold: the seven patterns have four pairwise-distinct offsets with `(0, 0)`
among them. -/
theorem C14_selector_four_is_rotated_L :
    (∃ l j, NewRandomTetromino 3 (I32.ofInt 0) (I32.ofInt 0) = some l ∧
      NewRandomTetromino 4 (I32.ofInt 0) (I32.ofInt 0) = some j ∧
      ∀ p : I32 × I32, (∃ i, l.RotateClockwise.RotateClockwise.cells i = p) ↔
        (∃ k, j.cells k = p)) ∧
    (∀ r : Fin 7, ∃ t, NewRandomTetromino r.val (I32.ofInt 0) (I32.ofInt 0) = some t ∧
      t.cells 0 = (I32.ofInt 0, I32.ofInt 0) ∧
      ∀ i k : Fin 4, t.cells i = t.cells k → i = k) := by
  refine ⟨⟨_, _, rfl, rfl, ?_⟩, ?_⟩
  · rw [← sameCells_iff]
    decide
  · intro r
    fin_cases r
    · exact ⟨_, rfl, by decide, by decide⟩
    · exact ⟨_, rfl, by decide, by decide⟩
    · exact ⟨_, rfl, by decide, by decide⟩
    · exact ⟨_, rfl, by decide, by decide⟩
    · exact ⟨_, rfl, by decide, by decide⟩
    · exact ⟨_, rfl, by decide, by decide⟩
    · exact ⟨_, rfl, by decide, by decide⟩

/-! ## The phase state machine -/

/-- The moves of the Falling handler return on a state with an active piece
and change nothing but the active piece. -/
theorem tryMove_phase (gs : gameState) (t : tetromino) (move back : tetromino → tetromino)
    (ht : gs.ActiveTetromino = some t) :
    ∃ d gs' t', gs.tryMove move back = some (d, gs') ∧ gs'.Phase = gs.Phase ∧
      gs'.Board = gs.Board ∧ gs'.HoldingTetromino = gs.HoldingTetromino ∧
      gs'.TetrominoQueue = gs.TetrominoQueue ∧ gs'.linesCleared = gs.linesCleared ∧
      gs'.Score = gs.Score ∧ gs'.IsDone = gs.IsDone ∧
      gs'.ActiveTetromino = some t' ∧
      (move t).CheckCollision gs.Board = some d := by
  obtain ⟨d, hd, -⟩ := CheckCollision_spec (move t) gs.Board
  cases d with
  | true =>
    exact ⟨true, { gs with ActiveTetromino := some (back (move t)) }, back (move t),
      by simp only [gameState.tryMove, ht, hd], rfl, rfl, rfl, rfl, rfl, rfl, rfl, rfl, hd⟩
  | false =>
    exact ⟨false, { gs with ActiveTetromino := some (move t) }, move t,
      by simp only [gameState.tryMove, ht, hd], rfl, rfl, rfl, rfl, rfl, rfl, rfl, rfl, hd⟩

/-- The descent of a hard drop returns on a state with an active piece, given
fuel for 41 iterations, and changes the active piece and the board only. -/
theorem hardDown_returns (fuel : Nat) (hfuel : 41 ≤ fuel) (gs : gameState) (t : tetromino)
    (ht : gs.ActiveTetromino = some t) :
    ∃ t' b', gs.ActiveTetrominoHardDown fuel =
      some { gs with ActiveTetromino := some t', Board := b' } := by
  obtain ⟨⟨t', b'⟩, hr⟩ := hardDownLoop_returns fuel hfuel t gs.Board
  exact ⟨t', b', by simp only [gameState.ActiveTetrominoHardDown, ht, hr]⟩

/-- The hold returns on a state with an active piece: `shouldGenerate` is
whether the holding slot was empty, and the active slot is empty afterwards
exactly in that case; the board, the queue, the phase and the counters are
unchanged. -/
theorem hold_returns (gs : gameState) (t : tetromino) (ht : gs.ActiveTetromino = some t) :
    ∃ gs', gs.ActiveTetrominoHold = some (gs.HoldingTetromino.isNone, gs') ∧
      gs'.Phase = gs.Phase ∧ gs'.Board = gs.Board ∧ gs'.TetrominoQueue = gs.TetrominoQueue ∧
      gs'.linesCleared = gs.linesCleared ∧ gs'.Score = gs.Score ∧ gs'.IsDone = gs.IsDone ∧
      (gs.HoldingTetromino.isNone = true → gs'.ActiveTetromino = none) ∧
      (gs.HoldingTetromino.isNone = false → ∃ t', gs'.ActiveTetromino = some t') := by
  cases hh : gs.HoldingTetromino with
  | none =>
    exact ⟨_, hold_empty gs t ht hh, rfl, rfl, rfl, rfl, rfl, rfl, fun _ => rfl,
      fun h => absurd h (by simp)⟩
  | some h =>
    exact ⟨_, hold_occupied gs t h ht hh, rfl, rfl, rfl, rfl, rfl, rfl,
      fun h => absurd h (by simp), fun _ => ⟨_, rfl⟩⟩

/-- The Falling handler on `Input_SoftDrop`: the ticker call panics on a
duration that is not positive; otherwise the state is left as it is. -/
theorem fallingEvent_softDrop (fuel : Nat) (gs : gameState) (act : Action) (key : I32) :
    gs.fallingEvent fuel (Event.input ⟨Input_SoftDrop, act, key⟩) =
      if (act = Action_Down ∧ gs.DropInterval softDropMultiplier ≤ 0) ∨
          (act = Action_Up ∧ gs.DropInterval (F64.ofInt 1) ≤ 0) then none
      else some (false, gs) := by
  cases act
  · by_cases h : gs.DropInterval softDropMultiplier ≤ 0 <;>
      simp [gameState.fallingEvent, gameState.adjustTicker, h]
  · simp [gameState.fallingEvent]
  · by_cases h : gs.DropInterval (F64.ofInt 1) ≤ 0 <;>
      simp [gameState.fallingEvent, gameState.adjustTicker, h]

theorem fallingEvent_softDrop_returns (fuel : Nat) (gs : gameState) (act : Action) (key : I32)
    (hacc : gs.tickerAccepts (Event.input ⟨Input_SoftDrop, act, key⟩)) :
    gs.fallingEvent fuel (Event.input ⟨Input_SoftDrop, act, key⟩) = some (false, gs) := by
  rw [fallingEvent_softDrop, if_neg]
  rintro (⟨rfl, h⟩ | ⟨rfl, h⟩)
  · exact absurd (hacc.1 ⟨rfl, rfl⟩) (not_lt.mpr h)
  · exact absurd (hacc.2 ⟨rfl, rfl⟩) (not_lt.mpr h)

theorem fallingEvent_softDrop_some (fuel : Nat) (gs gs' : gameState) (act : Action)
    (key : I32) (done : Bool)
    (h : gs.fallingEvent fuel (Event.input ⟨Input_SoftDrop, act, key⟩) = some (done, gs')) :
    done = false ∧ gs' = gs ∧ gs.tickerAccepts (Event.input ⟨Input_SoftDrop, act, key⟩) := by
  rw [fallingEvent_softDrop] at h
  by_cases hc : (act = Action_Down ∧ gs.DropInterval softDropMultiplier ≤ 0) ∨
      (act = Action_Up ∧ gs.DropInterval (F64.ofInt 1) ≤ 0)
  · rw [if_pos hc] at h
    exact absurd h (by simp)
  · rw [if_neg hc] at h
    obtain ⟨h1, h2⟩ := Prod.mk.inj (Option.some.inj h)
    refine ⟨h1.symm, h2.symm, fun ha => ?_, fun ha => ?_⟩
    · exact not_le.mp fun hle => hc (Or.inl ⟨ha.2, hle⟩)
    · exact not_le.mp fun hle => hc (Or.inr ⟨ha.2, hle⟩)

/-- Whenever the Falling handler returns on an event, the ticker took the
duration it was handed. -/
theorem fallingEvent_accepts (fuel : Nat) (gs : gameState) (ev : Event)
    (res : Bool × gameState) (h : gs.fallingEvent fuel ev = some res) :
    gs.tickerAccepts ev := by
  cases ev with
  | dropTick => exact True.intro
  | input event =>
    obtain ⟨inp, act, key⟩ := event
    by_cases hsoft : inp = Input_SoftDrop
    · subst hsoft
      obtain ⟨done, gs'⟩ := res
      exact (fallingEvent_softDrop_some fuel gs gs' act key done h).2.2
    · exact ⟨fun ha => absurd ha.1 hsoft, fun ha => absurd ha.1 hsoft⟩

/-- One event in Falling, on a state with an active piece `t` and fuel for 41
iterations of the descent, when the ticker takes the duration it is handed:
the handler returns, the phase it leaves is the one
of the table, `done` is set exactly when the phase changes, and the active
slot is empty afterwards exactly when the phase becomes Generation. -/
theorem fallingEvent_table (fuel : Nat) (hfuel : 41 ≤ fuel) (gs : gameState) (t : tetromino)
    (hp : gs.Phase = phase_Falling) (ht : gs.ActiveTetromino = some t) (ev : Event)
    (hacc : gs.tickerAccepts ev) :
    ∃ d done gs', t.down.CheckCollision gs.Board = some d ∧
      gs.fallingEvent fuel ev = some (done, gs') ∧
      gs'.Phase = fallingTable d gs.HoldingTetromino.isNone ev ∧
      (done = true ↔ gs'.Phase ≠ phase_Falling) ∧
      (gs'.Phase = phase_Generation → gs'.ActiveTetromino = none) ∧
      (gs'.Phase ≠ phase_Generation → ∃ t', gs'.ActiveTetromino = some t') ∧
      gs'.linesCleared = gs.linesCleared ∧ gs'.Score = gs.Score := by
  obtain ⟨d, gD, tD, hD, pD, -, -, -, lD, sD, -, aD, hd⟩ :=
    tryMove_phase gs t tetromino.down tetromino.up ht
  obtain ⟨dL, gL, tL, hL, pL, -, -, -, lL, sL, -, aL, -⟩ :=
    tryMove_phase gs t tetromino.left tetromino.right ht
  obtain ⟨dR, gR, tR, hR, pR, -, -, -, lR, sR, -, aR, -⟩ :=
    tryMove_phase gs t tetromino.right tetromino.left ht
  obtain ⟨dC, gC, tC, hC, pC, -, -, -, lC, sC, -, aC, -⟩ :=
    tryMove_phase gs t tetromino.RotateClockwise tetromino.RotateCounterClockwise ht
  obtain ⟨dCC, gCC, tCC, hCC, pCC, -, -, -, lCC, sCC, -, aCC, -⟩ :=
    tryMove_phase gs t tetromino.RotateCounterClockwise tetromino.RotateClockwise ht
  obtain ⟨tH, bH, hH⟩ := hardDown_returns fuel hfuel gs t ht
  obtain ⟨gK, hK, pK, -, -, lK, sK, -, aK1, aK2⟩ := hold_returns gs t ht
  rw [hp] at pD pL pR pC pCC pK
  refine ⟨d, ?_⟩
  cases ev with
  | dropTick =>
    cases d with
    | true =>
      exact ⟨true, { gD with Phase := phase_Lock }, hd,
        by simp only [gameState.fallingEvent, gameState.ActiveTetrominoDown, hD],
        rfl, by simp, by simp, fun _ => ⟨tD, aD⟩, lD, sD⟩
    | false =>
      exact ⟨false, gD, hd,
        by simp only [gameState.fallingEvent, gameState.ActiveTetrominoDown, hD],
        by simp [fallingTable, pD], by simp [pD], by simp [pD], fun _ => ⟨tD, aD⟩, lD, sD⟩
  | input event =>
    obtain ⟨inp, act, key⟩ := event
    by_cases hsoft : inp = Input_SoftDrop
    · subst hsoft
      refine ⟨false, gs, hd, fallingEvent_softDrop_returns fuel gs act key hacc, ?_, ?_, ?_,
        fun _ => ⟨t, ht⟩, rfl, rfl⟩
      · simp [fallingTable, hp]
      · simp [hp]
      · intro h
        rw [hp] at h
        exact absurd h (by decide)
    · cases hE : gs.HoldingTetromino.isNone <;> rw [hE] at hK aK1 aK2 <;>
        cases inp <;> cases act <;> first
        | exact absurd rfl hsoft
        | (simp only [gameState.fallingEvent, gameState.ActiveTetrominoLeft,
            gameState.ActiveTetrominoRight, gameState.ActiveTetrominoRotateClockwise,
            gameState.ActiveTetrominoRotateCounterClockwise, hL, hR, hC, hCC, hH, hK,
            if_true, if_false, reduceCtorEq]
           refine ⟨_, _, hd, rfl, ?_, ?_, ?_, ?_, ?_, ?_⟩ <;>
           simp [fallingTable, *])

/-- More fuel does not change what the descent loop returns. -/
theorem hardDownLoop_mono (fuel : Nat) :
    ∀ (t : tetromino) (b : board) (r : tetromino × board), hardDownLoop fuel t b = some r →
      ∀ n, hardDownLoop (fuel + n) t b = some r := by
  induction fuel with
  | zero =>
    intro t b r h
    have h0 : hardDownLoop 0 t b = none := rfl
    rw [h0] at h
    exact absurd h (by simp)
  | succ fuel ih =>
    intro t b r h n
    have e : fuel + 1 + n = (fuel + n) + 1 := by omega
    rw [e, hardDownLoop_succ]
    rw [hardDownLoop_succ] at h
    revert h
    cases t.down.CheckCollision b with
    | none => intro h; exact absurd h (by simp)
    | some d =>
      cases d with
      | true => intro h; exact h
      | false =>
        cases t.down.CommitTrailToBoard b with
        | none => intro h; exact absurd h (by simp)
        | some b1 => intro h; exact ih t.down b1 r h n

theorem hardDown_mono (fuel : Nat) (gs gs' : gameState)
    (h : gs.ActiveTetrominoHardDown fuel = some gs') (n : Nat) :
    gs.ActiveTetrominoHardDown (fuel + n) = some gs' := by
  unfold gameState.ActiveTetrominoHardDown at h ⊢
  cases ha : gs.ActiveTetromino with
  | none => simp only [ha] at h; exact absurd h (by simp)
  | some t =>
    simp only [ha] at h ⊢
    cases hl : hardDownLoop fuel t gs.Board with
    | none => simp only [hl] at h; exact absurd h (by simp)
    | some p =>
      simp only [hl] at h
      simp only [hardDownLoop_mono fuel t gs.Board p hl n]
      exact h

/-- More fuel does not change what the Falling handler returns on an event. -/
theorem fallingEvent_mono (fuel : Nat) (gs : gameState) (ev : Event) (res : Bool × gameState)
    (h : gs.fallingEvent fuel ev = some res) (n : Nat) :
    gs.fallingEvent (fuel + n) ev = some res := by
  cases ev with
  | dropTick => exact h
  | input event =>
    obtain ⟨inp, act, key⟩ := event
    cases inp <;> cases act <;> first
      | exact h
      | (simp only [gameState.fallingEvent, if_true] at h ⊢
         cases hH : gs.ActiveTetrominoHardDown fuel with
         | none => rw [hH] at h; exact absurd h (by simp)
         | some g =>
           rw [hH] at h
           rw [hardDown_mono fuel gs g hH n]
           exact h)

/-- One event in Falling on a state with an active piece, whatever the fuel:
when the handler returns, it does what the table says. -/
theorem fallingEvent_sound (fuel : Nat) (gs : gameState) (t : tetromino)
    (hp : gs.Phase = phase_Falling) (ht : gs.ActiveTetromino = some t) (ev : Event)
    (done : Bool) (gs' : gameState) (h : gs.fallingEvent fuel ev = some (done, gs')) :
    ∃ d, t.down.CheckCollision gs.Board = some d ∧
      gs'.Phase = fallingTable d gs.HoldingTetromino.isNone ev ∧
      (done = true ↔ gs'.Phase ≠ phase_Falling) ∧
      (gs'.Phase = phase_Generation → gs'.ActiveTetromino = none) ∧
      (gs'.Phase ≠ phase_Generation → ∃ t', gs'.ActiveTetromino = some t') ∧
      gs'.linesCleared = gs.linesCleared ∧ gs'.Score = gs.Score := by
  obtain ⟨d, done2, gs2, hd, h2, rest⟩ :=
    fallingEvent_table (fuel + 41) (by omega) gs t hp ht ev
      (fallingEvent_accepts fuel gs ev (done, gs') h)
  have h' := fallingEvent_mono fuel gs ev (done, gs') h 41
  rw [h2] at h'
  have heq : (done2, gs2) = (done, gs') := Option.some.inj h'
  obtain ⟨rfl, rfl⟩ := Prod.mk.inj heq
  exact ⟨d, hd, rest⟩

theorem fallingTable_cases (d e : Bool) (ev : Event) :
    fallingTable d e ev = phase_Falling ∨ fallingTable d e ev = phase_Lock ∨
      fallingTable d e ev = phase_Paused ∨ fallingTable d e ev = phase_Generation := by
  cases ev with
  | dropTick => cases d <;> simp [fallingTable]
  | input event =>
    simp only [fallingTable]
    split_ifs <;> simp

/-- What `LockPhase` leaves when it returns. -/
theorem LockPhase_frame (gs gs' : gameState) (h : gs.LockPhase = some gs') :
    gs'.Phase = phase_Completion ∧ gs'.ActiveTetromino = none ∧
      gs'.linesCleared = gs.linesCleared ∧ gs'.Score = gs.Score ∧
      ∃ t, gs.ActiveTetromino = some t ∧ t.CommitToBoard gs.Board = some gs'.Board := by
  unfold gameState.LockPhase at h
  cases ha : gs.ActiveTetromino with
  | none => simp only [ha] at h; exact absurd h (by simp)
  | some t =>
    simp only [ha] at h
    cases hb : t.CommitToBoard gs.Board with
    | none => simp only [hb] at h; exact absurd h (by simp)
    | some b =>
      simp only [hb] at h
      have := Option.some.inj h
      subst this
      exact ⟨rfl, rfl, rfl, rfl, t, rfl, hb⟩

/-- What `GenerationPhase` leaves when it returns. -/
theorem GenerationPhase_frame (gs gs' : gameState) (r : Int)
    (h : gs.GenerationPhase r = some gs') :
    (gs'.Phase = phase_GameOver ∨ gs'.Phase = phase_Falling) ∧
      (∃ t, gs'.ActiveTetromino = some t) ∧ gs'.Board = gs.Board ∧
      gs'.linesCleared = gs.linesCleared ∧ gs'.Score = gs.Score := by
  obtain ⟨c, hc, -⟩ := CheckCollision_spec
    ((gs.TetrominoQueue 4).movedTo tetrominoGenerateX tetrominoGenerateY) gs.Board
  cases hf : NewRandomTetromino r tetrominoQueueX tetrominoQueueY with
  | none =>
    have hnone : gs.GenerationPhase r = none := by
      unfold tetromino.movedTo at hc
      simp only [gameState.GenerationPhase, hc, hf]
    rw [hnone] at h
    exact absurd h (by simp)
  | some fresh =>
    rw [GenerationPhase_eq gs r c fresh hc hf] at h
    have := Option.some.inj h
    subst this
    refine ⟨?_, ⟨_, rfl⟩, rfl, rfl, rfl⟩
    cases c
    · exact Or.inr rfl
    · exact Or.inl rfl

/-- What `CompletionPhase` leaves besides the board and the counters. -/
theorem CompletionPhase_frame (gs : gameState) :
    gs.CompletionPhase.Phase = phase_Generation ∧
      gs.CompletionPhase.ActiveTetromino = gs.ActiveTetromino ∧
      gs.CompletionPhase.HoldingTetromino = gs.HoldingTetromino ∧
      gs.CompletionPhase.TetrominoQueue = gs.TetrominoQueue := by
  unfold gameState.CompletionPhase
  by_cases h : (markRows gs.Board).2.length > 0
  · rw [if_pos h]
    exact ⟨rfl, rfl, rfl, rfl⟩
  · rw [if_neg h]
    exact ⟨rfl, rfl, rfl, rfl⟩

theorem pausedEvent_frame (gs : gameState) (event : InputEvent) :
    (gs.pausedEvent event).2.Phase = (if gs.Phase = phase_Paused then pausedTable event
      else if event.Input = Input_Pause ∧ event.Action = Action_Up then phase_Falling
      else gs.Phase) ∧
    (gs.pausedEvent event).2.ActiveTetromino = gs.ActiveTetromino ∧
    (gs.pausedEvent event).2.Board = gs.Board ∧
    (gs.pausedEvent event).2.linesCleared = gs.linesCleared ∧
    (gs.pausedEvent event).2.Score = gs.Score := by
  unfold gameState.pausedEvent pausedTable
  by_cases hc : event.Input = Input_Pause ∧ event.Action = Action_Up <;>
    by_cases hq : gs.Phase = phase_Paused <;> simp [hc, hq]

theorem runStep_generation (fuel : Nat) (gs : gameState) (r : Int) (ev : Event)
    (hp : gs.Phase = phase_Generation) : gs.runStep fuel r ev = gs.GenerationPhase r := by
  simp only [gameState.runStep, hp]

/-- A turn in Falling when the ticker of the handler was created. -/
theorem runStep_falling (fuel : Nat) (gs : gameState) (r : Int) (ev : Event)
    (hp : gs.Phase = phase_Falling) (hpos : 0 < gs.DropInterval (F64.ofInt 1)) :
    gs.runStep fuel r ev = Option.map Prod.snd (gs.fallingEvent fuel ev) := by
  simp only [gameState.runStep, hp, if_neg (not_le.mpr hpos)]
  cases gs.fallingEvent fuel ev with
  | none => rfl
  | some p => rfl

/-- A turn in Falling when `time.NewTicker` panics: the duration
`DropInterval(1)` is not positive. -/
theorem runStep_falling_panic (fuel : Nat) (gs : gameState) (r : Int) (ev : Event)
    (hp : gs.Phase = phase_Falling) (hneg : gs.DropInterval (F64.ofInt 1) ≤ 0) :
    gs.runStep fuel r ev = none := by
  simp only [gameState.runStep, hp, if_pos hneg]

/-- Whenever a turn in Falling returns, the ticker of the handler was created. -/
theorem runStep_falling_ticker (fuel : Nat) (gs gs' : gameState) (r : Int) (ev : Event)
    (hp : gs.Phase = phase_Falling) (h : gs.runStep fuel r ev = some gs') :
    0 < gs.DropInterval (F64.ofInt 1) := by
  by_contra hneg
  rw [runStep_falling_panic fuel gs r ev hp (not_lt.mp hneg)] at h
  exact absurd h (by simp)

theorem runStep_lock (fuel : Nat) (gs : gameState) (r : Int) (ev : Event)
    (hp : gs.Phase = phase_Lock) : gs.runStep fuel r ev = gs.LockPhase := by
  simp only [gameState.runStep, hp]

theorem runStep_completion (fuel : Nat) (gs : gameState) (r : Int) (ev : Event)
    (hp : gs.Phase = phase_Completion) : gs.runStep fuel r ev = some gs.CompletionPhase := by
  simp only [gameState.runStep, hp]

theorem runStep_paused (fuel : Nat) (gs : gameState) (r : Int) (event : InputEvent)
    (hp : gs.Phase = phase_Paused) :
    gs.runStep fuel r (Event.input event) = some (gs.pausedEvent event).2 ∧
      gs.runStep fuel r Event.dropTick = some gs := by
  simp only [gameState.runStep, hp, and_self]

theorem runStep_gameOver (fuel : Nat) (gs : gameState) (r : Int) (event : InputEvent)
    (hp : gs.Phase = phase_GameOver) :
    gs.runStep fuel r (Event.input event) = some (gs.GameOverPhase event) ∧
      gs.runStep fuel r Event.dropTick = some gs := by
  simp only [gameState.runStep, hp, and_self]

theorem runStep_end (fuel : Nat) (gs : gameState) (r : Int) (ev : Event)
    (hp : gs.Phase = phase_End) : gs.runStep fuel r ev = some { gs with IsDone := true } := by
  simp only [gameState.runStep, hp]

/-- The phase after a turn, by the phase before: what a turn can do to the
phase and to the active slot, whenever it returns. -/
theorem runStep_phase (fuel : Nat) (gs gs' : gameState) (r : Int) (ev : Event)
    (h : gs.runStep fuel r ev = some gs') :
    (gs.Phase = phase_Generation →
      (gs'.Phase = phase_GameOver ∨ gs'.Phase = phase_Falling) ∧
        ∃ t, gs'.ActiveTetromino = some t) ∧
    (gs.Phase = phase_Lock → gs'.Phase = phase_Completion ∧ gs'.ActiveTetromino = none) ∧
    (gs.Phase = phase_Completion →
      gs'.Phase = phase_Generation ∧ gs'.ActiveTetromino = gs.ActiveTetromino) ∧
    (gs.Phase = phase_Paused →
      (gs'.Phase = phase_Paused ∨ gs'.Phase = phase_Falling) ∧
        gs'.ActiveTetromino = gs.ActiveTetromino) ∧
    (gs.Phase = phase_GameOver → gs'.Phase = phase_GameOver ∨ gs'.Phase = phase_End) ∧
    (gs.Phase = phase_End → gs'.Phase = phase_End ∧ gs'.IsDone = true) := by
  refine ⟨fun hp => ?_, fun hp => ?_, fun hp => ?_, fun hp => ?_, fun hp => ?_, fun hp => ?_⟩
  · rw [runStep_generation fuel gs r ev hp] at h
    obtain ⟨h1, h2, -⟩ := GenerationPhase_frame gs gs' r h
    exact ⟨h1, h2⟩
  · rw [runStep_lock fuel gs r ev hp] at h
    obtain ⟨h1, h2, -⟩ := LockPhase_frame gs gs' h
    exact ⟨h1, h2⟩
  · rw [runStep_completion fuel gs r ev hp] at h
    have := Option.some.inj h
    subst this
    exact ⟨(CompletionPhase_frame gs).1, (CompletionPhase_frame gs).2.1⟩
  · cases ev with
    | dropTick =>
      rw [(runStep_paused fuel gs r ⟨Input_Pause, Action_Up, I32.ofInt 0⟩ hp).2] at h
      have := Option.some.inj h
      subst this
      exact ⟨Or.inl hp, rfl⟩
    | input event =>
      rw [(runStep_paused fuel gs r event hp).1] at h
      have := Option.some.inj h
      subst this
      obtain ⟨h1, h2, -⟩ := pausedEvent_frame gs event
      refine ⟨?_, h2⟩
      rw [h1, if_pos hp]
      unfold pausedTable
      split_ifs
      · exact Or.inr rfl
      · exact Or.inl rfl
  · cases ev with
    | dropTick =>
      rw [(runStep_gameOver fuel gs r ⟨Input_Pause, Action_Up, I32.ofInt 0⟩ hp).2] at h
      have := Option.some.inj h
      subst this
      exact Or.inl hp
    | input event =>
      rw [(runStep_gameOver fuel gs r event hp).1] at h
      have := Option.some.inj h
      subst this
      exact Or.inr rfl
  · rw [runStep_end fuel gs r ev hp] at h
    have := Option.some.inj h
    subst this
    exact ⟨hp, rfl⟩

/-- A turn in Falling, whenever it returns on a state with an active piece. -/
theorem runStep_falling_sound (fuel : Nat) (gs gs' : gameState) (t : tetromino) (r : Int)
    (ev : Event) (hp : gs.Phase = phase_Falling) (ht : gs.ActiveTetromino = some t)
    (h : gs.runStep fuel r ev = some gs') :
    ∃ d, t.down.CheckCollision gs.Board = some d ∧
      gs'.Phase = fallingTable d gs.HoldingTetromino.isNone ev ∧
      (gs'.Phase = phase_Generation → gs'.ActiveTetromino = none) ∧
      (gs'.Phase ≠ phase_Generation → ∃ t', gs'.ActiveTetromino = some t') ∧
      gs'.linesCleared = gs.linesCleared ∧ gs'.Score = gs.Score := by
  rw [runStep_falling fuel gs r ev hp (runStep_falling_ticker fuel gs gs' r ev hp h)] at h
  cases hf : gs.fallingEvent fuel ev with
  | none => rw [hf] at h; exact absurd h (by simp)
  | some p =>
    obtain ⟨done, g⟩ := p
    rw [hf] at h
    have hg : g = gs' := Option.some.inj h
    subst hg
    obtain ⟨d, hd, h1, -, h3, h4, h5, h6⟩ := fallingEvent_sound fuel gs t hp ht ev done g hf
    exact ⟨d, hd, h1, h3, h4, h5, h6⟩

set_option maxRecDepth 100000 in
/-- C11 breaks where a ticker call of the Falling handler panics. While the
ticker takes the durations it is handed, the phase transition function follows
the table: one event in Falling (on a state with an active piece, with fuel for
the descent of a hard drop) leaves the phase `fallingTable` gives: Lock on a
drop tick whose down-move collides and on HardDrop/Down, Paused on Pause/Up,
Generation on Hold/Down with an empty holding slot, Falling on every other
event; and whenever a turn in Falling returns, it leaves that phase. Lock goes
to Completion whenever `LockPhase` returns (it does when the piece is inside
the grid); Completion goes to Generation; Paused goes to Falling on Pause/Up
and stays Paused on every other event; GameOver goes to End on any input event;
End sets `IsDone` and stays End. Paused is entered only from Falling and left
only to Falling. But at `levelState 330` (330 lines cleared, level 34) the
handler is running (`DropInterval(1)` is 8 ns) and on a press of the soft-drop
key `DropInterval(0.05)` is 0: `dropTicker.Reset` panics, where the table says
the phase stays Falling; a line earlier the duration is 1 ns and the phase
stays Falling. At `levelState 360` `DropInterval(1)` is 0 and no turn in
Falling returns: `time.NewTicker` panics. -/
theorem C11_phase_transitions :
    (∀ (fuel : Nat) (gs : gameState) (t : tetromino) (r : Int) (ev : Event), 41 ≤ fuel →
      gs.Phase = phase_Falling → gs.ActiveTetromino = some t →
      0 < gs.DropInterval (F64.ofInt 1) → gs.tickerAccepts ev →
      ∃ d gs', t.down.CheckCollision gs.Board = some d ∧
        gs.runStep fuel r ev = some gs' ∧
        gs'.Phase = fallingTable d gs.HoldingTetromino.isNone ev) ∧
    (∀ (fuel : Nat) (gs gs' : gameState) (t : tetromino) (r : Int) (ev : Event),
      gs.Phase = phase_Falling → gs.ActiveTetromino = some t →
      gs.runStep fuel r ev = some gs' →
      ∃ d, t.down.CheckCollision gs.Board = some d ∧
        gs'.Phase = fallingTable d gs.HoldingTetromino.isNone ev) ∧
    (∀ (fuel : Nat) (gs gs' : gameState) (r : Int) (ev : Event),
      gs.Phase = phase_Lock → gs.runStep fuel r ev = some gs' →
      gs'.Phase = phase_Completion) ∧
    (∀ (fuel : Nat) (gs : gameState) (t : tetromino) (r : Int) (ev : Event),
      gs.Phase = phase_Lock → gs.ActiveTetromino = some t → (∀ i, inGrid (t.absCell i)) →
      ∃ gs', gs.runStep fuel r ev = some gs' ∧ gs'.Phase = phase_Completion) ∧
    (∀ (fuel : Nat) (gs : gameState) (r : Int) (ev : Event),
      gs.Phase = phase_Completion →
      ∃ gs', gs.runStep fuel r ev = some gs' ∧ gs'.Phase = phase_Generation) ∧
    (∀ (fuel : Nat) (gs : gameState) (r : Int) (event : InputEvent),
      gs.Phase = phase_Paused →
      ∃ gs', gs.runStep fuel r (Event.input event) = some gs' ∧
        gs'.Phase = pausedTable event) ∧
    (∀ (fuel : Nat) (gs : gameState) (r : Int) (event : InputEvent),
      gs.Phase = phase_GameOver →
      ∃ gs', gs.runStep fuel r (Event.input event) = some gs' ∧ gs'.Phase = phase_End) ∧
    (∀ (fuel : Nat) (gs : gameState) (r : Int) (ev : Event),
      gs.Phase = phase_End →
      ∃ gs', gs.runStep fuel r ev = some gs' ∧ gs'.IsDone = true ∧ gs'.Phase = phase_End) ∧
    (∀ (fuel : Nat) (gs gs' : gameState) (r : Int) (ev : Event),
      gs.runStep fuel r ev = some gs' → gs'.Phase = phase_Paused →
      gs.Phase = phase_Falling ∨ gs.Phase = phase_Paused) ∧
    (∀ (fuel : Nat) (gs gs' : gameState) (r : Int) (ev : Event),
      gs.runStep fuel r ev = some gs' → gs.Phase = phase_Paused →
      gs'.Phase = phase_Falling ∨ gs'.Phase = phase_Paused) ∧
    ((levelState 330).Phase = phase_Falling ∧
      (levelState 330).ActiveTetromino = some (pieceT 5 20) ∧
      (levelState 330).DropInterval (F64.ofInt 1) = 8 ∧
      (levelState 330).DropInterval softDropMultiplier = 0 ∧
      (levelState 330).fallingEvent 41 (Event.input softDropPress) = none ∧
      (levelState 330).runStep 41 0 (Event.input softDropPress) = none ∧
      fallingTable false true (Event.input softDropPress) = phase_Falling) ∧
    ((levelState 329).DropInterval softDropMultiplier = 1 ∧
      (levelState 329).runStep 41 0 (Event.input softDropPress) = some (levelState 329)) ∧
    ((levelState 360).Phase = phase_Falling ∧
      (levelState 360).DropInterval (F64.ofInt 1) = 0 ∧
      ∀ (fuel : Nat) (r : Int) (ev : Event), (levelState 360).runStep fuel r ev = none) := by
  have hsoft : (levelState 330).fallingEvent 41 (Event.input softDropPress) = none := by
    show (levelState 330).fallingEvent 41
      (Event.input ⟨Input_SoftDrop, Action_Down, I32.ofInt 264⟩) = none
    rw [fallingEvent_softDrop, if_pos (Or.inl ⟨rfl, by decide⟩)]
  have hstay : (levelState 329).fallingEvent 41 (Event.input softDropPress) =
      some (false, levelState 329) :=
    fallingEvent_softDrop_returns 41 (levelState 329) Action_Down (I32.ofInt 264)
      ⟨fun _ => by decide, fun h => absurd h.2 (by decide)⟩
  refine ⟨?_, ?_, ?_, ?_, ?_, ?_, ?_, ?_, ?_, ?_,
    ⟨rfl, rfl, by decide, by decide, hsoft, ?_, by decide⟩,
    ⟨by decide, ?_⟩,
    ⟨rfl, by decide, fun fuel r ev => runStep_falling_panic fuel _ r ev rfl (by decide)⟩⟩
  rotate_left 10
  · rw [runStep_falling 41 (levelState 330) 0 _ rfl (by decide), hsoft]
    rfl
  · rw [runStep_falling 41 (levelState 329) 0 _ rfl (by decide), hstay]
    rfl
  · intro fuel gs t r ev hfuel hp ht hpos hacc
    obtain ⟨d, done, gs', hd, hev, hph, -⟩ := fallingEvent_table fuel hfuel gs t hp ht ev hacc
    exact ⟨d, gs', hd, by rw [runStep_falling fuel gs r ev hp hpos, hev]; rfl, hph⟩
  · intro fuel gs gs' t r ev hp ht h
    obtain ⟨d, hd, hph, -⟩ := runStep_falling_sound fuel gs gs' t r ev hp ht h
    exact ⟨d, hd, hph⟩
  · intro fuel gs gs' r ev hp h
    exact ((runStep_phase fuel gs gs' r ev h).2.1 hp).1
  · intro fuel gs t r ev hp ht hin
    obtain ⟨b', hb', -⟩ := CommitToBoard_spec t gs.Board hin
    exact ⟨{ gs with Board := b', ActiveTetromino := none, Phase := phase_Completion },
      by rw [runStep_lock fuel gs r ev hp]; simp only [gameState.LockPhase, ht, hb'], rfl⟩
  · intro fuel gs r ev hp
    exact ⟨_, runStep_completion fuel gs r ev hp, (CompletionPhase_frame gs).1⟩
  · intro fuel gs r event hp
    refine ⟨_, (runStep_paused fuel gs r event hp).1, ?_⟩
    rw [(pausedEvent_frame gs event).1, if_pos hp]
  · intro fuel gs r event hp
    exact ⟨_, (runStep_gameOver fuel gs r event hp).1, rfl⟩
  · intro fuel gs r ev hp
    exact ⟨_, runStep_end fuel gs r ev hp, rfl, hp⟩
  · intro fuel gs gs' r ev h hp'
    obtain ⟨hG, hL, hC, hP, hO, hE⟩ := runStep_phase fuel gs gs' r ev h
    cases hq : gs.Phase with
    | phase_Generation =>
      rcases (hG hq).1 with h1 | h1 <;> rw [hp'] at h1 <;> exact absurd h1 (by decide)
    | phase_Falling => exact Or.inl rfl
    | phase_Lock => have h1 := (hL hq).1; rw [hp'] at h1; exact absurd h1 (by decide)
    | phase_Completion => have h1 := (hC hq).1; rw [hp'] at h1; exact absurd h1 (by decide)
    | phase_Paused => exact Or.inr rfl
    | phase_GameOver =>
      rcases hO hq with h1 | h1 <;> rw [hp'] at h1 <;> exact absurd h1 (by decide)
    | phase_End => have h1 := (hE hq).1; rw [hp'] at h1; exact absurd h1 (by decide)
  · intro fuel gs gs' r ev h hp
    rcases ((runStep_phase fuel gs gs' r ev h).2.2.2.1 hp).1 with h1 | h1
    · exact Or.inr h1
    · exact Or.inl h1

/-! ## The active slot along a run -/

theorem newGameState_fields (rs : Fin 5 → Int) (gs : gameState)
    (h : newGameState rs = some gs) :
    gs.Phase = phase_Generation ∧ gs.ActiveTetromino = none ∧ gs.HoldingTetromino = none ∧
      gs.Board = newBoard ∧ gs.linesCleared = GoInt.ofInt 0 ∧ gs.Score = GoInt.ofInt 0 ∧
      gs.IsDone = false := by
  unfold newGameState at h
  cases hq : newQueueLoop rs [0, 1, 2, 3, 4] (fun _ => zeroTetromino) with
  | none => simp only [hq] at h; exact absurd h (by simp)
  | some q =>
    simp only [hq] at h
    have := Option.some.inj h
    subst this
    exact ⟨rfl, rfl, rfl, rfl, rfl, rfl, rfl⟩

/-- The invariant of the active slot: present in Falling, Lock and Paused,
absent in Generation and Completion. -/
theorem reachable_active_slot (gs : gameState) (h : Reachable gs) :
    ((gs.Phase = phase_Falling ∨ gs.Phase = phase_Lock ∨ gs.Phase = phase_Paused) →
      ∃ t, gs.ActiveTetromino = some t) ∧
    ((gs.Phase = phase_Generation ∨ gs.Phase = phase_Completion) →
      gs.ActiveTetromino = none) := by
  induction h with
  | init rs gs h0 =>
    obtain ⟨hp, ha, -⟩ := newGameState_fields rs gs h0
    refine ⟨fun h => ?_, fun _ => ha⟩
    rw [hp] at h
    rcases h with h | h | h <;> exact absurd h (by decide)
  | step fuel r ev gs gs' _ hstep ih =>
    obtain ⟨ih1, ih2⟩ := ih
    obtain ⟨hG, hL, hC, hP, hO, hE⟩ := runStep_phase fuel gs gs' r ev hstep
    cases hq : gs.Phase with
    | phase_Generation =>
      obtain ⟨hph, hact⟩ := hG hq
      refine ⟨fun _ => hact, fun h => ?_⟩
      rcases hph with h1 | h1 <;> rw [h1] at h <;> rcases h with h | h <;>
        exact absurd h (by decide)
    | phase_Falling =>
      obtain ⟨t, ht⟩ := ih1 (Or.inl hq)
      obtain ⟨d, -, hph, hgen, hnot, -⟩ := runStep_falling_sound fuel gs gs' t r ev hq ht hstep
      refine ⟨fun h => hnot ?_, fun h => ?_⟩
      · intro hg
        rw [hg] at h
        rcases h with h | h | h <;> exact absurd h (by decide)
      · rcases h with h | h
        · exact hgen h
        · rcases fallingTable_cases d gs.HoldingTetromino.isNone ev with h1 | h1 | h1 | h1 <;>
            rw [← hph, h] at h1 <;> exact absurd h1 (by decide)
    | phase_Lock =>
      obtain ⟨hph, hact⟩ := hL hq
      refine ⟨fun h => ?_, fun _ => hact⟩
      rw [hph] at h
      rcases h with h | h | h <;> exact absurd h (by decide)
    | phase_Completion =>
      obtain ⟨hph, hact⟩ := hC hq
      refine ⟨fun h => ?_, fun _ => ?_⟩
      · rw [hph] at h
        rcases h with h | h | h <;> exact absurd h (by decide)
      · rw [hact]; exact ih2 (Or.inr hq)
    | phase_Paused =>
      obtain ⟨hph, hact⟩ := hP hq
      refine ⟨fun _ => ?_, fun h => ?_⟩
      · rw [hact]; exact ih1 (Or.inr (Or.inr hq))
      · rcases hph with h1 | h1 <;> rw [h1] at h <;> rcases h with h | h <;>
          exact absurd h (by decide)
    | phase_GameOver =>
      refine ⟨fun h => ?_, fun h => ?_⟩
      · rcases hO hq with h1 | h1 <;> rw [h1] at h <;> rcases h with h | h | h <;>
          exact absurd h (by decide)
      · rcases hO hq with h1 | h1 <;> rw [h1] at h <;> rcases h with h | h <;>
          exact absurd h (by decide)
    | phase_End =>
      obtain ⟨hph, -⟩ := hE hq
      refine ⟨fun h => ?_, fun h => ?_⟩
      · rw [hph] at h
        rcases h with h | h | h <;> exact absurd h (by decide)
      · rw [hph] at h
        rcases h with h | h <;> exact absurd h (by decide)
  | trailTimer gs _ ih => exact ih

/-- C15: in every state reachable from `newGameState` by turns of the
simulation task on any drop ticks and input events (and by the trail timer),
the active tetromino is present whenever the phase is Falling or Lock, and
absent whenever the phase is Generation. -/
theorem C15_active_slot_invariant (gs : gameState) (h : Reachable gs) :
    ((gs.Phase = phase_Falling ∨ gs.Phase = phase_Lock) → ∃ t, gs.ActiveTetromino = some t) ∧
    (gs.Phase = phase_Generation → gs.ActiveTetromino = none) := by
  obtain ⟨h1, h2⟩ := reachable_active_slot gs h
  refine ⟨fun hp => h1 ?_, fun hp => h2 (Or.inl hp)⟩
  rcases hp with hp | hp
  · exact Or.inl hp
  · exact Or.inr (Or.inl hp)

/-! ## Frames of the Falling handler -/

/-- What a move operation leaves, whenever it returns. -/
theorem tryMove_frame (gs gs' : gameState) (d : Bool) (move back : tetromino → tetromino)
    (h : gs.tryMove move back = some (d, gs')) :
    gs'.Board = gs.Board ∧ gs'.linesCleared = gs.linesCleared ∧ gs'.Score = gs.Score ∧
      gs'.Phase = gs.Phase ∧ gs'.IsDone = gs.IsDone := by
  cases ha : gs.ActiveTetromino with
  | none =>
    simp only [gameState.tryMove, ha] at h
    exact absurd h (by simp)
  | some t =>
    obtain ⟨d2, g2, t2, h2, hph, hb, -, -, hl, hs, hd, -⟩ := tryMove_phase gs t move back ha
    rw [h2] at h
    have heq : (d2, g2) = (d, gs') := Option.some.inj h
    obtain ⟨-, rfl⟩ := Prod.mk.inj heq
    exact ⟨hb, hl, hs, hph, hd⟩

/-- What the hold leaves, whenever it returns. -/
theorem hold_frame (gs gs' : gameState) (s : Bool) (h : gs.ActiveTetrominoHold = some (s, gs')) :
    gs'.Board = gs.Board ∧ gs'.linesCleared = gs.linesCleared ∧ gs'.Score = gs.Score ∧
      gs'.Phase = gs.Phase ∧ gs'.IsDone = gs.IsDone := by
  cases ha : gs.ActiveTetromino with
  | none =>
    simp only [gameState.ActiveTetrominoHold, ha] at h
    exact absurd h (by simp)
  | some t =>
    obtain ⟨g2, h2, hph, hb, -, hl, hs, hd, -⟩ := hold_returns gs t ha
    rw [h2] at h
    have heq : (gs.HoldingTetromino.isNone, g2) = (s, gs') := Option.some.inj h
    obtain ⟨-, rfl⟩ := Prod.mk.inj heq
    exact ⟨hb, hl, hs, hph, hd⟩

/-- What the descent of a hard drop leaves, whenever it returns. -/
theorem hardDown_frame (fuel : Nat) (gs gs' : gameState)
    (h : gs.ActiveTetrominoHardDown fuel = some gs') :
    gs'.linesCleared = gs.linesCleared ∧ gs'.Score = gs.Score ∧ gs'.Phase = gs.Phase ∧
      gs'.IsDone = gs.IsDone ∧
      ∃ t t', gs.ActiveTetromino = some t ∧
        hardDownLoop fuel t gs.Board = some (t', gs'.Board) := by
  unfold gameState.ActiveTetrominoHardDown at h
  cases ha : gs.ActiveTetromino with
  | none => simp only [ha] at h; exact absurd h (by simp)
  | some t =>
    simp only [ha] at h
    cases hl : hardDownLoop fuel t gs.Board with
    | none => simp only [hl] at h; exact absurd h (by simp)
    | some p =>
      obtain ⟨t', b'⟩ := p
      simp only [hl] at h
      have := Option.some.inj h
      subst this
      exact ⟨rfl, rfl, rfl, rfl, t, t', rfl, hl⟩

/-- What one event of the Falling handler leaves, whenever it returns: the
counters and `IsDone` are unchanged; the board is unchanged or is the board the
descent of a hard drop left. -/
theorem fallingEvent_frame (fuel : Nat) (gs gs' : gameState) (ev : Event) (done : Bool)
    (h : gs.fallingEvent fuel ev = some (done, gs')) :
    gs'.linesCleared = gs.linesCleared ∧ gs'.Score = gs.Score ∧ gs'.IsDone = gs.IsDone ∧
      (gs'.Board = gs.Board ∨
        ∃ t t', gs.ActiveTetromino = some t ∧
          hardDownLoop fuel t gs.Board = some (t', gs'.Board)) := by
  have key : ∀ (res : Option (Bool × gameState)) (f : Bool × gameState → Bool × gameState),
      (∀ p, (f p).2 = p.2 ∨ (f p).2 = { p.2 with Phase := phase_Lock } ∨
        (f p).2 = { p.2 with Phase := phase_Generation }) →
      (∀ p, res = some p → p.2.Board = gs.Board ∧ p.2.linesCleared = gs.linesCleared ∧
        p.2.Score = gs.Score ∧ p.2.Phase = gs.Phase ∧ p.2.IsDone = gs.IsDone) →
      Option.map f res = some (done, gs') →
      gs'.linesCleared = gs.linesCleared ∧ gs'.Score = gs.Score ∧ gs'.IsDone = gs.IsDone ∧
      (gs'.Board = gs.Board ∨
        ∃ t t', gs.ActiveTetromino = some t ∧
          hardDownLoop fuel t gs.Board = some (t', gs'.Board)) := by
    intro res f hf hres hmap
    cases res with
    | none => exact absurd hmap (by simp)
    | some p =>
      obtain ⟨hb, hl, hs, -, hd⟩ := hres p rfl
      have hfp : f p = (done, gs') := Option.some.inj hmap
      have h2 : (f p).2 = gs' := by rw [hfp]
      rcases hf p with h1 | h1 | h1 <;> rw [h2] at h1 <;> subst h1 <;>
        exact ⟨hl, hs, hd, Or.inl hb⟩
  have stay : ∀ (g : gameState) (d0 : Bool), g = gs ∨ g = { gs with Phase := phase_Paused } →
      some (d0, g) = some (done, gs') →
      gs'.linesCleared = gs.linesCleared ∧ gs'.Score = gs.Score ∧ gs'.IsDone = gs.IsDone ∧
      (gs'.Board = gs.Board ∨
        ∃ t t', gs.ActiveTetromino = some t ∧
          hardDownLoop fuel t gs.Board = some (t', gs'.Board)) := by
    intro g d0 hg he
    have : g = gs' := (Prod.mk.inj (Option.some.inj he)).2
    subst this
    rcases hg with rfl | rfl <;> exact ⟨rfl, rfl, rfl, Or.inl rfl⟩
  cases ev with
  | dropTick =>
    refine key gs.ActiveTetrominoDown
      (fun p => if p.1 = true then (true, { p.2 with Phase := phase_Lock }) else (false, p.2))
      (fun p => by by_cases hp : p.1 = true <;> simp [hp])
      (fun p hp => tryMove_frame gs p.2 p.1 _ _ hp) ?_
    rw [← h]
    simp only [gameState.fallingEvent]
    cases gs.ActiveTetrominoDown with
    | none => rfl
    | some p => obtain ⟨d, g⟩ := p; cases d <;> rfl
  | input event =>
    obtain ⟨inp, act, key'⟩ := event
    cases inp with
    | Input_Pause =>
      cases act <;> simp only [gameState.fallingEvent, if_true, if_false, reduceCtorEq] at h
      · exact stay gs _ (Or.inl rfl) h
      · exact stay gs _ (Or.inl rfl) h
      · exact stay _ _ (Or.inr rfl) h
    | Input_Hold =>
      cases act <;> simp only [gameState.fallingEvent, if_true, if_false, reduceCtorEq] at h
      · refine key gs.ActiveTetrominoHold
          (fun p => if p.1 = true then (true, { p.2 with Phase := phase_Generation })
            else (false, p.2))
          (fun p => by by_cases hp : p.1 = true <;> simp [hp])
          (fun p hp => hold_frame gs p.2 p.1 hp) ?_
        rw [← h]
        cases gs.ActiveTetrominoHold with
        | none => rfl
        | some p => obtain ⟨d, g⟩ := p; cases d <;> rfl
      · exact stay gs _ (Or.inl rfl) h
      · exact stay gs _ (Or.inl rfl) h
    | Input_RotateCounterClockwise =>
      cases act <;> simp only [gameState.fallingEvent, if_true, if_false, reduceCtorEq] at h
      · refine key gs.ActiveTetrominoRotateCounterClockwise (fun p => (false, p.2))
          (fun p => Or.inl rfl) (fun p hp => tryMove_frame gs p.2 p.1 _ _ hp) ?_
        rw [← h]
        cases gs.ActiveTetrominoRotateCounterClockwise with
        | none => rfl
        | some p => rfl
      · exact stay gs _ (Or.inl rfl) h
      · exact stay gs _ (Or.inl rfl) h
    | Input_RotateClockwise =>
      cases act <;> simp only [gameState.fallingEvent, if_true, if_false, reduceCtorEq] at h
      · refine key gs.ActiveTetrominoRotateClockwise (fun p => (false, p.2))
          (fun p => Or.inl rfl) (fun p hp => tryMove_frame gs p.2 p.1 _ _ hp) ?_
        rw [← h]
        cases gs.ActiveTetrominoRotateClockwise with
        | none => rfl
        | some p => rfl
      · exact stay gs _ (Or.inl rfl) h
      · exact stay gs _ (Or.inl rfl) h
    | Input_HardDrop =>
      cases act <;> simp only [gameState.fallingEvent, if_true, if_false, reduceCtorEq] at h
      · cases hH : gs.ActiveTetrominoHardDown fuel with
        | none => simp only [hH] at h; exact absurd h (by simp)
        | some g =>
          simp only [hH] at h
          obtain ⟨hl, hs, -, hd, t, t', ht, hloop⟩ := hardDown_frame fuel gs g hH
          have : gs' = { g with Phase := phase_Lock } :=
            ((Prod.mk.inj (Option.some.inj h)).2).symm
          subst this
          exact ⟨hl, hs, hd, Or.inr ⟨t, t', ht, hloop⟩⟩
      · exact stay gs _ (Or.inl rfl) h
      · exact stay gs _ (Or.inl rfl) h
    | Input_SoftDrop =>
      obtain ⟨rfl, rfl, -⟩ := fallingEvent_softDrop_some fuel gs gs' act key' done h
      exact ⟨rfl, rfl, rfl, Or.inl rfl⟩
    | Input_MoveLeft =>
      cases act <;> simp only [gameState.fallingEvent, if_true, if_false, reduceCtorEq] at h
      · refine key gs.ActiveTetrominoLeft (fun p => (false, p.2))
          (fun p => Or.inl rfl) (fun p hp => tryMove_frame gs p.2 p.1 _ _ hp) ?_
        rw [← h]
        cases gs.ActiveTetrominoLeft with
        | none => rfl
        | some p => rfl
      · exact stay gs _ (Or.inl rfl) h
      · exact stay gs _ (Or.inl rfl) h
    | Input_MoveRight =>
      cases act <;> simp only [gameState.fallingEvent, if_true, if_false, reduceCtorEq] at h
      · refine key gs.ActiveTetrominoRight (fun p => (false, p.2))
          (fun p => Or.inl rfl) (fun p hp => tryMove_frame gs p.2 p.1 _ _ hp) ?_
        rw [← h]
        cases gs.ActiveTetrominoRight with
        | none => rfl
        | some p => rfl
      · exact stay gs _ (Or.inl rfl) h
      · exact stay gs _ (Or.inl rfl) h

/-! ## The counters along a run -/

/-- A turn in a phase other than Completion leaves `linesCleared` and `Score`
as they are. -/
theorem runStep_counters (fuel : Nat) (gs gs' : gameState) (r : Int) (ev : Event)
    (h : gs.runStep fuel r ev = some gs') (hp : gs.Phase ≠ phase_Completion) :
    gs'.linesCleared = gs.linesCleared ∧ gs'.Score = gs.Score := by
  cases hq : gs.Phase with
  | phase_Generation =>
    rw [runStep_generation fuel gs r ev hq] at h
    obtain ⟨-, -, -, hl, hs⟩ := GenerationPhase_frame gs gs' r h
    exact ⟨hl, hs⟩
  | phase_Falling =>
    rw [runStep_falling fuel gs r ev hq (runStep_falling_ticker fuel gs gs' r ev hq h)] at h
    cases hf : gs.fallingEvent fuel ev with
    | none => rw [hf] at h; exact absurd h (by simp)
    | some p =>
      obtain ⟨done, g⟩ := p
      rw [hf] at h
      have hg : g = gs' := Option.some.inj h
      subst hg
      obtain ⟨hl, hs, -⟩ := fallingEvent_frame fuel gs g ev done hf
      exact ⟨hl, hs⟩
  | phase_Lock =>
    rw [runStep_lock fuel gs r ev hq] at h
    obtain ⟨-, -, hl, hs, -⟩ := LockPhase_frame gs gs' h
    exact ⟨hl, hs⟩
  | phase_Completion => exact absurd hq hp
  | phase_Paused =>
    cases ev with
    | dropTick =>
      rw [(runStep_paused fuel gs r ⟨Input_Pause, Action_Up, I32.ofInt 0⟩ hq).2] at h
      have := Option.some.inj h
      subst this
      exact ⟨rfl, rfl⟩
    | input event =>
      rw [(runStep_paused fuel gs r event hq).1] at h
      have := Option.some.inj h
      subst this
      obtain ⟨-, -, -, hl, hs⟩ := pausedEvent_frame gs event
      exact ⟨hl, hs⟩
  | phase_GameOver =>
    cases ev with
    | dropTick =>
      rw [(runStep_gameOver fuel gs r ⟨Input_Pause, Action_Up, I32.ofInt 0⟩ hq).2] at h
      have := Option.some.inj h
      subst this
      exact ⟨rfl, rfl⟩
    | input event =>
      rw [(runStep_gameOver fuel gs r event hq).1] at h
      have := Option.some.inj h
      subst this
      exact ⟨rfl, rfl⟩
  | phase_End =>
    rw [runStep_end fuel gs r ev hq] at h
    have := Option.some.inj h
    subst this
    exact ⟨rfl, rfl⟩

/-- Without a fully-filled row `CompletionPhase` leaves the counters and the
rows of the board as they are. -/
theorem CompletionPhase_no_row (gs : gameState) (hn : fullRowCount gs.Board = 0) :
    gs.CompletionPhase.linesCleared = gs.linesCleared ∧
      gs.CompletionPhase.Score = gs.Score ∧
      gs.CompletionPhase.Board = (markRows gs.Board).1 := by
  have hlen : (markRows gs.Board).2.length = fullRowCount gs.Board := markRows_length gs.Board
  have hneg : ¬ (markRows gs.Board).2.length > 0 := by omega
  unfold gameState.CompletionPhase
  rw [if_neg hneg]
  dsimp only
  refine ⟨rfl, rfl, ?_⟩
  exact Eq.refl (markRows gs.Board).1

/-- The level of a state with a non-negative counter. -/
theorem Level_val (gs : gameState) (h0 : 0 ≤ gs.linesCleared.val) :
    gs.Level.val = gs.linesCleared.val / 10 + 1 := by
  have hhi := gs.linesCleared.hi
  have hten : linesClearedPerLevel.val = 10 := by decide
  have hone : (GoInt.ofInt 1).val = 1 := by decide
  have hdiv : (GoInt.div gs.linesCleared linesClearedPerLevel).val = gs.linesCleared.val / 10 := by
    rw [GoInt.div_val, hten, Int.tdiv_eq_ediv h0 (by omega)]
    exact wrap64_of_range _ (by omega) (by omega)
  unfold gameState.Level
  rw [GoInt.add_val, hdiv, hone]
  exact wrap64_of_range _ (by omega) (by omega)

/-- With at least one fully-filled row, a non-negative counter and no overflow
of the score, `CompletionPhase` adds the integers the claim names. -/
theorem CompletionPhase_exact (gs : gameState) (hn : 1 ≤ fullRowCount gs.Board)
    (h0 : 0 ≤ gs.linesCleared.val)
    (hP : scoreBase (fullRowCount gs.Board) *
      ((gs.linesCleared.val + fullRowCount gs.Board) / 10 + 1) < 9223372036854775808)
    (hS : gs.Score.val + scoreBase (fullRowCount gs.Board) *
      ((gs.linesCleared.val + fullRowCount gs.Board) / 10 + 1) < 9223372036854775808) :
    gs.CompletionPhase.linesCleared.val = gs.linesCleared.val + fullRowCount gs.Board ∧
    gs.CompletionPhase.Score.val =
      gs.Score.val + scoreBase (fullRowCount gs.Board) *
        ((gs.linesCleared.val + fullRowCount gs.Board) / 10 + 1) ∧
    0 < scoreBase (fullRowCount gs.Board) *
        ((gs.linesCleared.val + fullRowCount gs.Board) / 10 + 1) := by
  obtain ⟨hl, hs, -⟩ := CompletionPhase_cleared gs hn
  have hle := fullRowCount_le gs.Board
  have hlo := gs.linesCleared.lo
  have hhi := gs.linesCleared.hi
  have hslo := gs.Score.lo
  have hshi := gs.Score.hi
  generalize fullRowCount gs.Board = n at *
  have hten : linesClearedPerLevel.val = 10 := by decide
  have hone : (GoInt.ofInt 1).val = 1 := by decide
  have hnv : (GoInt.ofInt (n : Int)).val = n := by
    rw [GoInt.ofInt_val]
    exact wrap64_of_range _ (by omega) (by omega)
  have hL : gs.linesCleared.val + (n : Int) < 9223372036854775808 := by
    rcases scoreBase_cases n with h | h | h | h | h <;> rw [h] at hP <;> omega
  have hPpos : 0 < scoreBase n * ((gs.linesCleared.val + n) / 10 + 1) := by
    rcases scoreBase_cases n with h | h | h | h | h <;> rw [h] <;> omega
  have hadd : (GoInt.add gs.linesCleared (GoInt.ofInt (n : Int))).val
      = gs.linesCleared.val + n := by
    rw [GoInt.add_val, hnv]
    exact wrap64_of_range _ (by omega) (by omega)
  have hdiv : (GoInt.div (GoInt.add gs.linesCleared (GoInt.ofInt (n : Int)))
      linesClearedPerLevel).val = (gs.linesCleared.val + n) / 10 := by
    rw [GoInt.div_val, hadd, hten, Int.tdiv_eq_ediv (by omega) (by omega)]
    exact wrap64_of_range _ (by omega) (by omega)
  have hlevel : (GoInt.add (GoInt.div (GoInt.add gs.linesCleared (GoInt.ofInt (n : Int)))
      linesClearedPerLevel) (GoInt.ofInt 1)).val = (gs.linesCleared.val + n) / 10 + 1 := by
    rw [GoInt.add_val, hdiv, hone]
    exact wrap64_of_range _ (by omega) (by omega)
  have hbase : (GoInt.ofInt (scoreBase n)).val = scoreBase n := by
    rw [GoInt.ofInt_val]
    rcases scoreBase_cases n with h | h | h | h | h <;> rw [h] <;>
      exact wrap64_of_range _ (by omega) (by omega)
  have hmul : (GoInt.mul (GoInt.ofInt (scoreBase n))
      (GoInt.add (GoInt.div (GoInt.add gs.linesCleared (GoInt.ofInt (n : Int)))
        linesClearedPerLevel) (GoInt.ofInt 1))).val
      = scoreBase n * ((gs.linesCleared.val + n) / 10 + 1) := by
    rw [GoInt.mul_val, hlevel, hbase]
    exact wrap64_of_range _ (by omega) hP
  refine ⟨?_, ?_, hPpos⟩
  · rw [hl, hadd]
  · rw [hs, GoInt.add_val, hmul]
    exact wrap64_of_range _ (by omega) hS

/-- C16: `linesCleared` and `Score` are monotonic. `newGameState` starts both at
0; a turn of the simulation task in a phase other than Completion, the trail
timer, `CompletionPhase` without a fully-filled row, and every active-piece
operation leave both unchanged; `CompletionPhase` with at least one
fully-filled row, on a non-negative counter and absent integer overflow,
increases both; and `Level() = linesCleared / 10 + 1` is at least 1 and does
not decrease when `linesCleared` does not. -/
theorem C16_counters_monotonic :
    (∀ (rs : Fin 5 → Int) (gs : gameState), newGameState rs = some gs →
      gs.linesCleared.val = 0 ∧ gs.Score.val = 0) ∧
    (∀ (fuel : Nat) (gs gs' : gameState) (r : Int) (ev : Event),
      gs.runStep fuel r ev = some gs' → gs.Phase ≠ phase_Completion →
      gs'.linesCleared = gs.linesCleared ∧ gs'.Score = gs.Score) ∧
    (∀ gs : gameState, gs.clearTrail.linesCleared = gs.linesCleared ∧
      gs.clearTrail.Score = gs.Score) ∧
    (∀ gs : gameState, fullRowCount gs.Board = 0 →
      gs.CompletionPhase.linesCleared = gs.linesCleared ∧
        gs.CompletionPhase.Score = gs.Score) ∧
    (∀ (gs gs' : gameState) (d : Bool),
      (gs.ActiveTetrominoDown = some (d, gs') ∨ gs.ActiveTetrominoLeft = some (d, gs') ∨
        gs.ActiveTetrominoRight = some (d, gs') ∨
        gs.ActiveTetrominoRotateClockwise = some (d, gs') ∨
        gs.ActiveTetrominoRotateCounterClockwise = some (d, gs') ∨
        gs.ActiveTetrominoHold = some (d, gs')) →
      gs'.linesCleared = gs.linesCleared ∧ gs'.Score = gs.Score) ∧
    (∀ (fuel : Nat) (gs gs' : gameState), gs.ActiveTetrominoHardDown fuel = some gs' →
      gs'.linesCleared = gs.linesCleared ∧ gs'.Score = gs.Score) ∧
    (∀ gs : gameState, 1 ≤ fullRowCount gs.Board → 0 ≤ gs.linesCleared.val →
      scoreBase (fullRowCount gs.Board) *
        ((gs.linesCleared.val + fullRowCount gs.Board) / 10 + 1) < 9223372036854775808 →
      gs.Score.val + scoreBase (fullRowCount gs.Board) *
        ((gs.linesCleared.val + fullRowCount gs.Board) / 10 + 1) < 9223372036854775808 →
      gs.linesCleared.val < gs.CompletionPhase.linesCleared.val ∧
        gs.Score.val < gs.CompletionPhase.Score.val ∧
        gs.Level.val ≤ gs.CompletionPhase.Level.val) ∧
    (∀ gs : gameState, 0 ≤ gs.linesCleared.val →
      gs.Level.val = gs.linesCleared.val / 10 + 1 ∧ 1 ≤ gs.Level.val) ∧
    (∀ gs gs' : gameState, 0 ≤ gs.linesCleared.val →
      gs.linesCleared.val ≤ gs'.linesCleared.val → gs.Level.val ≤ gs'.Level.val) := by
  have hmono : ∀ gs gs' : gameState, 0 ≤ gs.linesCleared.val →
      gs.linesCleared.val ≤ gs'.linesCleared.val → gs.Level.val ≤ gs'.Level.val := by
    intro gs gs' h0 hle
    rw [Level_val gs h0, Level_val gs' (by omega)]
    omega
  refine ⟨?_, runStep_counters, fun gs => ⟨rfl, rfl⟩, ?_, ?_, ?_, ?_, ?_, hmono⟩
  · intro rs gs h
    obtain ⟨-, -, -, -, hl, hs, -⟩ := newGameState_fields rs gs h
    rw [hl, hs]
    decide
  · intro gs hn
    exact ⟨(CompletionPhase_no_row gs hn).1, (CompletionPhase_no_row gs hn).2.1⟩
  · intro gs gs' d h
    rcases h with h | h | h | h | h | h
    · exact ⟨(tryMove_frame gs gs' d _ _ h).2.1, (tryMove_frame gs gs' d _ _ h).2.2.1⟩
    · exact ⟨(tryMove_frame gs gs' d _ _ h).2.1, (tryMove_frame gs gs' d _ _ h).2.2.1⟩
    · exact ⟨(tryMove_frame gs gs' d _ _ h).2.1, (tryMove_frame gs gs' d _ _ h).2.2.1⟩
    · exact ⟨(tryMove_frame gs gs' d _ _ h).2.1, (tryMove_frame gs gs' d _ _ h).2.2.1⟩
    · exact ⟨(tryMove_frame gs gs' d _ _ h).2.1, (tryMove_frame gs gs' d _ _ h).2.2.1⟩
    · exact ⟨(hold_frame gs gs' d h).2.1, (hold_frame gs gs' d h).2.2.1⟩
  · intro fuel gs gs' h
    exact ⟨(hardDown_frame fuel gs gs' h).1, (hardDown_frame fuel gs gs' h).2.1⟩
  · intro gs hn h0 hP hS
    obtain ⟨hl, hs, hpos⟩ := CompletionPhase_exact gs hn h0 hP hS
    have hlt : gs.linesCleared.val < gs.CompletionPhase.linesCleared.val := by
      rw [hl]; omega
    refine ⟨hlt, ?_, hmono gs gs.CompletionPhase h0 (by omega)⟩
    rw [hs]; omega
  · intro gs h0
    have := Level_val gs h0
    exact ⟨this, by omega⟩

/-! ## Ghost marks -/

theorem ghostNotFilled_newBoard : ghostNotFilled newBoard := by
  intro y x h
  exact absurd h (by simp [newBoard])

/-- The trail mark of a piece that does not collide keeps the property: it is
put on unfilled cells. -/
theorem trail_ghostNotFilled (t : tetromino) (b b1 : board)
    (hfree : t.CheckCollision b = some false)
    (hspec : ∀ (y : Fin 40) (x : Fin 10), b1 y x =
      if t.occupies y x then trailCell t.color (b y x) else b y x)
    (hg : ghostNotFilled b) : ghostNotFilled b1 := by
  intro y x h
  rw [hspec y x] at h ⊢
  by_cases hocc : t.occupies y x
  · rw [if_pos hocc]
    obtain ⟨i, hx, hy⟩ := hocc
    exact (not_collides_cells t b hfree i).2 y x hx hy
  · rw [if_neg hocc] at h ⊢
    exact hg y x h

/-- The descent loop keeps the property, whenever it returns. -/
theorem hardDownLoop_ghostNotFilled (fuel : Nat) :
    ∀ (t : tetromino) (b : board) (r : tetromino × board), hardDownLoop fuel t b = some r →
      ghostNotFilled b → ghostNotFilled r.2 := by
  induction fuel with
  | zero =>
    intro t b r h
    have h0 : hardDownLoop 0 t b = none := rfl
    rw [h0] at h
    exact absurd h (by simp)
  | succ fuel ih =>
    intro t b r h hg
    obtain ⟨d, hd, -⟩ := CheckCollision_spec t.down b
    cases d with
    | true =>
      rw [hardDownLoop_stop fuel t b hd] at h
      have := Option.some.inj h
      subst this
      exact hg
    | false =>
      have hin : ∀ i, inGrid (t.down.absCell i) := fun i => (not_collides_cells _ b hd i).1
      obtain ⟨b1, hb1, hspec1⟩ := CommitTrailToBoard_spec t.down b hin
      rw [hardDownLoop_go fuel t b b1 hd hb1] at h
      exact ih t.down b1 r h (trail_ghostNotFilled t.down b b1 hd hspec1 hg)

theorem markRows_ghostNotFilled (b : board) (hg : ghostNotFilled b) :
    ghostNotFilled (markRows b).1 := by
  intro y x h
  rw [markRows_board b y] at h ⊢
  by_cases hc : isRowComplete (b y) = true
  · rw [if_pos hc]; rfl
  · rw [if_neg hc] at h ⊢
    exact hg y x h

theorem deleteRow_ghostNotFilled (b : board) (r : Fin 40) (hg : ghostNotFilled b) :
    ghostNotFilled (deleteRow b r) := by
  intro y x h
  by_cases hlt : y.val < r.val
  · rw [deleteRow_below b r y hlt] at h ⊢
    exact hg y x h
  · by_cases htop : y.val + 1 < 40
    · rw [deleteRow_above b r y (by omega) htop] at h ⊢
      exact hg _ x h
    · have hy : y = 39 := Fin.ext (by have := y.isLt; show y.val = 39; omega)
      subst hy
      rw [deleteRow_top]
      rfl

theorem foldl_deleteRow_ghostNotFilled (L : List (Fin 40)) :
    ∀ b : board, ghostNotFilled b → ghostNotFilled (L.foldl deleteRow b) := by
  induction L with
  | nil => intro b hg; exact hg
  | cons r L ih =>
    intro b hg
    exact ih _ (deleteRow_ghostNotFilled b r hg)

/-- `CompletionPhase` keeps the property: the marking unfills the cells it
marks ghost, the deletion moves rows and adds empty rows. -/
theorem CompletionPhase_ghostNotFilled (gs : gameState) (hg : ghostNotFilled gs.Board) :
    ghostNotFilled gs.CompletionPhase.Board := by
  by_cases hn : 1 ≤ fullRowCount gs.Board
  · rw [(CompletionPhase_cleared gs hn).2.2.1]
    exact foldl_deleteRow_ghostNotFilled _ _ (markRows_ghostNotFilled gs.Board hg)
  · rw [(CompletionPhase_no_row gs (by omega)).2.2]
    exact markRows_ghostNotFilled gs.Board hg

/-- A turn in a phase other than Lock keeps the property. -/
theorem runStep_ghostNotFilled (fuel : Nat) (gs gs' : gameState) (r : Int) (ev : Event)
    (h : gs.runStep fuel r ev = some gs') (hp : gs.Phase ≠ phase_Lock)
    (hg : ghostNotFilled gs.Board) : ghostNotFilled gs'.Board := by
  cases hq : gs.Phase with
  | phase_Generation =>
    rw [runStep_generation fuel gs r ev hq] at h
    rw [(GenerationPhase_frame gs gs' r h).2.2.1]
    exact hg
  | phase_Falling =>
    rw [runStep_falling fuel gs r ev hq (runStep_falling_ticker fuel gs gs' r ev hq h)] at h
    cases hf : gs.fallingEvent fuel ev with
    | none => rw [hf] at h; exact absurd h (by simp)
    | some p =>
      obtain ⟨done, g⟩ := p
      rw [hf] at h
      have hgg : g = gs' := Option.some.inj h
      subst hgg
      obtain ⟨-, -, -, hb⟩ := fallingEvent_frame fuel gs g ev done hf
      rcases hb with hb | ⟨t, t', -, hloop⟩
      · rw [hb]; exact hg
      · exact hardDownLoop_ghostNotFilled fuel t gs.Board _ hloop hg
  | phase_Lock => exact absurd hq hp
  | phase_Completion =>
    rw [runStep_completion fuel gs r ev hq] at h
    have := Option.some.inj h
    subst this
    exact CompletionPhase_ghostNotFilled gs hg
  | phase_Paused =>
    cases ev with
    | dropTick =>
      rw [(runStep_paused fuel gs r ⟨Input_Pause, Action_Up, I32.ofInt 0⟩ hq).2] at h
      have := Option.some.inj h
      subst this
      exact hg
    | input event =>
      rw [(runStep_paused fuel gs r event hq).1] at h
      have := Option.some.inj h
      subst this
      rw [(pausedEvent_frame gs event).2.2.1]
      exact hg
  | phase_GameOver =>
    cases ev with
    | dropTick =>
      rw [(runStep_gameOver fuel gs r ⟨Input_Pause, Action_Up, I32.ofInt 0⟩ hq).2] at h
      have := Option.some.inj h
      subst this
      exact hg
    | input event =>
      rw [(runStep_gameOver fuel gs r event hq).1] at h
      have := Option.some.inj h
      subst this
      exact hg
  | phase_End =>
    rw [runStep_end fuel gs r ev hq] at h
    have := Option.some.inj h
    subst this
    exact hg

/-- `LockPhase` on a piece inside the grid keeps the property exactly when no
cell of the piece carries a ghost mark. -/
theorem LockPhase_ghostNotFilled (gs : gameState) (t : tetromino)
    (ht : gs.ActiveTetromino = some t) (hin : ∀ i, inGrid (t.absCell i))
    (hg : ghostNotFilled gs.Board) :
    ∃ gs', gs.LockPhase = some gs' ∧
      (ghostNotFilled gs'.Board ↔
        ∀ (y : Fin 40) (x : Fin 10), t.occupies y x → (gs.Board y x).IsGhost = false) := by
  obtain ⟨b', hb', hspec⟩ := CommitToBoard_spec t gs.Board hin
  refine ⟨{ gs with Board := b', ActiveTetromino := none, Phase := phase_Completion },
    by simp only [gameState.LockPhase, ht, hb'], ?_⟩
  show ghostNotFilled b' ↔ _
  constructor
  · intro hg' y x hocc
    have h1 := hg' y x
    rw [hspec y x, if_pos hocc] at h1
    by_contra hne
    have hgh : (gs.Board y x).IsGhost = true := by
      cases hc : (gs.Board y x).IsGhost
      · exact absurd hc hne
      · rfl
    exact absurd (h1 hgh) (by simp)
  · intro hfree y x h
    rw [hspec y x] at h ⊢
    by_cases hocc : t.occupies y x
    · rw [if_pos hocc] at h
      have := hfree y x hocc
      simp only [this] at h
      exact absurd h (by simp)
    · rw [if_neg hocc] at h ⊢
      exact hg y x h

theorem clearTrail_ghostNotFilled (gs : gameState) : ghostNotFilled gs.clearTrail.Board := by
  intro y x h
  exact absurd h (by simp [gameState.clearTrail])

/-- C17 (amended): `newGameState` starts with no cell both ghost and filled and
the trail timer restores that; every turn of the simulation task in a phase
other than Lock keeps it (the trail of a hard drop is put on unfilled cells
only, the completion marking unfills the cells it marks ghost); `LockPhase` on
a piece inside the grid keeps it exactly when no cell of the piece carries a
ghost mark. Collision reads `IsFilled` only, so a ghost mark by itself never
makes a cell solid. -/
theorem C17_ghost_marks_preserved :
    (∀ (rs : Fin 5 → Int) (gs : gameState), newGameState rs = some gs →
      ghostNotFilled gs.Board) ∧
    (∀ gs : gameState, ghostNotFilled gs.clearTrail.Board) ∧
    (∀ (fuel : Nat) (gs gs' : gameState) (r : Int) (ev : Event),
      gs.runStep fuel r ev = some gs' → gs.Phase ≠ phase_Lock →
      ghostNotFilled gs.Board → ghostNotFilled gs'.Board) ∧
    (∀ (fuel : Nat) (gs gs' : gameState), gs.ActiveTetrominoHardDown fuel = some gs' →
      ghostNotFilled gs.Board → ghostNotFilled gs'.Board) ∧
    (∀ gs : gameState, ghostNotFilled gs.Board → ghostNotFilled gs.CompletionPhase.Board) ∧
    (∀ (gs : gameState) (t : tetromino), gs.ActiveTetromino = some t →
      (∀ i, inGrid (t.absCell i)) → ghostNotFilled gs.Board →
      ∃ gs', gs.LockPhase = some gs' ∧
        (ghostNotFilled gs'.Board ↔
          ∀ (y : Fin 40) (x : Fin 10), t.occupies y x → (gs.Board y x).IsGhost = false)) ∧
    (∀ (t : tetromino) (b b' : board),
      (∀ y x, (b' y x).IsFilled = (b y x).IsFilled) →
      t.CheckCollision b' = t.CheckCollision b) := by
  refine ⟨?_, clearTrail_ghostNotFilled, runStep_ghostNotFilled, ?_,
    CompletionPhase_ghostNotFilled, LockPhase_ghostNotFilled, CheckCollision_filled_congr⟩
  · intro rs gs h
    rw [(newGameState_fields rs gs h).2.2.2.1]
    exact ghostNotFilled_newBoard
  · intro fuel gs gs' h hg
    obtain ⟨-, -, -, -, t, t', -, hloop⟩ := hardDown_frame fuel gs gs' h
    exact hardDownLoop_ghostNotFilled fuel t gs.Board _ hloop hg

/-! ## A concrete run: spawn, hard drop, lock -/

theorem reachable_bind (o : Option gameState) (fuel : Nat) (r : Int) (ev : Event)
    (ho : ∀ gs, o = some gs → Reachable gs) :
    ∀ gs', (o.bind fun gs => gs.runStep fuel r ev) = some gs' → Reachable gs' := by
  intro gs' h
  cases o with
  | none => exact absurd h (by simp)
  | some gs => exact Reachable.step fuel r ev gs gs' (ho gs rfl) h

theorem reachable_traceStart : ∀ gs, traceStart = some gs → Reachable gs :=
  fun gs h => Reachable.init _ gs h

theorem reachable_traceSpawned : ∀ gs, traceSpawned = some gs → Reachable gs :=
  reachable_bind _ _ _ _ reachable_traceStart

theorem reachable_traceDropped : ∀ gs, traceDropped = some gs → Reachable gs :=
  reachable_bind _ _ _ _ reachable_traceSpawned

theorem reachable_traceLocked : ∀ gs, traceLocked = some gs → Reachable gs :=
  reachable_bind _ _ _ _ reachable_traceDropped

set_option maxRecDepth 1000000 in
/-- The run evaluated: after the spawn the phase is Falling; after the hard drop
and the lock the cell at row 0, column 5 is filled and ghost. -/
theorem trace_values :
    Option.map (fun gs => gs.Phase) traceSpawned = some phase_Falling ∧
    Option.map (fun gs => ((gs.Board 0 5).IsFilled, (gs.Board 0 5).IsGhost)) traceLocked
      = some (true, true) := by
  decide

/-- C17 fails as stated: the state reached from a new game by the spawn of the
first piece, a hard drop and the lock has a board cell (row 0, column 5) that
is at the same time filled and ghost. -/
theorem C17_locked_cell_filled_and_ghost :
    ∃ gs, Reachable gs ∧ (gs.Board 0 5).IsGhost = true ∧ (gs.Board 0 5).IsFilled = true := by
  have hv := trace_values.2
  cases ht : traceLocked with
  | none => rw [ht] at hv; exact absurd hv (by simp)
  | some gs =>
    rw [ht] at hv
    have hv' : ((gs.Board 0 5).IsFilled, (gs.Board 0 5).IsGhost) = (true, true) :=
      Option.some.inj hv
    obtain ⟨h1, h2⟩ := Prod.mk.inj hv'
    exact ⟨gs, reachable_traceLocked gs ht, h2, h1⟩

/-- The state after the spawn of the first piece of a new game is reachable and
in phase Falling: its active slot is occupied. -/
theorem C15_active_slot_invariant_witness :
    ∃ gs, traceSpawned = some gs ∧ gs.Phase = phase_Falling ∧
      ∃ t, gs.ActiveTetromino = some t := by
  have hv := trace_values.1
  cases ht : traceSpawned with
  | none => rw [ht] at hv; exact absurd hv (by simp)
  | some gs =>
    rw [ht] at hv
    have hp : gs.Phase = phase_Falling := Option.some.inj hv
    exact ⟨gs, rfl, hp,
      (C15_active_slot_invariant gs (reachable_traceSpawned gs ht)).1 (Or.inl hp)⟩

/-! ## The descent terminates -/

/-- The descent loop on any piece and any board, once the fuel exceeds the
number of rows: it returns the piece `k ≤ 40` steps down, every step made was
free, the next one collides, and no cell changed its `IsFilled`. -/
theorem hardDownLoop_descent (fuel : Nat) (hfuel : 41 ≤ fuel) (t : tetromino) (b : board) :
    ∃ (k : Nat) (b' : board), k ≤ 40 ∧ hardDownLoop fuel t b = some (t.downBy k, b') ∧
      (∀ j, 1 ≤ j → j ≤ k → (t.downBy j).CheckCollision b = some false) ∧
      (t.downBy (k + 1)).CheckCollision b = some true ∧
      ∀ y x, (b' y x).IsFilled = (b y x).IsFilled := by
  obtain ⟨fuel', rfl⟩ : ∃ f, fuel = f + 1 := ⟨fuel - 1, by omega⟩
  obtain ⟨d, hd, -⟩ := CheckCollision_spec t.down b
  cases d with
  | true =>
    refine ⟨0, b, by omega, hardDownLoop_stop fuel' t b hd, ?_, hd, fun _ _ => rfl⟩
    intro j h1 h2
    omega
  | false =>
    have hin : ∀ i, inGrid (t.down.absCell i) := fun i => (not_collides_cells _ b hd i).1
    obtain ⟨b1, hb1, hspec1⟩ := CommitTrailToBoard_spec t.down b hin
    have hfilled : ∀ y x, (b1 y x).IsFilled = (b y x).IsFilled := by
      intro y x
      rw [hspec1 y x]
      split_ifs
      · rfl
      · rfl
    have hd1 : t.down.CheckCollision b1 = some false := by
      rw [CheckCollision_filled_congr t.down b b1 hfilled]; exact hd
    have hy := (hin 0).2.2.2
    obtain ⟨k, b', hloop, hk, hfree, hstop, hboard⟩ :=
      hardDownLoop_spec fuel' t.down b1 hd1 (by omega)
    refine ⟨k + 1, b', by omega, ?_, ?_, ?_, ?_⟩
    · rw [hardDownLoop_go fuel' t b b1 hd hb1, hloop, downBy_succ_down]
    · intro j h1 h2
      obtain ⟨j', rfl⟩ : ∃ n, j = n + 1 := ⟨j - 1, by omega⟩
      rw [downBy_succ_down, ← CheckCollision_filled_congr _ b b1 hfilled]
      exact hfree j' (by omega)
    · rw [downBy_succ_down, ← CheckCollision_filled_congr _ b b1 hfilled]
      exact hstop
    · intro y x
      rw [hboard y x, ← hfilled y x]
      split_ifs
      · rfl
      · rfl

/-- C23: for every board and every piece (colliding or not, any `int32` origin
and offsets) the descent loop of `ActiveTetrominoHardDown` terminates once it
may run for more than 40 iterations: it makes `k ≤ boardCellsY = 40` downward
steps, each to a position that does not collide, the step after them collides,
and the operation returns the state with the piece `k` rows down. -/
theorem C23_descent_terminates (fuel : Nat) (hfuel : 41 ≤ fuel) (t : tetromino) (b : board) :
    ∃ (k : Nat) (b' : board), (k : Int) ≤ boardCellsY.val ∧
      hardDownLoop fuel t b = some (t.downBy k, b') ∧
      (∀ j, 1 ≤ j → j ≤ k → (t.downBy j).CheckCollision b = some false) ∧
      (t.downBy (k + 1)).CheckCollision b = some true ∧
      ∀ gs : gameState, gs.ActiveTetromino = some t → gs.Board = b →
        gs.ActiveTetrominoHardDown fuel =
          some { gs with ActiveTetromino := some (t.downBy k), Board := b' } := by
  obtain ⟨k, b', hk, hloop, hfree, hstop, -⟩ := hardDownLoop_descent fuel hfuel t b
  refine ⟨k, b', ?_, hloop, hfree, hstop, ?_⟩
  · rw [boardCellsY_val]; omega
  · intro gs ht hb
    subst hb
    simp only [gameState.ActiveTetrominoHardDown, ht, hloop]

/-- C23 at the I piece lying in row 40, just above the board (it collides at
the start), over the empty board, with fuel 41. -/
theorem C23_descent_terminates_witness :
    41 ≤ 41 ∧
    ∃ (k : Nat) (b' : board), (k : Int) ≤ boardCellsY.val ∧
      hardDownLoop 41 (pieceI 1 40) newBoard = some ((pieceI 1 40).downBy k, b') ∧
      (∀ j, 1 ≤ j → j ≤ k → ((pieceI 1 40).downBy j).CheckCollision newBoard = some false) ∧
      ((pieceI 1 40).downBy (k + 1)).CheckCollision newBoard = some true ∧
      ∀ gs : gameState, gs.ActiveTetromino = some (pieceI 1 40) → gs.Board = newBoard →
        gs.ActiveTetrominoHardDown 41 =
          some { gs with ActiveTetromino := some ((pieceI 1 40).downBy k), Board := b' } :=
  ⟨by decide, C23_descent_terminates 41 (by decide) (pieceI 1 40) newBoard⟩

set_option maxRecDepth 1000000 in
/-- The bound of 40 steps is attained: the I piece lying in row 40 collides at
the start and comes to rest in row 0 of the empty board, 40 rows down. -/
theorem hardDownLoop_forty_steps :
    (pieceI 1 40).CheckCollision newBoard = some true ∧
    Option.map (fun p => p.1.OriginY.val) (hardDownLoop 41 (pieceI 1 40) newBoard) = some 0 := by
  decide

/-! ## What one event in Falling does to the slots -/

/-- A move operation on a state with an active piece returns, and leaves one
of the outcomes of a Falling event. -/
theorem tryMove_outcome (gs : gameState) (t : tetromino) (move back : tetromino → tetromino)
    (hback : ∀ u, back (move u) = u) (hm : ∀ u : tetromino, u.movedOnce (move u))
    (ht : gs.ActiveTetromino = some t) (ev : Event) :
    ∃ d g, gs.tryMove move back = some (d, g) ∧ g.Phase = gs.Phase ∧
      fallingOutcome gs g t ev := by
  obtain ⟨d, hd, hop⟩ := tryMove_contract gs t move back hback ht
  cases d with
  | true =>
    refine ⟨true, gs, by simpa using hop, rfl, rfl, Or.inl ⟨rfl, rfl, t, ht, Or.inl rfl⟩⟩
  | false =>
    refine ⟨false, { gs with ActiveTetromino := some (move t) }, by simpa using hop, rfl, rfl,
      Or.inl ⟨rfl, rfl, move t, rfl, Or.inr ⟨hm t, hd⟩⟩⟩

/-- The outcome of a Falling event does not read the phase. -/
theorem fallingOutcome_phase (gs g : gameState) (t : tetromino) (ev : Event) (p : phase)
    (h : fallingOutcome gs g t ev) : fallingOutcome gs { g with Phase := p } t ev := h

/-- The hold on a state with an active piece returns, and leaves the third
outcome of a Falling event. -/
theorem hold_outcome (gs : gameState) (t : tetromino) (ht : gs.ActiveTetromino = some t)
    (ev : Event) (hev : ev.isHoldPress) :
    ∃ s g, gs.ActiveTetrominoHold = some (s, g) ∧ fallingOutcome gs g t ev := by
  cases hh : gs.HoldingTetromino with
  | none =>
    refine ⟨_, _, hold_empty gs t ht hh, rfl, Or.inr (Or.inr ⟨hev, rfl, rfl, ?_⟩)⟩
    rw [hh]; rfl
  | some h =>
    refine ⟨_, _, hold_occupied gs t h ht hh, rfl, Or.inr (Or.inr ⟨hev, rfl, rfl, ?_⟩)⟩
    rw [hh]; rfl

/-- The descent of a hard drop on a state with an active piece returns, given
fuel for 41 iterations, and leaves the second outcome of a Falling event. -/
theorem hardDown_outcome (fuel : Nat) (hfuel : 41 ≤ fuel) (gs : gameState) (t : tetromino)
    (ht : gs.ActiveTetromino = some t) (ev : Event) :
    ∃ g, gs.ActiveTetrominoHardDown fuel = some g ∧ fallingOutcome gs g t ev := by
  obtain ⟨r, hr⟩ := hardDownLoop_returns fuel hfuel t gs.Board
  obtain ⟨t', b'⟩ := r
  refine ⟨{ gs with ActiveTetromino := some t', Board := b' }, ?_, rfl,
    Or.inr (Or.inl ⟨rfl, fuel, t', hr, rfl⟩)⟩
  simp only [gameState.ActiveTetrominoHardDown, ht, hr]

theorem movedOnce_moves (u : tetromino) :
    u.movedOnce u.down ∧ u.movedOnce u.left ∧ u.movedOnce u.right ∧
      u.movedOnce u.RotateClockwise ∧ u.movedOnce u.RotateCounterClockwise :=
  ⟨Or.inl rfl, Or.inr (Or.inl rfl), Or.inr (Or.inr (Or.inl rfl)),
    Or.inr (Or.inr (Or.inr (Or.inl rfl))), Or.inr (Or.inr (Or.inr (Or.inr rfl)))⟩

/-- One event in Falling on a state with an active piece `t`, with fuel for 41
iterations of the descent: the handler returns and leaves one of the outcomes. -/
theorem fallingEvent_outcome_table (fuel : Nat) (hfuel : 41 ≤ fuel) (gs : gameState)
    (t : tetromino) (ht : gs.ActiveTetromino = some t) (ev : Event)
    (hacc : gs.tickerAccepts ev) :
    ∃ done gs', gs.fallingEvent fuel ev = some (done, gs') ∧ fallingOutcome gs gs' t ev := by
  obtain ⟨dD, gD, hD, -, oD⟩ := tryMove_outcome gs t tetromino.down tetromino.up down_up
    (fun u => (movedOnce_moves u).1) ht ev
  obtain ⟨dL, gL, hL, -, oL⟩ := tryMove_outcome gs t tetromino.left tetromino.right left_right
    (fun u => (movedOnce_moves u).2.1) ht ev
  obtain ⟨dR, gR, hR, -, oR⟩ := tryMove_outcome gs t tetromino.right tetromino.left right_left
    (fun u => (movedOnce_moves u).2.2.1) ht ev
  obtain ⟨dC, gC, hC, -, oC⟩ := tryMove_outcome gs t tetromino.RotateClockwise
    tetromino.RotateCounterClockwise rotate_cw_ccw (fun u => (movedOnce_moves u).2.2.2.1) ht ev
  obtain ⟨dCC, gCC, hCC, -, oCC⟩ := tryMove_outcome gs t tetromino.RotateCounterClockwise
    tetromino.RotateClockwise rotate_ccw_cw (fun u => (movedOnce_moves u).2.2.2.2) ht ev
  obtain ⟨gH, hH, oH⟩ := hardDown_outcome fuel hfuel gs t ht ev
  have oS : fallingOutcome gs gs t ev := ⟨rfl, Or.inl ⟨rfl, rfl, t, ht, Or.inl rfl⟩⟩
  cases ev with
  | dropTick =>
    cases dD with
    | true =>
      exact ⟨true, { gD with Phase := phase_Lock },
        by simp only [gameState.fallingEvent, gameState.ActiveTetrominoDown, hD], oD⟩
    | false =>
      exact ⟨false, gD,
        by simp only [gameState.fallingEvent, gameState.ActiveTetrominoDown, hD], oD⟩
  | input event =>
    obtain ⟨inp, act, key⟩ := event
    cases inp with
    | Input_Hold =>
      cases act with
      | Action_Down =>
        obtain ⟨s, gK, hK, oK⟩ := hold_outcome gs t ht
          (Event.input { Input := Input_Hold, Action := Action_Down, KeyCode := key })
          ⟨rfl, rfl⟩
        cases s with
        | true =>
          exact ⟨true, { gK with Phase := phase_Generation },
            by simp only [gameState.fallingEvent, hK, if_true], oK⟩
        | false =>
          exact ⟨false, gK, by simp only [gameState.fallingEvent, hK, if_true], oK⟩
      | Action_Up => exact ⟨false, gs, by simp [gameState.fallingEvent], oS⟩
      | Action_Hold => exact ⟨false, gs, by simp [gameState.fallingEvent], oS⟩
    | Input_Pause =>
      cases act with
      | Action_Up =>
        exact ⟨true, { gs with Phase := phase_Paused }, by simp [gameState.fallingEvent], oS⟩
      | Action_Down => exact ⟨false, gs, by simp [gameState.fallingEvent], oS⟩
      | Action_Hold => exact ⟨false, gs, by simp [gameState.fallingEvent], oS⟩
    | Input_SoftDrop =>
      exact ⟨false, gs, fallingEvent_softDrop_returns fuel gs act key hacc, oS⟩
    | Input_HardDrop =>
      cases act with
      | Action_Down =>
        exact ⟨true, { gH with Phase := phase_Lock },
          by simp only [gameState.fallingEvent, hH, if_true], oH⟩
      | Action_Up => exact ⟨false, gs, by simp [gameState.fallingEvent], oS⟩
      | Action_Hold => exact ⟨false, gs, by simp [gameState.fallingEvent], oS⟩
    | Input_MoveLeft =>
      cases act with
      | Action_Down =>
        exact ⟨false, gL,
          by simp only [gameState.fallingEvent, gameState.ActiveTetrominoLeft, hL, if_true], oL⟩
      | Action_Up => exact ⟨false, gs, by simp [gameState.fallingEvent], oS⟩
      | Action_Hold => exact ⟨false, gs, by simp [gameState.fallingEvent], oS⟩
    | Input_MoveRight =>
      cases act with
      | Action_Down =>
        exact ⟨false, gR,
          by simp only [gameState.fallingEvent, gameState.ActiveTetrominoRight, hR, if_true], oR⟩
      | Action_Up => exact ⟨false, gs, by simp [gameState.fallingEvent], oS⟩
      | Action_Hold => exact ⟨false, gs, by simp [gameState.fallingEvent], oS⟩
    | Input_RotateClockwise =>
      cases act with
      | Action_Down =>
        exact ⟨false, gC,
          by simp only [gameState.fallingEvent, gameState.ActiveTetrominoRotateClockwise, hC,
            if_true], oC⟩
      | Action_Up => exact ⟨false, gs, by simp [gameState.fallingEvent], oS⟩
      | Action_Hold => exact ⟨false, gs, by simp [gameState.fallingEvent], oS⟩
    | Input_RotateCounterClockwise =>
      cases act with
      | Action_Down =>
        exact ⟨false, gCC,
          by simp only [gameState.fallingEvent, gameState.ActiveTetrominoRotateCounterClockwise,
            hCC, if_true], oCC⟩
      | Action_Up => exact ⟨false, gs, by simp [gameState.fallingEvent], oS⟩
      | Action_Hold => exact ⟨false, gs, by simp [gameState.fallingEvent], oS⟩

/-- One event in Falling on a state with an active piece `t`, whatever the
fuel: when the handler returns, it leaves one of the outcomes. -/
theorem fallingEvent_outcome (fuel : Nat) (gs : gameState) (t : tetromino)
    (ht : gs.ActiveTetromino = some t) (ev : Event) (done : Bool) (gs' : gameState)
    (h : gs.fallingEvent fuel ev = some (done, gs')) : fallingOutcome gs gs' t ev := by
  obtain ⟨done2, gs2, h2, rest⟩ := fallingEvent_outcome_table (fuel + 41) (by omega) gs t ht ev
    (fallingEvent_accepts fuel gs ev (done, gs') h)
  have h' := fallingEvent_mono fuel gs ev (done, gs') h 41
  rw [h2] at h'
  have heq : (done2, gs2) = (done, gs') := Option.some.inj h'
  obtain ⟨rfl, rfl⟩ := Prod.mk.inj heq
  exact rest

/-! ## Non-collision of the active piece in Falling -/

/-- The descent loop started on a piece that does not collide returns a piece
that does not collide with the board it returns. -/
theorem hardDownLoop_free (fuel : Nat) (t t' : tetromino) (b b' : board)
    (h : hardDownLoop fuel t b = some (t', b')) (hc : t.CheckCollision b = some false) :
    t'.CheckCollision b' = some false := by
  obtain ⟨k, b2, -, hloop, hfree, -, hfilled⟩ := hardDownLoop_descent (fuel + 41) (by omega) t b
  have h2 := hardDownLoop_mono fuel t b (t', b') h 41
  rw [hloop] at h2
  have heq : (t.downBy k, b2) = (t', b') := Option.some.inj h2
  obtain ⟨rfl, rfl⟩ := Prod.mk.inj heq
  rw [CheckCollision_filled_congr _ b b2 hfilled]
  cases k with
  | zero => exact hc
  | succ k => exact hfree (k + 1) (by omega) (le_refl _)

/-- After one event in Falling on a state whose active piece `t` does not
collide, the active piece (if any) does not collide either, unless the event
was a press of Hold on an occupied holding slot: then the active piece is the
piece that was held, at the spawn origin, on the same board. -/
theorem fallingOutcome_free (gs gs' : gameState) (t t' : tetromino) (ev : Event)
    (ho : fallingOutcome gs gs' t ev) (hc : t.CheckCollision gs.Board = some false)
    (ht' : gs'.ActiveTetromino = some t') :
    t'.CheckCollision gs'.Board = some false ∨
      (ev.isHoldPress ∧ gs'.Board = gs.Board ∧ ∃ h, gs.HoldingTetromino = some h ∧
        t' = h.movedTo tetrominoGenerateX tetrominoGenerateY) := by
  obtain ⟨-, ho⟩ := ho
  rcases ho with ⟨hb, -, u, hu, hcase⟩ | ⟨-, f, u, hloop, hu⟩ | ⟨hev, hb, -, ha⟩
  · rw [ht'] at hu
    have hu' : t' = u := Option.some.inj hu
    subst hu'
    rw [hb]
    rcases hcase with rfl | ⟨-, hfree⟩
    · exact Or.inl hc
    · exact Or.inl hfree
  · rw [ht'] at hu
    have hu' : t' = u := Option.some.inj hu
    subst hu'
    exact Or.inl (hardDownLoop_free f t t' gs.Board gs'.Board hloop hc)
  · cases hh : gs.HoldingTetromino with
    | none =>
      rw [hh, ht'] at ha
      exact absurd ha (by simp)
    | some h =>
      rw [hh, ht'] at ha
      exact Or.inr ⟨hev, hb, h, rfl, Option.some.inj ha⟩

set_option maxRecDepth 100000 in
/-- C21 breaks on the Hold with an occupied holding slot. Every other event of
the Falling handler keeps the active piece free of collision: for every state
whose active piece does not collide, after a drop tick or an input event that
is not a press of Hold on an occupied slot, the active piece, if still present,
does not collide with the board. But at `holdSwapState` (the O piece just
spawned at `(5, 20)`, a T piece held, column 4 filled up to row 20) the active
piece does not collide, and after a press of Hold the handler continues in
Falling with the T piece at `(5, 20)`, which collides: its cell `(4, 20)` is a
filled cell of the board. -/
theorem C21_hold_swap_skips_collision_check :
    (∀ (fuel : Nat) (gs gs' : gameState) (t t' : tetromino) (ev : Event) (done : Bool),
      gs.ActiveTetromino = some t → t.CheckCollision gs.Board = some false →
      gs.fallingEvent fuel ev = some (done, gs') → gs'.ActiveTetromino = some t' →
      ¬ (ev.isHoldPress ∧ gs.HoldingTetromino ≠ none) →
      t'.CheckCollision gs'.Board = some false) ∧
    holdSwapState.Phase = phase_Falling ∧
    holdSwapState.ActiveTetromino = some (pieceO 5 20) ∧
    (pieceO 5 20).CheckCollision holdSwapState.Board = some false ∧
    holdSwapState.fallingEvent 41 (Event.input holdPress) =
      some (false, { holdSwapState with
        ActiveTetromino := some (pieceT 5 20), HoldingTetromino := some (pieceO 2 2) }) ∧
    (pieceT 5 20).CheckCollision holdSwapState.Board = some true ∧
    ((pieceT 5 20).absCell 1).1.val = 4 ∧ ((pieceT 5 20).absCell 1).2.val = 20 ∧
    (holdSwapState.Board 20 4).IsFilled = true := by
  refine ⟨?_, rfl, rfl, by decide, ?_, by decide, by decide, by decide, by decide⟩
  · intro fuel gs gs' t t' ev done ht hc h ht' hnot
    have ho := fallingEvent_outcome fuel gs t ht ev done gs' h
    rcases fallingOutcome_free gs gs' t t' ev ho hc ht' with h1 | ⟨hev, -, u, hu, -⟩
    · exact h1
    · exact absurd ⟨hev, by rw [hu]; simp⟩ hnot
  · have e := hold_occupied holdSwapState (pieceO 5 20) (pieceT 2 2) rfl rfl
    simp only [gameState.fallingEvent, holdPress, if_true, e]
    rfl

/-! ## The slots along a run -/

/-- The factory sets the origin it is given and makes small offsets. -/
theorem NewRandomTetromino_shape (r : Int) (x y : I32) (t : tetromino)
    (h : NewRandomTetromino r x y = some t) :
    t.OriginX = x ∧ t.OriginY = y ∧ t.smallOffsets := by
  unfold NewRandomTetromino at h
  split_ifs at h <;>
    (have e := Option.some.inj h
     subst e
     refine ⟨rfl, rfl, ?_⟩
     intro i
     dsimp only
     fin_cases i <;> decide)

/-- The queue loop of `newGameState`: the entries at the indices listed come
from the factory, at the origin of their display slot; the others stay. -/
theorem newQueueLoop_spec (rs : Fin 5 → Int) :
    ∀ (l : List (Fin 5)) (q q' : Fin 5 → tetromino), newQueueLoop rs l q = some q' →
      ∀ i, (i ∈ l → NewRandomTetromino (rs i) tetrominoQueueX
          (I32.add tetrominoQueueY (I32.ofInt (i.val * 4))) = some (q' i)) ∧
        (i ∉ l → q' i = q i) := by
  intro l
  induction l with
  | nil =>
    intro q q' h i
    have e : q = q' := Option.some.inj h
    subst e
    exact ⟨fun hi => absurd hi (by simp), fun _ => rfl⟩
  | cons j l ih =>
    intro q q' h i
    unfold newQueueLoop at h
    cases hf : NewRandomTetromino (rs j) tetrominoQueueX
        (I32.add tetrominoQueueY (I32.ofInt (j.val * 4))) with
    | none => simp only [hf] at h; exact absurd h (by simp)
    | some t =>
      simp only [hf] at h
      obtain ⟨h1, h2⟩ := ih (Function.update q j t) q' h i
      by_cases hil : i ∈ l
      · exact ⟨fun _ => h1 hil, fun hn => absurd (List.mem_cons_of_mem j hil) hn⟩
      · refine ⟨fun hi => ?_, fun hn => ?_⟩
        · have hij : i = j := by
            rcases List.mem_cons.mp hi with h3 | h3
            · exact h3
            · exact absurd h3 hil
          subst hij
          rw [h2 hil, Function.update_same]
          exact hf
        · have hij : i ≠ j := fun e => hn (by rw [e]; exact List.mem_cons_self j l)
          rw [h2 hil, Function.update_noteq hij]

/-- Every queue entry of a new game comes from the factory, at the origin of
its display slot. -/
theorem newGameState_queue (rs : Fin 5 → Int) (gs : gameState) (h : newGameState rs = some gs)
    (i : Fin 5) :
    NewRandomTetromino (rs i) tetrominoQueueX
      (I32.add tetrominoQueueY (I32.ofInt (i.val * 4))) = some (gs.TetrominoQueue i) := by
  unfold newGameState at h
  cases hq : newQueueLoop rs [0, 1, 2, 3, 4] (fun _ => zeroTetromino) with
  | none => simp only [hq] at h; exact absurd h (by simp)
  | some q =>
    simp only [hq] at h
    have e := Option.some.inj h
    subst e
    refine (newQueueLoop_spec rs _ _ q hq i).1 ?_
    fin_cases i <;> simp

/-- What `GenerationPhase` leaves in the slots, whenever it returns. -/
theorem GenerationPhase_slots (gs gs' : gameState) (r : Int)
    (h : gs.GenerationPhase r = some gs') :
    ∃ fresh, NewRandomTetromino r tetrominoQueueX tetrominoQueueY = some fresh ∧
      gs'.ActiveTetromino =
        some ((gs.TetrominoQueue 4).movedTo tetrominoGenerateX tetrominoGenerateY) ∧
      gs'.HoldingTetromino = gs.HoldingTetromino ∧
      gs'.TetrominoQueue = Function.update (queueShift gs.TetrominoQueue) 0 fresh := by
  obtain ⟨c, hc, -⟩ := CheckCollision_spec
    ((gs.TetrominoQueue 4).movedTo tetrominoGenerateX tetrominoGenerateY) gs.Board
  cases hf : NewRandomTetromino r tetrominoQueueX tetrominoQueueY with
  | none =>
    have hnone : gs.GenerationPhase r = none := by
      unfold tetromino.movedTo at hc
      simp only [gameState.GenerationPhase, hc, hf]
    rw [hnone] at h
    exact absurd h (by simp)
  | some fresh =>
    rw [GenerationPhase_eq gs r c fresh hc hf] at h
    have := Option.some.inj h
    subst this
    exact ⟨fresh, rfl, rfl, rfl, rfl⟩

/-- The queue after `GenerationPhase`, entry by entry. -/
theorem generation_queue (q : Fin 5 → tetromino) (fresh : tetromino) :
    Function.update (queueShift q) 0 fresh 0 = fresh ∧
    ∀ i : Fin 4, Function.update (queueShift q) 0 fresh i.succ = (q i.castSucc).queueUp := by
  obtain ⟨-, q1, q2, q3, q4⟩ := queueShift_spec q
  refine ⟨by simp, ?_⟩
  intro i
  fin_cases i
  · simpa [Function.update] using q1
  · simpa [Function.update] using q2
  · simpa [Function.update] using q3
  · simpa [Function.update] using q4

/-- A turn of the Falling handler is one event of it. -/
theorem runStep_falling_event (fuel : Nat) (gs gs' : gameState) (r : Int) (ev : Event)
    (hp : gs.Phase = phase_Falling) (h : gs.runStep fuel r ev = some gs') :
    ∃ done, gs.fallingEvent fuel ev = some (done, gs') := by
  rw [runStep_falling fuel gs r ev hp (runStep_falling_ticker fuel gs gs' r ev hp h)] at h
  cases hf : gs.fallingEvent fuel ev with
  | none => rw [hf] at h; exact absurd h (by simp)
  | some p =>
    rw [hf] at h
    obtain ⟨done, g⟩ := p
    have e : g = gs' := Option.some.inj h
    subst e
    exact ⟨done, rfl⟩

/-- Without an active piece the Falling handler returns only on the events it
ignores and on the release of Pause: the state stays, but for the phase. -/
theorem fallingEvent_no_piece (fuel : Nat) (gs gs' : gameState) (ev : Event) (done : Bool)
    (ha : gs.ActiveTetromino = none) (h : gs.fallingEvent fuel ev = some (done, gs')) :
    gs' = gs ∨ gs' = { gs with Phase := phase_Paused } := by
  cases ev with
  | dropTick =>
    simp [gameState.fallingEvent, gameState.ActiveTetrominoDown, gameState.tryMove, ha] at h
  | input event =>
    obtain ⟨inp, act, key⟩ := event
    by_cases hsoft : inp = Input_SoftDrop
    · subst hsoft
      exact Or.inl (fallingEvent_softDrop_some fuel gs gs' act key done h).2.1
    · cases inp <;> cases act <;> first
        | exact absurd rfl hsoft
        | (simp [gameState.fallingEvent, gameState.ActiveTetrominoLeft,
            gameState.ActiveTetrominoRight, gameState.ActiveTetrominoRotateClockwise,
            gameState.ActiveTetrominoRotateCounterClockwise, gameState.ActiveTetrominoHold,
            gameState.ActiveTetrominoHardDown, gameState.tryMove, ha] at h <;>
           (obtain ⟨-, rfl⟩ := h; simp [ha]))

/-- One event of the Falling handler leaves the queue as it is. -/
theorem fallingEvent_queue (fuel : Nat) (gs gs' : gameState) (ev : Event) (done : Bool)
    (h : gs.fallingEvent fuel ev = some (done, gs')) :
    gs'.TetrominoQueue = gs.TetrominoQueue := by
  cases ha : gs.ActiveTetromino with
  | none =>
    rcases fallingEvent_no_piece fuel gs gs' ev done ha h with rfl | rfl <;> rfl
  | some t => exact (fallingEvent_outcome fuel gs t ha ev done gs' h).1

/-- A turn in a phase other than Generation and Falling leaves the queue and
the holding slot as they are, and the active slot as it is or empty. -/
theorem runStep_other_slots (fuel : Nat) (gs gs' : gameState) (r : Int) (ev : Event)
    (h : gs.runStep fuel r ev = some gs') (hg : gs.Phase ≠ phase_Generation)
    (hf : gs.Phase ≠ phase_Falling) :
    gs'.TetrominoQueue = gs.TetrominoQueue ∧ gs'.HoldingTetromino = gs.HoldingTetromino ∧
      (gs'.ActiveTetromino = gs.ActiveTetromino ∨ gs'.ActiveTetromino = none) := by
  cases hq : gs.Phase with
  | phase_Generation => exact absurd hq hg
  | phase_Falling => exact absurd hq hf
  | phase_Lock =>
    rw [runStep_lock fuel gs r ev hq] at h
    unfold gameState.LockPhase at h
    cases ha : gs.ActiveTetromino with
    | none => simp only [ha] at h; exact absurd h (by simp)
    | some t =>
      simp only [ha] at h
      cases hb : t.CommitToBoard gs.Board with
      | none => simp only [hb] at h; exact absurd h (by simp)
      | some b =>
        simp only [hb] at h
        have e := Option.some.inj h
        subst e
        exact ⟨rfl, rfl, Or.inr rfl⟩
  | phase_Completion =>
    rw [runStep_completion fuel gs r ev hq] at h
    have e := Option.some.inj h
    subst e
    obtain ⟨-, h1, h2, h3⟩ := CompletionPhase_frame gs
    exact ⟨h3, h2, Or.inl h1⟩
  | phase_Paused =>
    cases ev with
    | dropTick =>
      rw [(runStep_paused fuel gs r ⟨Input_Pause, Action_Up, I32.ofInt 0⟩ hq).2] at h
      have e := Option.some.inj h
      subst e
      exact ⟨rfl, rfl, Or.inl rfl⟩
    | input event =>
      rw [(runStep_paused fuel gs r event hq).1] at h
      have e := Option.some.inj h
      subst e
      unfold gameState.pausedEvent
      split_ifs
      · exact ⟨rfl, rfl, Or.inl rfl⟩
      · exact ⟨rfl, rfl, Or.inl rfl⟩
  | phase_GameOver =>
    cases ev with
    | dropTick =>
      rw [(runStep_gameOver fuel gs r ⟨Input_Pause, Action_Up, I32.ofInt 0⟩ hq).2] at h
      have e := Option.some.inj h
      subst e
      exact ⟨rfl, rfl, Or.inl rfl⟩
    | input event =>
      rw [(runStep_gameOver fuel gs r event hq).1] at h
      have e := Option.some.inj h
      subst e
      exact ⟨rfl, rfl, Or.inl rfl⟩
  | phase_End =>
    rw [runStep_end fuel gs r ev hq] at h
    have e := Option.some.inj h
    subst e
    exact ⟨rfl, rfl, Or.inl rfl⟩

/-- A turn in a phase other than Generation leaves the queue as it is. -/
theorem runStep_queue (fuel : Nat) (gs gs' : gameState) (r : Int) (ev : Event)
    (h : gs.runStep fuel r ev = some gs') (hg : gs.Phase ≠ phase_Generation) :
    gs'.TetrominoQueue = gs.TetrominoQueue := by
  by_cases hf : gs.Phase = phase_Falling
  · obtain ⟨done, hd⟩ := runStep_falling_event fuel gs gs' r ev hf h
    exact fallingEvent_queue fuel gs gs' ev done hd
  · exact (runStep_other_slots fuel gs gs' r ev h hg hf).1

/-! ## Board indexing stays in range -/

/-- A piece with small offsets at the spawn origin lies inside the grid. -/
theorem spawn_inGrid (t : tetromino) (h : t.smallOffsets) (i : Fin 4) :
    inGrid ((t.movedTo tetrominoGenerateX tetrominoGenerateY).absCell i) := by
  obtain ⟨h1, h2, h3, h4⟩ := h i
  obtain ⟨-, -, hx, hy⟩ := origin_constants
  simp only [inGrid, tetromino.absCell, tetromino.movedTo, I32.add, I32.ofInt, wrap32]
  rw [hx, hy]
  omega

/-- The five trial moves keep the offsets small. -/
theorem movedOnce_small (t t' : tetromino) (h : t.movedOnce t') (hs : t.smallOffsets) :
    t'.smallOffsets := by
  rcases h with rfl | rfl | rfl | rfl | rfl
  · exact hs
  · exact hs
  · exact hs
  · intro i
    obtain ⟨h1, h2, h3, h4⟩ := hs i
    rw [RotateClockwise_cells]
    have hn := I32.neg_val (t.cells i).1 (by omega)
    dsimp only
    omega
  · intro i
    obtain ⟨h1, h2, h3, h4⟩ := hs i
    rw [RotateCounterClockwise_cells]
    have hn := I32.neg_val (t.cells i).2 (by omega)
    dsimp only
    omega

/-- The piece the descent loop returns has the offsets it started with, and it
is the piece it started with or lies inside the grid. -/
theorem hardDownLoop_piece (fuel : Nat) (t t' : tetromino) (b b' : board)
    (h : hardDownLoop fuel t b = some (t', b')) :
    t'.cells = t.cells ∧ (t' = t ∨ ∀ i, inGrid (t'.absCell i)) := by
  obtain ⟨k, b2, -, hloop, hfree, -, -⟩ := hardDownLoop_descent (fuel + 41) (by omega) t b
  have h2 := hardDownLoop_mono fuel t b (t', b') h 41
  rw [hloop] at h2
  have heq : (t.downBy k, b2) = (t', b') := Option.some.inj h2
  obtain ⟨rfl, rfl⟩ := Prod.mk.inj heq
  refine ⟨(downBy_fields t k).2.1, ?_⟩
  cases k with
  | zero => exact Or.inl rfl
  | succ k =>
    exact Or.inr fun i => (not_collides_cells _ b (hfree (k + 1) (by omega) (le_refl _)) i).1

/-- One event of the Falling handler keeps the pieces of the slots fitting the
grid. -/
theorem fallingOutcome_slots (gs gs' : gameState) (t : tetromino) (ev : Event)
    (ho : fallingOutcome gs gs' t ev) (ht : gs.ActiveTetromino = some t)
    (hinv : slotsInGrid gs) : slotsInGrid gs' := by
  obtain ⟨hA, hH, hQ⟩ := hinv
  obtain ⟨hts, htg⟩ := hA t ht
  obtain ⟨hq, ho⟩ := ho
  rcases ho with ⟨-, hh, u, hu, hcase⟩ | ⟨hh, f, u, hloop, hu⟩ | ⟨-, -, hh, ha⟩
  · refine ⟨fun t' ht' => ?_, fun h hh' => hH h (by rw [← hh]; exact hh'),
      fun i => by rw [hq]; exact hQ i⟩
    rw [hu] at ht'
    have e : u = t' := Option.some.inj ht'
    subst e
    rcases hcase with rfl | ⟨hm, hfree⟩
    · exact ⟨hts, htg⟩
    · exact ⟨movedOnce_small t u hm hts, fun i => (not_collides_cells u gs.Board hfree i).1⟩
  · refine ⟨fun t' ht' => ?_, fun h hh' => hH h (by rw [← hh]; exact hh'),
      fun i => by rw [hq]; exact hQ i⟩
    rw [hu] at ht'
    have e : u = t' := Option.some.inj ht'
    subst e
    obtain ⟨hc, hpos⟩ := hardDownLoop_piece f t u gs.Board gs'.Board hloop
    refine ⟨fun i => by rw [hc]; exact hts i, ?_⟩
    rcases hpos with rfl | hin
    · exact htg
    · exact hin
  · refine ⟨fun t' ht' => ?_, fun h hh' => ?_, fun i => by rw [hq]; exact hQ i⟩
    · rw [ht'] at ha
      cases hold : gs.HoldingTetromino with
      | none => rw [hold] at ha; exact absurd ha (by simp)
      | some h =>
        rw [hold] at ha
        have e : t' = h.movedTo tetrominoGenerateX tetrominoGenerateY := Option.some.inj ha
        subst e
        exact ⟨hH h hold, spawn_inGrid h (hH h hold)⟩
    · rw [hh] at hh'
      have e : t.movedTo tetrominoHoldingX tetrominoHoldingY = h := Option.some.inj hh'
      subst e
      exact hts

/-- One turn of the simulation task keeps the pieces of the slots fitting the
grid. -/
theorem runStep_slotsInGrid (fuel : Nat) (gs gs' : gameState) (r : Int) (ev : Event)
    (h : gs.runStep fuel r ev = some gs') (hinv : slotsInGrid gs) : slotsInGrid gs' := by
  by_cases hg : gs.Phase = phase_Generation
  · rw [runStep_generation fuel gs r ev hg] at h
    obtain ⟨fresh, hf, hact, hh, hq⟩ := GenerationPhase_slots gs gs' r h
    obtain ⟨-, -, hfs⟩ := NewRandomTetromino_shape _ _ _ _ hf
    obtain ⟨hA, hH, hQ⟩ := hinv
    refine ⟨fun t' ht' => ?_, fun h hh' => hH h (by rw [← hh]; exact hh'), fun i => ?_⟩
    · rw [hact] at ht'
      have e := Option.some.inj ht'
      subst e
      exact ⟨hQ 4, spawn_inGrid _ (hQ 4)⟩
    · rw [hq]
      refine Fin.cases ?_ (fun j => ?_) i
      · rw [(generation_queue _ _).1]; exact hfs
      · rw [(generation_queue _ _).2 j]; exact hQ j.castSucc
  · by_cases hf : gs.Phase = phase_Falling
    · obtain ⟨done, hd⟩ := runStep_falling_event fuel gs gs' r ev hf h
      cases ha : gs.ActiveTetromino with
      | none =>
        rcases fallingEvent_no_piece fuel gs gs' ev done ha hd with rfl | rfl
        · exact hinv
        · exact hinv
      | some t =>
        exact fallingOutcome_slots gs gs' t ev (fallingEvent_outcome fuel gs t ha ev done gs' hd)
          ha hinv
    · obtain ⟨hq, hh, ha⟩ := runStep_other_slots fuel gs gs' r ev h hg hf
      obtain ⟨hA, hH, hQ⟩ := hinv
      refine ⟨fun t' ht' => ?_, fun h hh' => hH h (by rw [← hh]; exact hh'),
        fun i => by rw [hq]; exact hQ i⟩
      rcases ha with ha | ha
      · exact hA t' (by rw [← ha]; exact ht')
      · rw [ha] at ht'; exact absurd ht' (by simp)

/-- In every reachable state the pieces of the slots fit the grid. -/
theorem reachable_slotsInGrid (gs : gameState) (h : Reachable gs) : slotsInGrid gs := by
  induction h with
  | init rs gs h0 =>
    obtain ⟨-, ha, hh, -⟩ := newGameState_fields rs gs h0
    refine ⟨fun t ht => ?_, fun h hh' => ?_, fun i => ?_⟩
    · rw [ha] at ht; exact absurd ht (by simp)
    · rw [hh] at hh'; exact absurd hh' (by simp)
    · exact (NewRandomTetromino_shape _ _ _ _ (newGameState_queue rs gs h0 i)).2.2
  | step fuel r ev gs gs' _ hstep ih => exact runStep_slotsInGrid fuel gs gs' r ev hstep ih
  | trailTimer gs _ ih => exact ih

/-- C22: board indexing is always in range. The iterator of `CheckCollision`
answers `true` without reading the board when `(x, y)` is outside the grid, and
reads the cell, which exists, when it is inside, so `CheckCollision` returns
on every piece and board; a read outside the grid would be the panic.
`CommitTrailToBoard` returns on every position that passed `CheckCollision`,
so the descent loop of `ActiveTetrominoHardDown`, which calls it on such
positions only, returns once its fuel exceeds the number of rows. And in every
state reachable from `newGameState` whose phase is Lock the active piece is
present with its four absolute cells inside the grid, and `LockPhase` returns:
`CommitToBoard` does not index outside the board. -/
theorem C22_board_indexing_in_range :
    (∀ (x y : I32) (b : board), ¬ inGrid (x, y) →
      b.at? y x = none ∧ checkCollisionVisit x y b = some (true, b)) ∧
    (∀ (x y : I32) (b : board), inGrid (x, y) →
      ∃ c, b.at? y x = some c ∧ checkCollisionVisit x y b = some (c.IsFilled, b)) ∧
    (∀ (t : tetromino) (b : board), ∃ r, t.CheckCollision b = some r) ∧
    (∀ (t : tetromino) (b : board), t.CheckCollision b = some false →
      (∀ i, inGrid (t.absCell i)) ∧ ∃ b', t.CommitTrailToBoard b = some b') ∧
    (∀ (fuel : Nat) (t : tetromino) (b : board), 41 ≤ fuel →
      ∃ r, hardDownLoop fuel t b = some r) ∧
    (∀ gs, Reachable gs → gs.Phase = phase_Lock →
      ∃ t, gs.ActiveTetromino = some t ∧ (∀ i, inGrid (t.absCell i)) ∧
        ∃ gs', gs.LockPhase = some gs') := by
  refine ⟨?_, ?_, ?_, ?_, ?_, ?_⟩
  · intro x y b hout
    have hout' : ¬ (0 ≤ y.val ∧ y.val < 40 ∧ 0 ≤ x.val ∧ x.val < 10) := by
      intro h
      exact hout ⟨h.2.2.1, h.2.2.2, h.1, h.2.1⟩
    refine ⟨by simp only [board.at?, dif_neg hout'], ?_⟩
    unfold checkCollisionVisit
    rw [boardCellsX_val, boardCellsY_val, if_pos]
    unfold inGrid at hout
    dsimp only at hout
    have : x.val < 0 ∨ x.val ≥ 10 ∨ y.val < 0 ∨ y.val ≥ 40 := by omega
    simpa [or_assoc] using this
  · intro x y b hin
    obtain ⟨h1, h2, h3, h4⟩ := hin
    dsimp only at h1 h2 h3 h4
    have hin' : 0 ≤ y.val ∧ y.val < 40 ∧ 0 ≤ x.val ∧ x.val < 10 := ⟨h3, h4, h1, h2⟩
    refine ⟨_, at?_of_inGrid b y x hin', ?_⟩
    unfold checkCollisionVisit
    rw [boardCellsX_val, boardCellsY_val, if_neg, at?_of_inGrid b y x hin']
    have : ¬ (x.val < 0 ∨ x.val ≥ 10 ∨ y.val < 0 ∨ y.val ≥ 40) := by omega
    simpa [or_assoc] using this
  · intro t b
    obtain ⟨r, hr, -⟩ := CheckCollision_spec t b
    exact ⟨r, hr⟩
  · intro t b hc
    have hin : ∀ i, inGrid (t.absCell i) := fun i => (not_collides_cells t b hc i).1
    obtain ⟨b', hb', -⟩ := CommitTrailToBoard_spec t b hin
    exact ⟨hin, b', hb'⟩
  · intro fuel t b hfuel
    exact hardDownLoop_returns fuel hfuel t b
  · intro gs hr hp
    obtain ⟨t, ht⟩ := (reachable_active_slot gs hr).1 (Or.inr (Or.inl hp))
    obtain ⟨-, hin⟩ := (reachable_slotsInGrid gs hr).1 t ht
    obtain ⟨b', hb', -⟩ := CommitToBoard_spec t gs.Board hin
    refine ⟨t, ht, hin, ?_⟩
    simp only [gameState.LockPhase, ht, hb']
    exact ⟨_, rfl⟩

set_option maxRecDepth 1000000 in
/-- The run evaluated: after the hard drop of the first piece the phase is Lock. -/
theorem trace_dropped_phase :
    Option.map (fun gs => gs.Phase) traceDropped = some phase_Lock := by
  decide

/-- C22 at the state a new game reaches by the spawn and the hard drop of its
first piece: the phase is Lock, the active piece lies inside the grid and
`LockPhase` returns. -/
theorem C22_board_indexing_in_range_witness :
    ∃ gs, traceDropped = some gs ∧ gs.Phase = phase_Lock ∧
      ∃ t, gs.ActiveTetromino = some t ∧ (∀ i, inGrid (t.absCell i)) ∧
        ∃ gs', gs.LockPhase = some gs' := by
  have hv := trace_dropped_phase
  cases ht : traceDropped with
  | none => rw [ht] at hv; exact absurd hv (by simp)
  | some gs =>
    rw [ht] at hv
    have hp : gs.Phase = phase_Lock := Option.some.inj hv
    exact ⟨gs, rfl, hp,
      C22_board_indexing_in_range.2.2.2.2.2 gs (reachable_traceDropped gs ht) hp⟩

/-! ## The queue is first in, first out -/

theorem queue_constants : tetrominoQueueX.val = 2 ∧ tetrominoQueueY.val = 1 := by decide

/-- The queue after `GenerationPhase` sits in the display slots when the queue
before did and the fresh piece is at the origin of slot 0. -/
theorem queueInSlots_generation (q : Fin 5 → tetromino) (fresh : tetromino)
    (hq : queueInSlots q) (hx : fresh.OriginX = tetrominoQueueX)
    (hy : fresh.OriginY = tetrominoQueueY) :
    queueInSlots (Function.update (queueShift q) 0 fresh) := by
  obtain ⟨g0, gs⟩ := generation_queue q fresh
  obtain ⟨cx, cy⟩ := queue_constants
  intro i
  refine Fin.cases ?_ (fun j => ?_) i
  · rw [g0, hx, hy]
    exact ⟨rfl, by simp⟩
  · rw [gs j]
    obtain ⟨h1, h2⟩ := hq j.castSucc
    refine ⟨h1, ?_⟩
    have hj := j.isLt
    have hv : (j.castSucc : Fin 5).val = j.val := rfl
    have hs : (j.succ : Fin 5).val = j.val + 1 := rfl
    rw [hv] at h2
    rw [hs]
    show (I32.add (q j.castSucc).OriginY (I32.ofInt 4)).val = _
    simp only [I32.add, I32.ofInt, wrap32]
    rw [h2, cy]
    push_cast
    omega

/-- In every reachable state the queue entries sit in their display slots. -/
theorem reachable_queueInSlots (gs : gameState) (h : Reachable gs) :
    queueInSlots gs.TetrominoQueue := by
  induction h with
  | init rs gs h0 =>
    intro i
    obtain ⟨hx, hy, -⟩ := NewRandomTetromino_shape _ _ _ _ (newGameState_queue rs gs h0 i)
    obtain ⟨cx, cy⟩ := queue_constants
    rw [hx, hy]
    refine ⟨rfl, ?_⟩
    have hi := i.isLt
    simp only [I32.add, I32.ofInt, wrap32]
    rw [cy]
    omega
  | step fuel r ev gs gs' _ hstep ih =>
    by_cases hg : gs.Phase = phase_Generation
    · rw [runStep_generation fuel gs r ev hg] at hstep
      obtain ⟨fresh, hf, -, -, hq⟩ := GenerationPhase_slots gs gs' r hstep
      obtain ⟨hx, hy, -⟩ := NewRandomTetromino_shape _ _ _ _ hf
      rw [hq]
      exact queueInSlots_generation gs.TetrominoQueue fresh ih hx hy
    · rw [runStep_queue fuel gs gs' r ev hstep hg]
      exact ih
  | trailTimer gs _ ih => exact ih

/-- One run of `GenerationPhase`, seen from the queue. -/
theorem generationStep_spec (q q' : Fin 5 → tetromino) (active fresh : tetromino)
    (h : generationStep q q' active fresh) :
    q' 0 = fresh ∧ (∀ i : Fin 4, q' i.succ = (q i.castSucc).queueUp) ∧
      active = (q 4).movedTo tetrominoGenerateX tetrominoGenerateY := by
  obtain ⟨gs, gs', r, rfl, hgen, rfl, ha, hf⟩ := h
  obtain ⟨fresh2, hf2, hact, -, hq⟩ := GenerationPhase_slots gs gs' r hgen
  rw [hf] at hf2
  have e : fresh = fresh2 := Option.some.inj hf2
  subst e
  rw [ha] at hact
  rw [hq]
  exact ⟨(generation_queue _ _).1, (generation_queue _ _).2, Option.some.inj hact⟩

/-- C24 (amended): the queue has fixed display slots and is a FIFO from index
0 to index 4. In every state reachable from `newGameState` (so after
`newGameState` and after every `GenerationPhase`) the queue entry at index `i`
has the origin `(tetrominoQueueX, tetrominoQueueY + 4 * i) = (2, 1 + 4 * i)`.
Whenever `GenerationPhase` returns, the entry that was at index 4 is the active
piece (same offsets and colour), the piece the factory made is at index 0, and
the entry that was at index `i ≤ 3` is at index `i + 1` with its offsets and
colour unchanged; it returns for every selector in `0..6`. A turn in any other
phase and the trail timer leave the queue as it is. So of any six runs of
`GenerationPhase` in a row the first five make active the entries the queue had
before them in the order of the indices 4, 3, 2, 1, 0 (for a new game: the five
pieces of `newGameState`, the one generated last first), and the sixth makes
active the piece the first run generated: the pieces `GenerationPhase`
generates become active in the order they were generated, after the pieces the
queue held. -/
theorem C24_queue_is_fifo :
    (∀ gs, Reachable gs → ∀ i : Fin 5,
      (gs.TetrominoQueue i).OriginX = tetrominoQueueX ∧
      (gs.TetrominoQueue i).OriginY.val = tetrominoQueueY.val + 4 * i.val ∧
      (gs.TetrominoQueue i).OriginX.val = 2 ∧
      (gs.TetrominoQueue i).OriginY.val = 1 + 4 * i.val) ∧
    (∀ (gs gs' : gameState) (r : Int), gs.GenerationPhase r = some gs' →
      ∃ active fresh, gs'.ActiveTetromino = some active ∧
        active.cells = (gs.TetrominoQueue 4).cells ∧
        active.color = (gs.TetrominoQueue 4).color ∧
        NewRandomTetromino r tetrominoQueueX tetrominoQueueY = some fresh ∧
        gs'.TetrominoQueue 0 = fresh ∧
        ∀ i : Fin 4,
          (gs'.TetrominoQueue i.succ).cells = (gs.TetrominoQueue i.castSucc).cells ∧
          (gs'.TetrominoQueue i.succ).color = (gs.TetrominoQueue i.castSucc).color) ∧
    (∀ (gs : gameState) (r : Int), 0 ≤ r → r ≤ 6 → ∃ gs', gs.GenerationPhase r = some gs') ∧
    (∀ (fuel : Nat) (gs gs' : gameState) (r : Int) (ev : Event),
      gs.runStep fuel r ev = some gs' → gs.Phase ≠ phase_Generation →
      gs'.TetrominoQueue = gs.TetrominoQueue) ∧
    (∀ gs : gameState, gs.clearTrail.TetrominoQueue = gs.TetrominoQueue) ∧
    (∀ (q0 q1 q2 q3 q4 q5 q6 : Fin 5 → tetromino) (a1 a2 a3 a4 a5 a6 : tetromino)
      (f1 f2 f3 f4 f5 f6 : tetromino),
      generationStep q0 q1 a1 f1 → generationStep q1 q2 a2 f2 → generationStep q2 q3 a3 f3 →
      generationStep q3 q4 a4 f4 → generationStep q4 q5 a5 f5 → generationStep q5 q6 a6 f6 →
      (a1.cells = (q0 4).cells ∧ a1.color = (q0 4).color) ∧
      (a2.cells = (q0 3).cells ∧ a2.color = (q0 3).color) ∧
      (a3.cells = (q0 2).cells ∧ a3.color = (q0 2).color) ∧
      (a4.cells = (q0 1).cells ∧ a4.color = (q0 1).color) ∧
      (a5.cells = (q0 0).cells ∧ a5.color = (q0 0).color) ∧
      (a6.cells = f1.cells ∧ a6.color = f1.color)) := by
  refine ⟨?_, ?_, ?_, ?_, fun _ => rfl, ?_⟩
  · intro gs h i
    obtain ⟨h1, h2⟩ := reachable_queueInSlots gs h i
    obtain ⟨cx, cy⟩ := queue_constants
    refine ⟨I32.eq_of_val_eq h1, h2, ?_, ?_⟩
    · rw [h1, cx]
    · rw [h2, cy]
  · intro gs gs' r h
    obtain ⟨fresh, hf, hact, -, hq⟩ := GenerationPhase_slots gs gs' r h
    refine ⟨_, fresh, hact, rfl, rfl, hf, ?_, ?_⟩
    · rw [hq]; exact (generation_queue _ _).1
    · intro i
      rw [hq, (generation_queue _ _).2 i]
      exact ⟨rfl, rfl⟩
  · intro gs r h0 h6
    obtain ⟨gs', -, h, -⟩ := GenerationPhase_queue gs r h0 h6
    exact ⟨gs', h⟩
  · intro fuel gs gs' r ev h hg
    exact runStep_queue fuel gs gs' r ev h hg
  · intro q0 q1 q2 q3 q4 q5 q6 a1 a2 a3 a4 a5 a6 f1 f2 f3 f4 f5 f6 s1 s2 s3 s4 s5 s6
    obtain ⟨e1, u1, c1⟩ := generationStep_spec _ _ _ _ s1
    obtain ⟨-, u2, c2⟩ := generationStep_spec _ _ _ _ s2
    obtain ⟨-, u3, c3⟩ := generationStep_spec _ _ _ _ s3
    obtain ⟨-, u4, c4⟩ := generationStep_spec _ _ _ _ s4
    obtain ⟨-, u5, c5⟩ := generationStep_spec _ _ _ _ s5
    obtain ⟨-, -, c6⟩ := generationStep_spec _ _ _ _ s6
    have h11 : q1 1 = (q0 0).queueUp := u1 0
    have h12 : q1 2 = (q0 1).queueUp := u1 1
    have h13 : q1 3 = (q0 2).queueUp := u1 2
    have h14 : q1 4 = (q0 3).queueUp := u1 3
    have h21 : q2 1 = (q1 0).queueUp := u2 0
    have h22 : q2 2 = (q1 1).queueUp := u2 1
    have h23 : q2 3 = (q1 2).queueUp := u2 2
    have h24 : q2 4 = (q1 3).queueUp := u2 3
    have h32 : q3 2 = (q2 1).queueUp := u3 1
    have h33 : q3 3 = (q2 2).queueUp := u3 2
    have h34 : q3 4 = (q2 3).queueUp := u3 3
    have h43 : q4 3 = (q3 2).queueUp := u4 2
    have h44 : q4 4 = (q3 3).queueUp := u4 3
    have h54 : q5 4 = (q4 3).queueUp := u5 3
    refine ⟨?_, ?_, ?_, ?_, ?_, ?_⟩
    · rw [c1]; exact ⟨rfl, rfl⟩
    · rw [c2, h14]; exact ⟨rfl, rfl⟩
    · rw [c3, h24, h13]; exact ⟨rfl, rfl⟩
    · rw [c4, h34, h23, h12]; exact ⟨rfl, rfl⟩
    · rw [c5, h44, h33, h22, h11]; exact ⟨rfl, rfl⟩
    · rw [c6, h54, h43, h32, h21, e1]; exact ⟨rfl, rfl⟩

set_option maxRecDepth 100000 in
/-- The new game `countingStart` evaluated: the entries at index 0 and 4 of its
queue have the colours of the O piece and of selector 4, and its first turn
(`GenerationPhase`) makes a piece of the colour of selector 4 active. -/
theorem countingStart_values :
    Option.map (fun gs => ((gs.TetrominoQueue 0).color, (gs.TetrominoQueue 4).color))
      countingStart = some (oTetriminoColor, jTetriminoColor) ∧
    Option.map (fun gs => Option.map (fun a => a.color) gs.ActiveTetromino)
      (countingStart.bind fun gs => gs.runStep 41 0 Event.dropTick)
      = some (some jTetriminoColor) ∧
    oTetriminoColor ≠ jTetriminoColor := by
  decide

/-- C24 fails as stated: in the new game whose five selectors are 0, 1, 2, 3,
4 in the order `newGameState` draws them, the queue entry generated first (index
0, the O piece) and the one generated last (index 4, selector 4) differ, and
the first piece to become active is the one generated last. -/
theorem C24_last_generated_becomes_active_first :
    ∃ gs gs' a, countingStart = some gs ∧
      (∀ i : Fin 5, NewRandomTetromino (i.val : Int) tetrominoQueueX
        (I32.add tetrominoQueueY (I32.ofInt (i.val * 4))) = some (gs.TetrominoQueue i)) ∧
      gs.runStep 41 0 Event.dropTick = some gs' ∧ Reachable gs' ∧
      gs'.ActiveTetromino = some a ∧
      a.color = (gs.TetrominoQueue 4).color ∧ a.color ≠ (gs.TetrominoQueue 0).color := by
  obtain ⟨hA, hB, hne⟩ := countingStart_values
  cases h1 : countingStart with
  | none => rw [h1] at hA; exact absurd hA (by simp)
  | some gs =>
    rw [h1] at hA hB
    obtain ⟨c0, c4⟩ := Prod.mk.inj (Option.some.inj hA)
    cases h2 : gs.runStep 41 0 Event.dropTick with
    | none =>
      simp [h2] at hB
    | some gs' =>
      have hB' : Option.map (fun a => a.color) gs'.ActiveTetromino = some jTetriminoColor := by
        simpa [h2] using hB
      cases h3 : gs'.ActiveTetromino with
      | none => rw [h3] at hB'; exact absurd hB' (by simp)
      | some a =>
        rw [h3] at hB'
        have ca : a.color = jTetriminoColor := Option.some.inj hB'
        refine ⟨gs, gs', a, rfl, fun i => newGameState_queue _ gs h1 i, h2,
          Reachable.step 41 0 Event.dropTick gs gs' (Reachable.init _ gs h1) h2, h3, ?_, ?_⟩
        · rw [ca, c4]
        · rw [ca, c0]; exact fun h => hne h.symm

/-- C24 at the state a new game reaches by its first `GenerationPhase`: the
queue entries sit in their display slots. -/
theorem C24_queue_is_fifo_witness :
    ∃ gs, traceSpawned = some gs ∧ ∀ i : Fin 5,
      (gs.TetrominoQueue i).OriginX = tetrominoQueueX ∧
      (gs.TetrominoQueue i).OriginY.val = tetrominoQueueY.val + 4 * i.val ∧
      (gs.TetrominoQueue i).OriginX.val = 2 ∧
      (gs.TetrominoQueue i).OriginY.val = 1 + 4 * i.val := by
  have hv := trace_values.1
  cases ht : traceSpawned with
  | none => rw [ht] at hv; exact absurd hv (by simp)
  | some gs => exact ⟨gs, rfl, C24_queue_is_fifo.1 gs (reachable_traceSpawned gs ht)⟩

/-! ## The descent of a hard drop on the pieces of a game -/

/-- A piece with small offsets that does not collide has its origin row
between -2 and 41: no `int32` subtraction of a descent wraps around. -/
theorem originY_bounds (t : tetromino) (b : board) (hs : t.smallOffsets)
    (hc : t.CheckCollision b = some false) : -2 ≤ t.OriginY.val ∧ t.OriginY.val ≤ 41 := by
  obtain ⟨-, -, h3, h4⟩ := (not_collides_cells t b hc 0).1
  obtain ⟨-, -, h1, h2⟩ := hs 0
  have hlo := t.OriginY.lo
  have hhi := t.OriginY.hi
  simp only [tetromino.absCell, I32.add, I32.ofInt, wrap32] at h3 h4
  omega

/-- C20: for every board and every active piece that does not collide with it
(a piece with offsets between -2 and 2, as the factory and the rotations make
them, or the active piece of any state reachable from `newGameState`), the
descent of `ActiveTetrominoHardDown` (with fuel for 40 iterations) returns; the
piece is `k ≤ 39` rows lower: same `OriginX`, offsets and colour, `OriginY`
lowered by `k` and so no greater than before, every absolute cell in its column
and exactly `k` rows lower; it does not collide and would collide one more row
down; no `IsFilled` flag changes; the cells of the positions `1..k` below the
start, all unfilled, get `IsGhost = true` and the colour of the piece, and no
other cell and no other field of the state changes. -/
theorem C20_hard_drop_descent (fuel : Nat) (gs : gameState) (t : tetromino)
    (ht : gs.ActiveTetromino = some t) (hc : t.CheckCollision gs.Board = some false)
    (hfuel : 40 ≤ fuel) (hs : t.smallOffsets ∨ Reachable gs) :
    ∃ (k : Nat) (gs' : gameState) (t' : tetromino),
      gs.ActiveTetrominoHardDown fuel = some gs' ∧ gs'.ActiveTetromino = some t' ∧
      k ≤ 39 ∧ t' = t.downBy k ∧
      t'.OriginX = t.OriginX ∧ t'.cells = t.cells ∧ t'.color = t.color ∧
      t'.OriginY.val = t.OriginY.val - k ∧ t'.OriginY.val ≤ t.OriginY.val ∧
      (∀ i, (t'.absCell i).1 = (t.absCell i).1 ∧
        (t'.absCell i).2.val = (t.absCell i).2.val - k) ∧
      t'.CheckCollision gs'.Board = some false ∧
      t'.down.CheckCollision gs'.Board = some true ∧
      (∀ y x, (gs'.Board y x).IsFilled = (gs.Board y x).IsFilled) ∧
      (∀ y x, t.trailOccupies k y x →
        (gs.Board y x).IsFilled = false ∧
          gs'.Board y x = { gs.Board y x with IsGhost := true, Color := t.color }) ∧
      (∀ y x, ¬ t.trailOccupies k y x → gs'.Board y x = gs.Board y x) ∧
      gs'.HoldingTetromino = gs.HoldingTetromino ∧ gs'.TetrominoQueue = gs.TetrominoQueue ∧
      gs'.Phase = gs.Phase ∧ gs'.linesCleared = gs.linesCleared ∧ gs'.Score = gs.Score ∧
      gs'.IsDone = gs.IsDone := by
  have hsmall : t.smallOffsets := by
    rcases hs with h | h
    · exact h
    · exact ((reachable_slotsInGrid gs h).1 t ht).1
  obtain ⟨hlo, hhi⟩ := originY_bounds t gs.Board hsmall hc
  obtain ⟨k, b', hrun, hk, hfree, hstop, hboard⟩ := hardDown_spec fuel gs t ht hc hfuel
  obtain ⟨fx, fc, fcol, fy⟩ := downBy_fields t k
  have hfilled : ∀ y x, (b' y x).IsFilled = (gs.Board y x).IsFilled := by
    intro y x
    rw [hboard y x]
    split_ifs
    · rfl
    · rfl
  have hv : (t.downBy k).OriginY.val = t.OriginY.val - k := by
    rw [fy]
    simp only [I32.ofInt, wrap32]
    omega
  refine ⟨k, _, t.downBy k, hrun, rfl, hk, rfl, fx, fc, fcol, hv, by omega,
    absCell_downBy t gs.Board k hfree, ?_, ?_, hfilled, ?_, ?_, rfl, rfl, rfl, rfl, rfl, rfl⟩
  · show (t.downBy k).CheckCollision b' = some false
    rw [CheckCollision_filled_congr _ gs.Board b' hfilled]
    exact hfree k (le_refl k)
  · show (t.downBy k).down.CheckCollision b' = some true
    rw [CheckCollision_filled_congr _ gs.Board b' hfilled]
    exact hstop
  · intro y x htr
    refine ⟨trail_unfilled t gs.Board k hfree y x htr, ?_⟩
    show b' y x = _
    rw [hboard y x, if_pos htr]
    rfl
  · intro y x htr
    show b' y x = _
    rw [hboard y x, if_neg htr]

set_option maxRecDepth 100000 in
/-- The T piece at the spawn origin over the empty board: the descent returns
and leaves the piece on the floor, no higher than before. -/
theorem C20_hard_drop_descent_witness :
    ∃ (k : Nat) (gs' : gameState) (t' : tetromino),
      (fallingState (some (pieceT 5 20)) none newBoard).ActiveTetrominoHardDown 41 = some gs' ∧
      gs'.ActiveTetromino = some t' ∧ k ≤ 39 ∧
      t'.OriginY.val ≤ (pieceT 5 20).OriginY.val ∧
      t'.CheckCollision gs'.Board = some false ∧
      t'.down.CheckCollision gs'.Board = some true ∧
      (∀ y x, (gs'.Board y x).IsFilled = (newBoard y x).IsFilled) := by
  obtain ⟨k, gs', t', h1, h2, h3, -, -, -, -, -, h4, -, h5, h6, h7, -⟩ :=
    C20_hard_drop_descent 41 (fallingState (some (pieceT 5 20)) none newBoard) (pieceT 5 20)
      rfl (by decide) (by decide) (Or.inl (fun i => by fin_cases i <;> decide))
  exact ⟨k, gs', t', h1, h2, h3, h4, h5, h6, h7⟩

/-! ## Writes outside the lock -/

/-- The two writes of one iteration of the queue loop make the iteration of
`queueShift`. -/
theorem queueWrites_step (q : Fin 5 → tetromino) (p : Fin 5 × Fin 5) :
    Function.update (Function.update q p.1 (q p.2)) p.1
      (tetromino.queueUp (Function.update q p.1 (q p.2) p.1)) = queueShiftStep q p := by
  simp only [queueShiftStep, tetromino.queueUp, Function.update_same, Function.update_idem]

/-- The state the steps of `GenerationPhase` leave is the state `GenerationPhase`
returns. -/
theorem GenerationPhaseSteps_last (gs : gameState) (r : Int) :
    Option.map (lastState gs) (gs.GenerationPhaseSteps r) = gs.GenerationPhase r := by
  obtain ⟨c, hc, -⟩ := CheckCollision_spec
    ((gs.TetrominoQueue 4).movedTo tetrominoGenerateX tetrominoGenerateY) gs.Board
  unfold tetromino.movedTo at hc
  cases hf : NewRandomTetromino r tetrominoQueueX tetrominoQueueY with
  | none => simp only [gameState.GenerationPhaseSteps, gameState.GenerationPhase, hc, hf]; rfl
  | some fresh =>
    simp only [gameState.GenerationPhaseSteps, gameState.GenerationPhase, hc, hf,
      Option.map_some', queueWrites, lastState, List.cons_append, List.nil_append,
      List.getLast?_cons_cons, List.getLast?_singleton, queueShift, List.foldl_cons,
      List.foldl_nil, ← queueWrites_step, tetromino.queueUp]

/-- The steps of `GenerationPhase`, whenever it returns: the first is under the
lock and the ten after it are not; the second, the first assignment of the
queue loop, leaves the entry of index 3 at the indices 3 and 4. -/
theorem GenerationPhaseSteps_spec (gs : gameState) (r : Int) (steps : List lockStep)
    (h : gs.GenerationPhaseSteps r = some steps) :
    steps.map lockStep.locked =
      [true, false, false, false, false, false, false, false, false, false, false] ∧
    ∃ s, steps[1]? = some s ∧ s.locked = false ∧
      s.state = { gs with
        ActiveTetromino :=
          some ((gs.TetrominoQueue 4).movedTo tetrominoGenerateX tetrominoGenerateY)
        TetrominoQueue := Function.update gs.TetrominoQueue 4 (gs.TetrominoQueue 3) } := by
  obtain ⟨c, hc, -⟩ := CheckCollision_spec
    ((gs.TetrominoQueue 4).movedTo tetrominoGenerateX tetrominoGenerateY) gs.Board
  unfold tetromino.movedTo at hc
  cases hf : NewRandomTetromino r tetrominoQueueX tetrominoQueueY with
  | none =>
    simp only [gameState.GenerationPhaseSteps, hc, hf] at h
    exact absurd h (by simp)
  | some fresh =>
    simp only [gameState.GenerationPhaseSteps, hc, hf, queueWrites, List.cons_append,
      List.nil_append] at h
    have e := Option.some.inj h
    subst e
    exact ⟨rfl, _, rfl, rfl, rfl⟩

/-- The steps of `GenerationPhase` exist whenever `GenerationPhase` returns. -/
theorem GenerationPhaseSteps_some (gs gs' : gameState) (r : Int)
    (h : gs.GenerationPhase r = some gs') :
    ∃ steps, gs.GenerationPhaseSteps r = some steps ∧ lastState gs steps = gs' := by
  have hl := GenerationPhaseSteps_last gs r
  rw [h] at hl
  cases hs : gs.GenerationPhaseSteps r with
  | none => rw [hs] at hl; exact absurd hl (by simp)
  | some steps =>
    rw [hs] at hl
    exact ⟨steps, rfl, Option.some.inj hl⟩

/-- The steps of `LockPhase`: the state they leave is the state `LockPhase`
returns; the first is under the lock, the assignment of the phase is not. -/
theorem LockPhaseSteps_spec (gs : gameState) :
    Option.map (lastState gs) gs.LockPhaseSteps = gs.LockPhase ∧
    ∀ steps, gs.LockPhaseSteps = some steps → steps.map lockStep.locked = [true, false] := by
  cases ha : gs.ActiveTetromino with
  | none =>
    simp only [gameState.LockPhaseSteps, gameState.LockPhase, ha]
    exact ⟨rfl, fun steps h => absurd h (by simp)⟩
  | some t =>
    cases hb : t.CommitToBoard gs.Board with
    | none =>
      simp only [gameState.LockPhaseSteps, gameState.LockPhase, ha, hb]
      exact ⟨rfl, fun steps h => absurd h (by simp)⟩
    | some b =>
      simp only [gameState.LockPhaseSteps, gameState.LockPhase, ha, hb]
      refine ⟨rfl, fun steps h => ?_⟩
      have e := Option.some.inj h
      subst e
      rfl

/-- The steps of `CompletionPhase`: the state they leave is the state
`CompletionPhase` returns; without a full row the marking is under the lock and
the assignment of the phase is not; with one, the two counters and the phase
are assigned outside the lock, and after the first of these assignments
`linesCleared` is the new one while `Score` is the old one. -/
theorem CompletionPhaseSteps_spec (gs : gameState) :
    lastState gs gs.CompletionPhaseSteps = gs.CompletionPhase ∧
    ((markRows gs.Board).2.length = 0 →
      gs.CompletionPhaseSteps.map lockStep.locked = [true, false]) ∧
    ((markRows gs.Board).2.length > 0 →
      gs.CompletionPhaseSteps.map lockStep.locked = [true, false, false, true, false] ∧
      ∃ s, gs.CompletionPhaseSteps[1]? = some s ∧ s.locked = false ∧
        s.state.linesCleared =
          GoInt.add gs.linesCleared (GoInt.ofInt (markRows gs.Board).2.length) ∧
        s.state.Score = gs.Score) := by
  unfold gameState.CompletionPhaseSteps gameState.CompletionPhase
  dsimp only
  by_cases hn : (markRows gs.Board).2.length > 0
  · rw [if_pos hn, if_pos hn]
    refine ⟨?_, fun h0 => absurd hn (by omega), fun _ => ⟨?_, ?_⟩⟩
    · simp only [lastState, List.getLast?_cons_cons, List.getLast?_singleton]
    · simp only [List.map_cons, List.map_nil]
    · simp only [List.getElem?_cons_succ, List.getElem?_cons_zero, Option.some.injEq,
        exists_eq_left']
      exact ⟨True.intro, True.intro, True.intro⟩
  · rw [if_neg hn, if_neg hn]
    refine ⟨?_, fun _ => ?_, fun h0 => absurd h0 hn⟩
    · simp only [lastState, List.getLast?_cons_cons, List.getLast?_singleton]
    · simp only [List.map_cons, List.map_nil]

set_option maxRecDepth 100000 in
/-- C18 breaks: the simulation task writes the queue, the phase, `linesCleared`
and `Score` outside `WithLock`. Cut at its `WithLock` call, `GenerationPhase`
is one step under the lock (the spawn) and ten assignments outside it (the
queue loop, the fresh piece, the phase), and they leave the state
`GenerationPhase` returns; after the first of them the entry of index 3 is at
the indices 3 and 4 of the queue. `LockPhase` assigns the phase outside the
lock, and `CompletionPhase` the phase and, with a full row, `linesCleared` and
`Score`. At `mixedQueueState` with selector 0 the render task, whose shared
lock is free to take after that first assignment, finds the queue with two
equal entries at the indices 3 and 4 (the same T piece at the origin row 13 of
slot 3), which it had neither before nor after the handler; at
`completionState (boardWithFullRows 1) 0` it finds `linesCleared = 1` with
`Score = 0`, where the handler leaves `Score = 100`. -/
theorem C18_writes_outside_the_lock :
    (∀ (gs : gameState) (r : Int),
      Option.map (lastState gs) (gs.GenerationPhaseSteps r) = gs.GenerationPhase r) ∧
    (∀ (gs : gameState) (r : Int) (steps : List lockStep),
      gs.GenerationPhaseSteps r = some steps →
      steps.map lockStep.locked =
        [true, false, false, false, false, false, false, false, false, false, false] ∧
      ∃ s, steps[1]? = some s ∧ s.locked = false ∧
        s.state.TetrominoQueue 4 = gs.TetrominoQueue 3 ∧
        s.state.TetrominoQueue 3 = gs.TetrominoQueue 3) ∧
    (∀ gs : gameState, Option.map (lastState gs) gs.LockPhaseSteps = gs.LockPhase ∧
      ∀ steps, gs.LockPhaseSteps = some steps → steps.map lockStep.locked = [true, false]) ∧
    (∀ gs : gameState, lastState gs gs.CompletionPhaseSteps = gs.CompletionPhase ∧
      ((markRows gs.Board).2.length = 0 →
        gs.CompletionPhaseSteps.map lockStep.locked = [true, false]) ∧
      ((markRows gs.Board).2.length > 0 →
        gs.CompletionPhaseSteps.map lockStep.locked = [true, false, false, true, false])) ∧
    (∃ steps s gs', mixedQueueState.GenerationPhaseSteps 0 = some steps ∧
      mixedQueueState.GenerationPhase 0 = some gs' ∧
      steps[1]? = some s ∧ s.locked = false ∧
      s.state.TetrominoQueue 4 = s.state.TetrominoQueue 3 ∧
      (s.state.TetrominoQueue 4).OriginY.val = 13 ∧
      (mixedQueueState.TetrominoQueue 4).OriginY.val = 17 ∧
      (gs'.TetrominoQueue 4).OriginY.val = 17 ∧
      queueInSlots mixedQueueState.TetrominoQueue ∧ queueInSlots gs'.TetrominoQueue ∧
      ¬ queueInSlots s.state.TetrominoQueue) ∧
    (∃ s, (completionState (boardWithFullRows 1) 0).CompletionPhaseSteps[1]? = some s ∧
      s.locked = false ∧ s.state.linesCleared.val = 1 ∧ s.state.Score.val = 0 ∧
      (completionState (boardWithFullRows 1) 0).CompletionPhase.Score.val = 100) := by
  refine ⟨GenerationPhaseSteps_last, ?_, LockPhaseSteps_spec, ?_, ?_, ?_⟩
  · intro gs r steps h
    obtain ⟨h1, s, h2, h3, h4⟩ := GenerationPhaseSteps_spec gs r steps h
    refine ⟨h1, s, h2, h3, ?_, ?_⟩
    · rw [h4]; simp [Function.update]
    · rw [h4]; simp [Function.update]
  · intro gs
    obtain ⟨h1, h2, h3⟩ := CompletionPhaseSteps_spec gs
    exact ⟨h1, h2, fun h => (h3 h).1⟩
  · obtain ⟨gs', fresh, hgen, -, -, -, q1, q2, q3, q4⟩ :=
      GenerationPhase_queue mixedQueueState 0 (by decide) (by decide)
    obtain ⟨steps, hsteps, -⟩ := GenerationPhaseSteps_some mixedQueueState gs' 0 hgen
    obtain ⟨-, s, h2, h3, h4⟩ := GenerationPhaseSteps_spec mixedQueueState 0 steps hsteps
    have hq : queueInSlots mixedQueueState.TetrominoQueue := by
      intro i
      fin_cases i <;> decide
    have hq' : queueInSlots gs'.TetrominoQueue := by
      obtain ⟨fresh2, hf2, -, -, hqq⟩ := GenerationPhase_slots mixedQueueState gs' 0 hgen
      obtain ⟨hx, hy, -⟩ := NewRandomTetromino_shape _ _ _ _ hf2
      rw [hqq]
      exact queueInSlots_generation _ fresh2 hq hx hy
    refine ⟨steps, s, gs', hsteps, hgen, h2, h3, ?_, ?_, by decide, ?_, hq, hq', ?_⟩
    · rw [h4]; simp [Function.update]
    · rw [h4]; decide
    · exact (hq' 4).2
    · intro hbad
      have h5 := (hbad 4).2
      rw [h4] at h5
      revert h5
      decide
  · obtain ⟨-, -, h3⟩ := CompletionPhaseSteps_spec (completionState (boardWithFullRows 1) 0)
    have hlen : (markRows (completionState (boardWithFullRows 1) 0).Board).2.length = 1 := by
      decide
    obtain ⟨-, s, h4, h5, h6, h7⟩ := h3 (by omega)
    refine ⟨s, h4, h5, ?_, ?_, ?_⟩
    · rw [h6, hlen]; decide
    · rw [h7]; decide
    · decide

end Getris
